import Mathlib

/-!
# Prim's minimum spanning tree (`src/main.go`)

A shallow embedding of `src/main.go` and of the parts of Go's `container/heap`
that it calls, followed by theorems about them.

Conventions of the embedding.

* A Go slice is a `List`; `s[i]` is `idx s i`, which faults with `Fault.index`
  when `i` is not below the length (the Go run-time panic).
* Vertex numbers, vertex counts and slice indices are Go `int`s that the program
  only ever uses as lengths and indices.  They are embedded as `Nat`: a negative
  value panics at the very access where a value beyond the length panics.
* Weights are Go `int`s, embedded as `Int`.  The only arithmetic on them is
  `totalWeight += weight`, which is reduced to the 64-bit two's complement range
  by `wrap64`.
* Loops of the source are functions that recurse on an iteration budget; running
  out of budget is the fault `Fault.fuel`, which no Go run produces.  The
  budgets handed out by the callers are shown to suffice.
-/

set_option autoImplicit false

namespace Prime

/-! ## Faults and slice access -/

/-- Ways in which a run of the embedded program stops without a result. -/
inductive Fault where
  /-- Go run-time panic: index out of range. -/
  | index
  /-- The iteration budget of the embedding ran out (never a Go behaviour). -/
  | fuel
deriving DecidableEq, Repr

/-- Slice read `xs[i]`: the element, or the index panic. -/
def idx {α : Type} (xs : List α) (i : Nat) : Except Fault α :=
  match xs[i]? with
  | some x => .ok x
  | none => .error .index

/-- Reduction of an integer to the range of a 64-bit signed Go `int`. -/
def wrap64 (x : Int) : Int :=
  (x + 9223372036854775808) % 18446744073709551616 - 9223372036854775808

/-! ## Graph (`main.go` lines 8-31) -/

/-- Line 9: `type Edge struct { to, weight int }`; the field `to` is `dest` here,
`to` being a reserved word. -/
structure Edge where
  dest : Nat
  weight : Int
deriving DecidableEq, Repr

/-- Line 14: `type Graph struct { vertices int; adjList [][]Edge }`. -/
structure Graph where
  vertices : Nat
  adjList : List (List Edge)
deriving DecidableEq, Repr

/-- Line 20: `NewGraph`; `make([][]Edge, vertices)` is `vertices` nil slices. -/
def NewGraph (vertices : Nat) : Graph :=
  { vertices := vertices, adjList := List.replicate vertices [] }

/-- Line 28: `AddEdge`.  Two slice assignments, each reading the slot it writes. -/
def Graph.AddEdge (g : Graph) (frm dest : Nat) (weight : Int) : Except Fault Graph := do
  let l1 ← idx g.adjList frm
  let g1 : Graph := { g with adjList := g.adjList.set frm (l1 ++ [⟨dest, weight⟩]) }
  let l2 ← idx g1.adjList dest
  pure { g1 with adjList := g1.adjList.set dest (l2 ++ [⟨frm, weight⟩]) }

/-! ## Priority queue (`main.go` lines 33-66) -/

/-- Line 34: `type Item struct { vertex, weight int }`. -/
structure Item where
  vertex : Nat
  weight : Int
deriving DecidableEq, Repr

/-- Line 39: `type PriorityQueue []*Item`. -/
abbrev PriorityQueue := List Item

/-- Line 42: `Len`. -/
def PriorityQueue.Len (pq : PriorityQueue) : Nat := pq.length

/-- Line 45: `Less`. -/
def PriorityQueue.Less (pq : PriorityQueue) (i j : Nat) : Except Fault Bool := do
  let a ← idx pq i
  let b ← idx pq j
  pure (decide (a.weight < b.weight))

/-- Line 50: `Swap`. -/
def PriorityQueue.Swap (pq : PriorityQueue) (i j : Nat) : Except Fault PriorityQueue := do
  let a ← idx pq i
  let b ← idx pq j
  pure ((pq.set i b).set j a)

/-- Line 55: the method `Push`, an append. -/
def PriorityQueue.Push (pq : PriorityQueue) (x : Item) : PriorityQueue := pq ++ [x]

/-- Line 60: the method `Pop`: the last element and the slice without it. -/
def PriorityQueue.Pop (pq : PriorityQueue) : Except Fault (Item × PriorityQueue) := do
  let n := pq.length
  let item ← idx pq (n - 1)
  pure (item, pq.take (n - 1))

/-! ## `container/heap` (Go standard library), as called by `PrimMST` -/

/-- The loop of `heap.up(h, j)`: `i := (j-1)/2`, stop when `i == j` or not
`Less(j, i)`, else `Swap(i, j)` and continue at `i`.  (`(0-1)/2` is `0` in Go as
it is for `Nat`.) -/
def heap.up : Nat → PriorityQueue → Nat → Except Fault PriorityQueue
  | 0, _, _ => .error .fuel
  | fuel + 1, h, j =>
    let i := (j - 1) / 2
    if i = j then .ok h
    else do
      let lt ← PriorityQueue.Less h j i
      if !lt then .ok h
      else do
        let h1 ← PriorityQueue.Swap h i j
        heap.up fuel h1 i

/-- The loop of `heap.down(h, i0, n)`; the boolean it returns is dropped, since
neither `heap.Init` nor `heap.Pop` looks at it.  The test `j1 < 0` of the Go source
catches the overflow of `2*i + 1`, which no `Nat` index has. -/
def heap.down : Nat → PriorityQueue → Nat → Nat → Except Fault PriorityQueue
  | 0, _, _, _ => .error .fuel
  | fuel + 1, h, i, n =>
    let j1 := 2 * i + 1
    if j1 ≥ n then .ok h
    else do
      let j2 := j1 + 1
      let lt21 ← if j2 < n then PriorityQueue.Less h j2 j1 else pure false
      let j := if lt21 then j2 else j1
      let lt ← PriorityQueue.Less h j i
      if !lt then .ok h
      else do
        let h1 ← PriorityQueue.Swap h i j
        heap.down fuel h1 j n

/-- Function `heap.Init`: `down(h, i, n)` for `i = n/2 - 1` down to `0`. -/
def heap.Init (h : PriorityQueue) : Except Fault PriorityQueue :=
  let n := PriorityQueue.Len h
  (List.range (n / 2)).reverse.foldlM (fun acc i => heap.down (n + 1) acc i n) h

/-- Function `heap.Push`: the method `Push`, then `up(h, h.Len()-1)`. -/
def heap.Push (h : PriorityQueue) (x : Item) : Except Fault PriorityQueue :=
  let h1 := PriorityQueue.Push h x
  heap.up (PriorityQueue.Len h1) h1 (PriorityQueue.Len h1 - 1)

/-- Function `heap.Pop`: `n := h.Len()-1; h.Swap(0, n); down(h, 0, n); h.Pop()`. -/
def heap.Pop (h : PriorityQueue) : Except Fault (Item × PriorityQueue) := do
  let n := PriorityQueue.Len h - 1
  let h1 ← PriorityQueue.Swap h 0 n
  let h2 ← heap.down (n + 1) h1 0 n
  PriorityQueue.Pop h2

/-! ## `PrimMST` (`main.go` lines 68-109) -/

/-- The local variables of `PrimMST` that the loop changes. -/
structure PrimState where
  totalWeight : Int
  visited : List Bool
  pq : PriorityQueue
deriving DecidableEq, Repr

/-- Lines 101-105: the scan of `g.adjList[vertex]`. -/
def pushNeighbours (visited : List Bool) : List Edge → PriorityQueue → Except Fault PriorityQueue
  | [], pq => .ok pq
  | edge :: rest, pq => do
    let seen ← idx visited edge.dest
    if !seen then do
      let pq1 ← heap.Push pq ⟨edge.dest, edge.weight⟩
      pushNeighbours visited rest pq1
    else pushNeighbours visited rest pq

/-- Lines 83-106: the loop `for pq.Len() > 0`, one iteration per unit of budget. -/
def primLoop (g : Graph) : Nat → PrimState → Except Fault Int
  | 0, _ => .error .fuel
  | fuel + 1, st =>
    if PriorityQueue.Len st.pq > 0 then do
      let (item, pq1) ← heap.Pop st.pq
      let vertex := item.vertex
      let weight := item.weight
      let seen ← idx st.visited vertex
      if seen then primLoop g fuel { st with pq := pq1 }
      else do
        let visited := st.visited.set vertex true
        let totalWeight := wrap64 (st.totalWeight + weight)
        let adj ← idx g.adjList vertex
        let pq2 ← pushNeighbours visited adj pq1
        primLoop g fuel { totalWeight := totalWeight, visited := visited, pq := pq2 }
    else .ok st.totalWeight

/-- Number of adjacency entries of the graph (two for every `AddEdge`). -/
def Graph.entries (g : Graph) : Nat := (g.adjList.map List.length).sum

/-- Line 69: `PrimMST`.  The loop gets a budget of `entries + 2` iterations. -/
def Graph.PrimMST (g : Graph) : Except Fault Int := do
  let visited := List.replicate g.vertices false
  let pq0 ← heap.Init []
  let pq ← heap.Push pq0 ⟨0, 0⟩
  primLoop g (g.entries + 2) { totalWeight := 0, visited := visited, pq := pq }

/-- A graph as the program builds it: `NewGraph(n)` and then one `AddEdge` call
for every triple `(u, v, w)` of the list, in order. -/
def build (n : Nat) (calls : List (Nat × Nat × Int)) : Except Fault Graph :=
  calls.foldlM (fun g c => Graph.AddEdge g c.1 c.2.1 c.2.2) (NewGraph n)

/-- The seven `AddEdge` calls of `main` (lines 116-122). -/
def mainCalls : List (Nat × Nat × Int) :=
  [(0, 1, 2), (0, 3, 6), (1, 2, 3), (1, 3, 8), (1, 4, 5), (2, 4, 7), (3, 4, 9)]

/-- Lines 113-125 of `main`: build the graph, then call `PrimMST`. -/
def mainTotal : Except Fault Int := do
  let graph ← build 5 mainCalls
  graph.PrimMST

/-! ## `PrimMST` as a program on memory

The receiver of `PrimMST` is a pointer, so a call works on the graph object in
memory.  Here the graph object is a variable of the state, next to the locals, and
every statement of lines 71-108 is a step on that state; what the call leaves in
the graph object is whatever these steps leave there. -/

/-- The variables a call of `g.PrimMST()` works on: the graph object behind the
receiver, and the locals `totalWeight`, `visited` and `pq` of lines 71-77. -/
structure Memory where
  graph : Graph
  totalWeight : Int
  visited : List Bool
  pq : PriorityQueue

/-- Lines 101-105 on the memory: the scan reads `visited` and assigns to `pq`. -/
def memScan : List Edge → Memory → Except Fault Memory
  | [], m => .ok m
  | edge :: rest, m => do
    let seen ← idx m.visited edge.dest
    if !seen then do
      let pq1 ← heap.Push m.pq ⟨edge.dest, edge.weight⟩
      memScan rest { m with pq := pq1 }
    else memScan rest m

/-- Lines 83-106 on the memory, one iteration per unit of budget: `heap.Pop`
assigns to `pq`, line 95 to `visited`, line 98 to `totalWeight`, and line 101 reads
the slice `adjList[vertex]` of the graph object as it is in memory then. -/
def memLoop : Nat → Memory → Except Fault Memory
  | 0, _ => .error .fuel
  | fuel + 1, m =>
    if PriorityQueue.Len m.pq > 0 then do
      let (item, pq1) ← heap.Pop m.pq
      let m1 : Memory := { m with pq := pq1 }
      let vertex := item.vertex
      let weight := item.weight
      let seen ← idx m1.visited vertex
      if seen then memLoop fuel m1
      else do
        let m2 : Memory := { m1 with visited := m1.visited.set vertex true }
        let m3 : Memory := { m2 with totalWeight := wrap64 (m2.totalWeight + weight) }
        let adj ← idx m3.graph.adjList vertex
        let m4 ← memScan adj m3
        memLoop fuel m4
    else .ok m

/-- The call `g.PrimMST()` (lines 69-109) as a step of a program whose state is the
graph object: the locals are set up by lines 71-81, the loop runs on the memory,
and the call leaves the graph object of the last memory and returns the last
`totalWeight`. -/
def Graph.callPrimMST (g : Graph) : Except Fault (Graph × Int) := do
  let visited := List.replicate g.vertices false
  let pq0 ← heap.Init []
  let pq ← heap.Push pq0 ⟨0, 0⟩
  let m ← memLoop (g.entries + 2)
    { graph := g, totalWeight := 0, visited := visited, pq := pq }
  pure (m.graph, m.totalWeight)

/-- Two calls of `PrimMST` in a row on the same receiver: the second call works on
the graph object that the first call left; the graph object after both calls and
the two totals. -/
def Graph.callPrimMSTTwice (g : Graph) : Except Fault (Graph × Int × Int) := do
  let (g1, t1) ← g.callPrimMST
  let (g2, t2) ← g1.callPrimMST
  pure (g2, t1, t2)

/-! ## The loop of `PrimMST`, one iteration at a time -/

/-- Lines 71-81: the state in which the loop is entered. -/
def primInit (g : Graph) : Except Fault PrimState := do
  let visited := List.replicate g.vertices false
  let pq0 ← heap.Init []
  let pq ← heap.Push pq0 ⟨0, 0⟩
  pure { totalWeight := 0, visited := visited, pq := pq }

/-- Lines 101-105 with a counter: the queue after the scan and the number of times
line 103 ran. -/
def pushNeighboursCount (visited : List Bool) :
    List Edge → PriorityQueue → Except Fault (PriorityQueue × Nat)
  | [], pq => .ok (pq, 0)
  | edge :: rest, pq => do
    let seen ← idx visited edge.dest
    if !seen then do
      let pq1 ← heap.Push pq ⟨edge.dest, edge.weight⟩
      let (pq2, k) ← pushNeighboursCount visited rest pq1
      pure (pq2, k + 1)
    else pushNeighboursCount visited rest pq

/-- What one iteration of the loop did: the item it popped, whether the guard of
line 90 let the item through (lines 94-105 ran), and how often line 103 pushed. -/
structure StepLog where
  item : Item
  honoured : Bool
  pushes : Nat
deriving DecidableEq, Repr

/-- Lines 85-105: one iteration of the loop body, from the state at the loop head
to the state at the next loop head, with the record of what it did. -/
def primStepLog (g : Graph) (st : PrimState) : Except Fault (PrimState × StepLog) := do
  let (item, pq1) ← heap.Pop st.pq
  let vertex := item.vertex
  let weight := item.weight
  let seen ← idx st.visited vertex
  if seen then pure ({ st with pq := pq1 }, { item := item, honoured := false, pushes := 0 })
  else do
    let visited := st.visited.set vertex true
    let totalWeight := wrap64 (st.totalWeight + weight)
    let adj ← idx g.adjList vertex
    let (pq2, k) ← pushNeighboursCount visited adj pq1
    pure ({ totalWeight := totalWeight, visited := visited, pq := pq2 },
      { item := item, honoured := true, pushes := k })

/-! ## Vocabulary of the statements -/

/-- The adjacency slice of vertex `u`, empty when `u` is not a slot of `adjList`. -/
def Graph.adj (g : Graph) (u : Nat) : List Edge := g.adjList.getD u []

/-- The arguments `(from, to, weight)` of one `AddEdge` call, read as an undirected
weighted edge between `from` and `to`. -/
abbrev Call := Nat × Nat × Int

/-- Every endpoint of every call is a vertex of a graph with `n` vertices. -/
def InRange (n : Nat) (calls : List Call) : Prop := ∀ c ∈ calls, c.1 < n ∧ c.2.1 < n

/-- Every weight is non-negative. -/
def NonNeg (calls : List Call) : Prop := ∀ c ∈ calls, 0 ≤ c.2.2

/-- The edge `c` has the end points `x` and `y`, in either order. -/
def Joins (c : Call) (x y : Nat) : Prop := (c.1 = x ∧ c.2.1 = y) ∨ (c.1 = y ∧ c.2.1 = x)

/-- From `x` a walk along edges of `F` leads to a vertex of the set `S`. -/
inductive Reach (F : List Call) (S : Nat → Prop) : Nat → Prop where
  | base {x : Nat} : S x → Reach F S x
  | step {x y : Nat} {c : Call} : c ∈ F → Joins c x y → Reach F S y → Reach F S x

/-- Vertex `x` is joined to vertex `0` by a walk along edges of `F`. -/
def Linked (F : List Call) (x : Nat) : Prop := Reach F (fun y => y = 0) x

/-- Sum of the weights of a list of edges. -/
def weightSum (F : List Call) : Int := (F.map (fun c => c.2.2)).sum

/-- The selection `F` of edges of the graph joins every vertex of the component of
vertex `0` to vertex `0`. -/
def Spans (calls F : List Call) : Prop := ∀ x, Linked calls x → Linked F x

/-- `T` is a spanning tree of the component of vertex `0` in the graph with the
edges `calls`: a selection of the edges (each `AddEdge` call used at most once)
with all end points in the component, joining every vertex of the component to
vertex `0`, with one edge less than the component has vertices. -/
structure IsSpanningTree (calls T : List Call) : Prop where
  sub : T.Subperm calls
  inside : ∀ c ∈ T, Linked calls c.1 ∧ Linked calls c.2.1
  spans : Spans calls T
  card : ∃ vs : List Nat, vs.Nodup ∧ (∀ x, x ∈ vs ↔ Linked calls x) ∧ T.length + 1 = vs.length

/-- The number `m` is the least weight of a spanning tree of the component of vertex `0`. -/
def IsMSTWeight (calls : List Call) (m : Int) : Prop :=
  (∃ T, IsSpanningTree calls T ∧ weightSum T = m) ∧
    ∀ T, IsSpanningTree calls T → m ≤ weightSum T

/-- The graph with `n` vertices and the edges `calls` is connected. -/
def Connected (n : Nat) (calls : List Call) : Prop := ∀ x, x < n → Linked calls x

/-- `T` is a spanning tree of the whole graph on the vertices `0, ..., n-1`: a
selection of the edges that joins every vertex to vertex `0` and has `n - 1` edges. -/
structure IsSpanningTreeOfGraph (n : Nat) (calls T : List Call) : Prop where
  sub : T.Subperm calls
  spans : ∀ x, x < n → Linked T x
  card : T.length + 1 = n

/-- The number `m` is the least weight of a spanning tree of the whole graph. -/
def IsMSTWeightOfGraph (n : Nat) (calls : List Call) (m : Int) : Prop :=
  (∃ T, IsSpanningTreeOfGraph n calls T ∧ weightSum T = m) ∧
    ∀ T, IsSpanningTreeOfGraph n calls T → m ≤ weightSum T

/-- The weight of the item in slot `k` of the queue (`0` past the end). -/
def keyAt (h : PriorityQueue) (k : Nat) : Int :=
  match h[k]? with
  | some it => it.weight
  | none => 0

/-- Heap order on the first `n` slots: no item is lighter than its parent `(k-1)/2`. -/
def HeapUpTo (h : PriorityQueue) (n : Nat) : Prop :=
  ∀ k, 0 < k → k < n → keyAt h ((k - 1) / 2) ≤ keyAt h k

/-- Heap order on the whole queue. -/
def HeapInv (h : PriorityQueue) : Prop := HeapUpTo h h.length

/-- The queue `h` with the items of the slots `i` and `j` exchanged. -/
def exchanged (h : PriorityQueue) (i j : Nat) : PriorityQueue :=
  match h[i]?, h[j]? with
  | some a, some b => (h.set i b).set j a
  | _, _ => h

/-- Queues that `heap.Push` and `heap.Pop` produce from the empty queue. -/
inductive HeapReachable : PriorityQueue → Prop where
  | empty : HeapReachable []
  | push {h h1 : PriorityQueue} (x : Item) :
      HeapReachable h → heap.Push h x = .ok h1 → HeapReachable h1
  | pop {h h1 : PriorityQueue} {x : Item} :
      HeapReachable h → heap.Pop h = .ok (x, h1) → HeapReachable h1

/-- A walk from `x` to `z` along edges of `F` whose end points all lie outside `S`. -/
inductive OutsideWalk (F : List Call) (S : Nat → Prop) : Nat → Nat → Prop where
  | refl (x : Nat) : OutsideWalk F S x x
  | step {x y z : Nat} {c : Call} :
      c ∈ F → Joins c x y → ¬ S x → ¬ S y → OutsideWalk F S y z → OutsideWalk F S x z

/-- Adjacency entries of the vertices not yet visited: the pushes still to come. -/
def pending : List Bool → List (List Edge) → Nat
  | [], _ => 0
  | _, [] => 0
  | b :: bs, l :: ls => (if b then 0 else l.length) + pending bs ls

/-- The item that line 103 pushes for an adjacency entry. -/
def Edge.item (e : Edge) : Item := { vertex := e.dest, weight := e.weight }

/-- The vertex `x` is marked in the slice `visited`. -/
def Marked (visited : List Bool) (x : Nat) : Prop := visited[x]? = some true

/-- The graph `g` is what `NewGraph(n)` and the in-range calls `calls` build: `n`
slots, and the entry `(v, w)` in the slice of `u` exactly when a call joined `u`
and `v` with weight `w`. -/
structure Built (n : Nat) (calls : List Call) (g : Graph) : Prop where
  vertices : g.vertices = n
  len : g.adjList.length = n
  adj : ∀ u v w, (⟨v, w⟩ : Edge) ∈ g.adj u ↔ ((u, v, w) ∈ calls ∨ (v, u, w) ∈ calls)
  range : InRange n calls

/-- Invariant of the loop of `PrimMST` from the second iteration on; `T` is the
list of the edges whose items the loop has honoured so far. -/
structure PrimInv (g : Graph) (calls : List Call) (st : PrimState) (T : List Call) : Prop where
  len : st.visited.length = g.adjList.length
  root : Marked st.visited 0
  heap : HeapInv st.pq
  total : wrap64 st.totalWeight = st.totalWeight
  sound : ∀ it ∈ st.pq, ∃ u, Marked st.visited u ∧ (⟨it.vertex, it.weight⟩ : Edge) ∈ g.adj u
  complete : ∀ u v w, Marked st.visited u → (⟨v, w⟩ : Edge) ∈ g.adj u →
    ¬ Marked st.visited v → (⟨v, w⟩ : Item) ∈ st.pq
  sub : T.Subperm calls
  ends : ∀ c ∈ T, Marked st.visited c.1 ∧ Marked st.visited c.2.1
  linked : ∀ x, Marked st.visited x → Linked T x
  card : ∃ vs : List Nat, vs.Nodup ∧ (∀ x, x ∈ vs ↔ Marked st.visited x) ∧
    T.length + 1 = vs.length

/-- Every adjacency entry has its mirror entry: `(v, w)` in the slice of `u` comes
with `(u, w)` in the slice of `v`. -/
def Mirrored (g : Graph) : Prop :=
  ∀ u v w, (⟨v, w⟩ : Edge) ∈ g.adj u → (⟨u, w⟩ : Edge) ∈ g.adj v

/-- The call `d` is the call `c` or the call `c` with its end points exchanged. -/
def SameOrFlipped (c d : Call) : Prop := d = c ∨ d = (c.2.1, c.1, c.2.2)

/-- The call sequence `calls2` is a permutation of `calls1` in which some calls
`AddEdge(u, v, w)` may have been replaced by `AddEdge(v, u, w)`. -/
def SameEdges (calls1 calls2 : List Call) : Prop :=
  ∃ mid, List.Forall₂ SameOrFlipped calls1 mid ∧ mid.Perm calls2

/-- Two edges of weight `2^62` each, on the path `0 - 1 - 2`. -/
def heavyPath : List Call :=
  [(0, 1, 4611686018427387904), (1, 2, 4611686018427387904)]

/-- A run of the loop: from the state `st` at the loop head, the iterations with
the records `logs`, in order, lead to the state `st2` at the loop head.  An
iteration is run only when the loop test `pq.Len() > 0` of line 83 holds. -/
inductive Steps (g : Graph) : PrimState → List StepLog → PrimState → Prop where
  | done (st : PrimState) : Steps g st [] st
  | next {st st1 st2 : PrimState} {log : StepLog} {logs : List StepLog} :
      PriorityQueue.Len st.pq > 0 → primStepLog g st = .ok (st1, log) →
      Steps g st1 logs st2 → Steps g st (log :: logs) st2

/-- The vertices whose adjacency slice a run scanned, in order. -/
def scanned (logs : List StepLog) : List Nat :=
  (logs.filter (fun l => l.honoured)).map (fun l => l.item.vertex)

/-- The number of items a run pushed in its scans. -/
def pushed (logs : List StepLog) : Nat := (logs.map (fun l => l.pushes)).sum

/-! ## Slice access and `AddEdge` -/

theorem idx_eq_ok {α : Type} {xs : List α} {i : Nat} (h : i < xs.length) :
    idx xs i = .ok xs[i] := by
  simp [idx, List.getElem?_eq_getElem h]

theorem idx_eq_error {α : Type} {xs : List α} {i : Nat} (h : xs.length ≤ i) :
    idx xs i = .error .index := by
  simp [idx, List.getElem?_eq_none h]

theorem idx_ok_iff {α : Type} {xs : List α} {i : Nat} {x : α} :
    idx xs i = .ok x ↔ xs[i]? = some x := by
  unfold idx
  cases h : xs[i]? <;> simp

theorem AddEdge_ok (g : Graph) (u v : Nat) (w : Int)
    (hu : u < g.adjList.length) (hv : v < g.adjList.length) :
    g.AddEdge u v w = .ok
      { vertices := g.vertices,
        adjList := (g.adjList.set u (g.adjList.getD u [] ++ [⟨v, w⟩])).set v
          ((g.adjList.set u (g.adjList.getD u [] ++ [⟨v, w⟩])).getD v [] ++ [⟨u, w⟩]) } := by
  have hv1 : v < (g.adjList.set u (g.adjList.getD u [] ++ [⟨v, w⟩])).length := by simpa using hv
  unfold Graph.AddEdge
  rw [idx_eq_ok hu]
  simp only [bind, Except.bind, pure, Except.pure]
  rw [idx_eq_ok (by simpa using hv)]
  simp [List.getD_eq_getElem?_getD, hu, hv]

/-! ## The priority queue: `Less`, `Swap` and the exchange of two slots -/

theorem keyAt_of_lt {h : PriorityQueue} {k : Nat} (hk : k < h.length) :
    keyAt h k = h[k].weight := by
  simp [keyAt, List.getElem?_eq_getElem hk]

theorem Less_ok {h : PriorityQueue} {i j : Nat} (hi : i < h.length) (hj : j < h.length) :
    PriorityQueue.Less h i j = .ok (decide (keyAt h i < keyAt h j)) := by
  unfold PriorityQueue.Less
  rw [idx_eq_ok hi, idx_eq_ok hj, keyAt_of_lt hi, keyAt_of_lt hj]
  rfl

theorem Swap_ok {h : PriorityQueue} {i j : Nat} (hi : i < h.length) (hj : j < h.length) :
    PriorityQueue.Swap h i j = .ok (exchanged h i j) := by
  unfold PriorityQueue.Swap exchanged
  rw [idx_eq_ok hi, idx_eq_ok hj]
  simp only [List.getElem?_eq_getElem hi, List.getElem?_eq_getElem hj]
  rfl

theorem exchanged_length (h : PriorityQueue) (i j : Nat) :
    (exchanged h i j).length = h.length := by
  unfold exchanged
  split <;> simp

theorem exchanged_getElem? {h : PriorityQueue} {i j : Nat} (hi : i < h.length)
    (hj : j < h.length) (k : Nat) :
    (exchanged h i j)[k]? = if k = j then h[i]? else if k = i then h[j]? else h[k]? := by
  unfold exchanged
  simp only [List.getElem?_eq_getElem hi, List.getElem?_eq_getElem hj, List.getElem?_set,
    List.length_set]
  by_cases h1 : k = j
  · subst h1
    simp [hj]
  · by_cases h2 : k = i
    · subst h2
      simp [h1, Ne.symm h1, hi]
    · simp [h1, h2, Ne.symm h1, Ne.symm h2]

theorem keyAt_exchanged {h : PriorityQueue} {i j : Nat} (hi : i < h.length)
    (hj : j < h.length) (k : Nat) :
    keyAt (exchanged h i j) k =
      if k = j then keyAt h i else if k = i then keyAt h j else keyAt h k := by
  unfold keyAt
  rw [exchanged_getElem? hi hj]
  split_ifs <;> rfl

theorem exchanged_perm {h : PriorityQueue} {i j : Nat} (hi : i < h.length)
    (hj : j < h.length) : (exchanged h i j).Perm h := by
  by_cases hij : i = j
  · subst hij
    have e : exchanged h i i = h := by
      apply List.ext_getElem?
      intro k
      rw [exchanged_getElem? hi hi]
      split_ifs with h1 <;> simp [h1]
    rw [e]
  · unfold exchanged
    simp only [List.getElem?_eq_getElem hi, List.getElem?_eq_getElem hj]
    rw [List.perm_iff_count]
    intro x
    have hj1 : j < (h.set i h[j]).length := by simpa using hj
    rw [List.count_set _ _ _ _ hj1, List.count_set _ _ _ _ hi]
    have e : (h.set i h[j])[j] = h[j] := by
      rw [List.getElem_set]
      simp [hij]
    rw [e]
    have ci : (if (h[i] == x) = true then 1 else 0) ≤ h.count x := by
      split_ifs with hx
      · have : h[i] = x := by simpa using hx
        exact List.count_pos_iff.mpr (this ▸ List.getElem_mem hi)
      · exact Nat.zero_le _
    omega

/-! ## `heap.up` restores the heap order after an append -/

theorem heap_up_spec : ∀ (fuel : Nat) (h : PriorityQueue) (j : Nat),
    j < fuel → j < h.length →
    (∀ k, 0 < k → k < h.length → k ≠ j → keyAt h ((k - 1) / 2) ≤ keyAt h k) →
    (∀ k, 0 < k → k < h.length → (k - 1) / 2 = j → 0 < j →
      keyAt h ((j - 1) / 2) ≤ keyAt h k) →
    ∃ h1, heap.up fuel h j = .ok h1 ∧ h1.Perm h ∧ HeapInv h1 := by
  intro fuel
  induction fuel with
  | zero => intro h j hf; omega
  | succ fuel ih =>
    intro h j hf hj inv1 inv2
    unfold heap.up
    by_cases hij : (j - 1) / 2 = j
    · simp only [hij, if_true]
      refine ⟨h, rfl, List.Perm.refl _, ?_⟩
      intro k hk hkl
      exact inv1 k hk hkl (by omega)
    · have hi : (j - 1) / 2 < h.length := by omega
      have hj0 : 0 < j := by omega
      simp only [hij, if_false]
      rw [Less_ok hj hi]
      simp only [bind, Except.bind]
      by_cases hlt : keyAt h j < keyAt h ((j - 1) / 2)
      · simp only [hlt, decide_True, Bool.not_true, Bool.false_eq_true, if_false]
        rw [Swap_ok hi hj]
        simp only []
        have key := keyAt_exchanged hi hj
        obtain ⟨h1, e1, p1, v1⟩ := ih (exchanged h ((j - 1) / 2) j) ((j - 1) / 2)
          (by omega) (by rw [exchanged_length]; exact hi)
          (by
            intro k hk hkl hki
            rw [exchanged_length] at hkl
            rw [key, key]
            by_cases hkj : k = j
            · subst hkj
              simp only [if_true, hij, if_false]
              omega
            · simp only [hkj, hki, if_false]
              by_cases hp : (k - 1) / 2 = j
              · simp only [hp, if_true]
                have := inv2 k hk hkl hp hj0
                omega
              · simp only [hp, if_false]
                have := inv1 k hk hkl hkj
                split_ifs with hq
                · rw [hq] at this; omega
                · exact this)
          (by
            intro k hk hkl hp hi0
            rw [exchanged_length] at hkl
            rw [key, key]
            have hq1 : (((j - 1) / 2 - 1) / 2) ≠ j := by omega
            have hq2 : (((j - 1) / 2 - 1) / 2) ≠ (j - 1) / 2 := by omega
            simp only [hq1, hq2, if_false]
            have hki : k ≠ (j - 1) / 2 := by omega
            have a1 := inv1 ((j - 1) / 2) hi0 hi (by omega)
            by_cases hkj : k = j
            · simp only [hkj, if_true]
              exact a1
            · simp only [hkj, hki, if_false]
              have a2 := inv1 k hk hkl hkj
              rw [hp] at a2
              omega)
        exact ⟨h1, e1, p1.trans (exchanged_perm hi hj), v1⟩
      · simp only [hlt, decide_False, Bool.not_false, if_true]
        refine ⟨h, rfl, List.Perm.refl _, ?_⟩
        intro k hk hkl
        by_cases hkj : k = j
        · subst hkj; omega
        · exact inv1 k hk hkl hkj

theorem keyAt_append_left {h : PriorityQueue} {x : Item} {k : Nat} (hk : k < h.length) :
    keyAt (h ++ [x]) k = keyAt h k := by
  unfold keyAt
  rw [List.getElem?_append_left hk]

theorem heap_Push_spec (h : PriorityQueue) (x : Item) (hv : HeapInv h) :
    ∃ h1, heap.Push h x = .ok h1 ∧ h1.Perm (x :: h) ∧ HeapInv h1 := by
  unfold heap.Push PriorityQueue.Push PriorityQueue.Len
  have hl : (h ++ [x]).length = h.length + 1 := by simp
  obtain ⟨h1, e1, p1, v1⟩ := heap_up_spec (h ++ [x]).length (h ++ [x]) ((h ++ [x]).length - 1)
    (by omega) (by omega)
    (by
      intro k hk hkl hkj
      have hk1 : k < h.length := by omega
      rw [keyAt_append_left hk1, keyAt_append_left (by omega)]
      exact hv k hk hk1)
    (by intro k hk hkl hp; omega)
  exact ⟨h1, e1, p1.trans (List.perm_append_singleton x h), v1⟩

/-! ## `heap.down` restores the heap order below a slot -/

theorem keyAt_exchanged_left {h : PriorityQueue} {i j : Nat} (hi : i < h.length)
    (hj : j < h.length) : keyAt (exchanged h i j) i = keyAt h j := by
  rw [keyAt_exchanged hi hj]
  by_cases e : i = j
  · simp [e]
  · simp [e]

theorem keyAt_exchanged_right {h : PriorityQueue} {i j : Nat} (hi : i < h.length)
    (hj : j < h.length) : keyAt (exchanged h i j) j = keyAt h i := by
  rw [keyAt_exchanged hi hj]
  simp

theorem keyAt_exchanged_other {h : PriorityQueue} {i j k : Nat} (hi : i < h.length)
    (hj : j < h.length) (hki : k ≠ i) (hkj : k ≠ j) :
    keyAt (exchanged h i j) k = keyAt h k := by
  rw [keyAt_exchanged hi hj]
  simp [hki, hkj]

/-- The choice of the lighter child in `heap.down`, lines `j := j1` to `j = j2`. -/
theorem lighter_child (h : PriorityQueue) (i n : Nat) (hn : n ≤ h.length)
    (hj1 : 2 * i + 1 < n) (f : Nat → Except Fault PriorityQueue) :
    ∃ j, (j = 2 * i + 1 ∨ j = 2 * i + 2) ∧ j < n ∧
      keyAt h j ≤ keyAt h (2 * i + 1) ∧ (2 * i + 2 < n → keyAt h j ≤ keyAt h (2 * i + 2)) ∧
      (do
        let lt21 ← if 2 * i + 1 + 1 < n then PriorityQueue.Less h (2 * i + 1 + 1) (2 * i + 1)
          else pure false
        f (if lt21 then 2 * i + 1 + 1 else 2 * i + 1)) = f j := by
  have hc1 : 2 * i + 1 < h.length := by omega
  by_cases hj2 : 2 * i + 1 + 1 < n
  · have hc2 : 2 * i + 1 + 1 < h.length := by omega
    simp only [hj2, if_true]
    rw [Less_ok hc2 hc1]
    by_cases hlt : keyAt h (2 * i + 1 + 1) < keyAt h (2 * i + 1)
    · refine ⟨2 * i + 1 + 1, Or.inr rfl, hj2, le_of_lt hlt, fun _ => le_refl _, ?_⟩
      simp only [hlt, decide_True, bind, Except.bind, if_true]
    · refine ⟨2 * i + 1, Or.inl rfl, hj1, le_refl _, fun _ => not_lt.mp hlt, ?_⟩
      simp only [hlt, decide_False, bind, Except.bind, Bool.false_eq_true, if_false]
  · refine ⟨2 * i + 1, Or.inl rfl, hj1, le_refl _, fun hh => absurd hh hj2, ?_⟩
    simp only [hj2, if_false, bind, Except.bind, pure, Except.pure, Bool.false_eq_true]

theorem heap_down_spec : ∀ (fuel : Nat) (h : PriorityQueue) (i n : Nat),
    n ≤ h.length → 0 < fuel → n < i + fuel →
    (∀ k, 0 < k → k < n → (k - 1) / 2 ≠ i → keyAt h ((k - 1) / 2) ≤ keyAt h k) →
    (∀ k, 0 < k → k < n → (k - 1) / 2 = i → 0 < i → keyAt h ((i - 1) / 2) ≤ keyAt h k) →
    ∃ h1, heap.down fuel h i n = .ok h1 ∧ h1.Perm h ∧ HeapUpTo h1 n ∧
      h1.length = h.length ∧ ∀ k, n ≤ k → h1[k]? = h[k]? := by
  intro fuel
  induction fuel with
  | zero => intro h i n hn hf; omega
  | succ fuel ih =>
    intro h i n hn _ hf inv1 inv2
    unfold heap.down
    by_cases hj1 : 2 * i + 1 ≥ n
    · simp only [hj1, if_true]
      refine ⟨h, rfl, List.Perm.refl _, ?_, rfl, fun _ _ => rfl⟩
      intro k hk hkn
      exact inv1 k hk hkn (by omega)
    · simp only [hj1, if_false]
      have hi : i < h.length := by omega
      obtain ⟨j, hjc, hjn, hjl, hjr, hrun⟩ := lighter_child h i n hn (by omega)
        (fun j => do
            let lt ← PriorityQueue.Less h j i
            if !lt then Except.ok h
            else do
              let h1 ← PriorityQueue.Swap h i j
              heap.down fuel h1 j n)
      simp only [] at hrun ⊢
      rw [hrun]
      have hjlen : j < h.length := by omega
      have hpj : (j - 1) / 2 = i := by omega
      have hij : i < j := by omega
      rw [Less_ok hjlen hi]
      simp only [bind, Except.bind]
      by_cases hlt : keyAt h j < keyAt h i
      · simp only [hlt, decide_True, Bool.not_true, Bool.false_eq_true, if_false]
        rw [Swap_ok hi hjlen]
        simp only []
        have kxi := keyAt_exchanged_left hi hjlen
        have kxj := keyAt_exchanged_right hi hjlen
        have kxo := fun k => @keyAt_exchanged_other h i j k hi hjlen
        have get := exchanged_getElem? hi hjlen
        obtain ⟨h1, e1, p1, v1, l1, f1⟩ := ih (exchanged h i j) j n
          (by rw [exchanged_length]; exact hn) (by omega) (by omega)
          (by
            intro k hk hkn hp
            by_cases hpi : (k - 1) / 2 = i
            · -- `k` is a child of `i`
              have hki : k ≠ i := by omega
              rw [hpi, kxi]
              by_cases hkj : k = j
              · rw [hkj, kxj]; exact le_of_lt hlt
              · rw [kxo k hki hkj]
                have hk2 : k = 2 * i + 1 ∨ k = 2 * i + 2 := by omega
                rcases hk2 with hk2 | hk2
                · rw [hk2]; exact hjl
                · rw [hk2]; exact hjr (by omega)
            · have hkj : k ≠ j := by omega
              rw [kxo _ hpi hp]
              by_cases hki : k = i
              · rw [hki, kxi]
                exact inv2 j (by omega) hjn hpj (by omega)
              · rw [kxo k hki hkj]
                exact inv1 k hk hkn hpi)
          (by
            intro k hk hkn hp hj0
            have hkj : k ≠ j := by omega
            have hki : k ≠ i := by omega
            rw [hpj, kxi, kxo k hki hkj]
            have a1 := inv1 k hk hkn (by omega)
            rw [hp] at a1
            exact a1)
        refine ⟨h1, e1, p1.trans (exchanged_perm hi hjlen), v1,
          by rw [l1, exchanged_length], ?_⟩
        intro k hk
        rw [f1 k hk, get]
        have hkj : k ≠ j := by omega
        have hki : k ≠ i := by omega
        simp only [hkj, hki, if_false]
      · simp only [hlt, decide_False, Bool.not_false, if_true]
        refine ⟨h, rfl, List.Perm.refl _, ?_, rfl, fun _ _ => rfl⟩
        intro k hk hkn
        by_cases hpi : (k - 1) / 2 = i
        · have hk2 : k = 2 * i + 1 ∨ k = 2 * i + 2 := by omega
          rw [hpi]
          have hle : keyAt h i ≤ keyAt h j := not_lt.mp hlt
          rcases hk2 with hk2 | hk2
          · rw [hk2]; exact le_trans hle hjl
          · rw [hk2]; exact le_trans hle (hjr (by omega))
        · exact inv1 k hk hkn hpi

/-! ## `heap.Pop` returns a lightest item -/

theorem HeapInv_nil : HeapInv [] := by
  intro k _ hk
  simp at hk

theorem heap_Init_nil : heap.Init [] = .ok [] := rfl

/-- In a heap-ordered queue no item is lighter than the item of slot `0`. -/
theorem root_le_of_HeapInv {h : PriorityQueue} (hv : HeapInv h) :
    ∀ k, k < h.length → keyAt h 0 ≤ keyAt h k := by
  intro k
  induction k using Nat.strong_induction_on with
  | _ k ih =>
    intro hk
    by_cases h0 : k = 0
    · rw [h0]
    · have hp : (k - 1) / 2 < k := by omega
      exact le_trans (ih _ hp (by omega)) (hv k (by omega) hk)

theorem root_le_mem {h : PriorityQueue} (hv : HeapInv h) (y : Item) (hy : y ∈ h) :
    keyAt h 0 ≤ y.weight := by
  obtain ⟨k, hk, e⟩ := List.getElem_of_mem hy
  have := root_le_of_HeapInv hv k hk
  rw [keyAt_of_lt hk, e] at this
  exact this

theorem PriorityQueue_Pop_ok {h : PriorityQueue} (hne : h ≠ []) :
    PriorityQueue.Pop h = .ok (h.getLast hne, h.dropLast) := by
  unfold PriorityQueue.Pop
  have hl : 0 < h.length := List.length_pos.mpr hne
  simp only []
  rw [idx_eq_ok (by omega : h.length - 1 < h.length)]
  simp only [bind, Except.bind, pure, Except.pure]
  rw [List.getLast_eq_getElem, List.dropLast_eq_take]

theorem heap_Pop_spec (h : PriorityQueue) (hv : HeapInv h) (hne : h ≠ []) :
    ∃ x h1, heap.Pop h = .ok (x, h1) ∧ h.Perm (x :: h1) ∧
      (∀ y ∈ h, x.weight ≤ y.weight) ∧ HeapInv h1 := by
  have hl : 0 < h.length := List.length_pos.mpr hne
  have hn : h.length - 1 < h.length := by omega
  unfold heap.Pop PriorityQueue.Len
  simp only []
  rw [Swap_ok hl hn]
  simp only [bind, Except.bind]
  have kxo := fun k => @keyAt_exchanged_other h 0 (h.length - 1) k hl hn
  obtain ⟨h2, e2, p2, v2, l2, f2⟩ := heap_down_spec (h.length - 1 + 1)
    (exchanged h 0 (h.length - 1)) 0 (h.length - 1)
    (by rw [exchanged_length]; omega) (by omega) (by omega)
    (by
      intro k hk hkn hp
      rw [kxo _ hp (by omega), kxo k (by omega) (by omega)]
      exact hv k hk (by omega))
    (by intro k hk hkn hp h0; omega)
  rw [e2]
  simp only []
  have hl2 : h2.length = h.length := by rw [l2, exchanged_length]
  have hne2 : h2 ≠ [] := by
    intro e
    rw [e] at hl2
    simp at hl2
    omega
  rw [PriorityQueue_Pop_ok hne2]
  have hlast : h2.getLast hne2 = h[0] := by
    have e1 : h2[h.length - 1]? = some h[0] := by
      rw [f2 _ (le_refl _), exchanged_getElem? hl hn]
      simp [List.getElem?_eq_getElem hl]
    rw [List.getLast_eq_getElem]
    have e3 : h2.length - 1 = h.length - 1 := by rw [hl2]
    have hb : h2.length - 1 < h2.length := by omega
    have e4 : h2[h2.length - 1]? = some h[0] := by rw [e3]; exact e1
    rw [List.getElem?_eq_getElem hb] at e4
    exact Option.some.inj e4
  refine ⟨h2.getLast hne2, h2.dropLast, rfl, ?_, ?_, ?_⟩
  · have p3 : h.Perm h2 := (p2.trans (exchanged_perm hl hn)).symm
    have p4 : (h2.dropLast ++ [h2.getLast hne2]).Perm (h2.getLast hne2 :: h2.dropLast) :=
      List.perm_append_singleton _ _
    rw [List.dropLast_append_getLast hne2] at p4
    exact p3.trans p4
  · intro y hy
    rw [hlast, ← keyAt_of_lt hl]
    exact root_le_mem hv y hy
  · intro k hk hkl
    have hkl' : k < h.length - 1 := by
      rw [List.length_dropLast, hl2] at hkl
      exact hkl
    have key : ∀ m, m < h.length - 1 → keyAt h2.dropLast m = keyAt h2 m := by
      intro m hm
      unfold keyAt
      rw [List.dropLast_eq_take, List.getElem?_take_of_lt (by omega)]
    rw [key _ (by omega), key k hkl']
    exact v2 k hk hkl'

/-- Every queue that `heap.Push` and `heap.Pop` produce from the empty queue is
heap-ordered. -/
theorem HeapInv_of_reachable {h : PriorityQueue} (hr : HeapReachable h) : HeapInv h := by
  induction hr with
  | empty => exact HeapInv_nil
  | push x _ e ih =>
    obtain ⟨h2, e2, _, v2⟩ := heap_Push_spec _ x ih
    rw [e2] at e
    cases e
    exact v2
  | @pop h0 h1 x _ e ih =>
    by_cases hne : h0 = []
    · subst hne
      simp [heap.Pop, PriorityQueue.Len, PriorityQueue.Swap, idx] at e
      cases e
    · obtain ⟨x2, h2, e2, _, _, v2⟩ := heap_Pop_spec _ ih hne
      rw [e2] at e
      cases e
      exact v2

/-! ## Graphs built by `NewGraph` and `AddEdge` -/

theorem getD_set_list {α : Type} (l : List (List α)) (i k : Nat) (a : List α)
    (hi : i < l.length) :
    (l.set i a).getD k [] = if k = i then a else l.getD k [] := by
  simp only [List.getD_eq_getElem?_getD, List.getElem?_set]
  by_cases h : i = k
  · subst h
    simp [hi]
  · simp [h, Ne.symm h]

/-- The adjacency slices after `AddEdge(a, b, w)`: slot `a` gains `(b, w)` at its end,
then slot `b` gains `(a, w)` at its end. -/
theorem AddEdge_adj (g : Graph) (a b : Nat) (w : Int)
    (ha : a < g.adjList.length) (hb : b < g.adjList.length) :
    ∃ g1, g.AddEdge a b w = .ok g1 ∧ g1.vertices = g.vertices ∧
      g1.adjList.length = g.adjList.length ∧
      ∀ k, g1.adj k = g.adj k ++ (if k = a then [⟨b, w⟩] else []) ++
        (if k = b then [⟨a, w⟩] else []) := by
  refine ⟨_, AddEdge_ok g a b w ha hb, rfl, by simp, ?_⟩
  intro k
  unfold Graph.adj
  simp only []
  rw [getD_set_list _ _ _ _ (by simpa using hb), getD_set_list _ _ _ _ ha,
    getD_set_list _ _ _ _ ha]
  by_cases h1 : k = b
  · by_cases h2 : k = a
    · subst h1
      subst h2
      simp
    · subst h1
      simp [h2, Ne.symm h2]
  · by_cases h2 : k = a
    · subst h2
      simp [h1]
    · simp [h1, h2]

theorem NewGraph_adj (n k : Nat) : (NewGraph n).adj k = [] := by
  unfold Graph.adj NewGraph
  simp only [List.getD_eq_getElem?_getD]
  by_cases h : k < n
  · simp [List.getElem?_replicate, h]
  · simp [List.getElem?_replicate, h]

theorem foldlM_AddEdge (n : Nat) : ∀ (calls : List Call) (g0 : Graph),
    g0.adjList.length = n → InRange n calls →
    ∃ g, calls.foldlM (fun g c => Graph.AddEdge g c.1 c.2.1 c.2.2) g0 = .ok g ∧
      g.vertices = g0.vertices ∧ g.adjList.length = n ∧
      ∀ u v w, (⟨v, w⟩ : Edge) ∈ g.adj u ↔
        ((⟨v, w⟩ : Edge) ∈ g0.adj u ∨ (u, v, w) ∈ calls ∨ (v, u, w) ∈ calls) := by
  intro calls
  induction calls with
  | nil =>
    intro g0 hl _
    exact ⟨g0, rfl, rfl, hl, by simp⟩
  | cons c rest ih =>
    intro g0 hl hr
    obtain ⟨hc1, hc2⟩ := hr c (List.mem_cons_self _ _)
    obtain ⟨g1, e1, v1, l1, a1⟩ := AddEdge_adj g0 c.1 c.2.1 c.2.2 (by omega) (by omega)
    obtain ⟨g2, e2, v2, l2, a2⟩ := ih g1 (by omega)
      (fun d hd => hr d (List.mem_cons_of_mem _ hd))
    refine ⟨g2, ?_, by rw [v2, v1], l2, ?_⟩
    · rw [List.foldlM_cons, e1]
      exact e2
    · intro u v w
      rw [a2, a1]
      obtain ⟨c1, c2, c3⟩ := c
      simp only [List.mem_append, List.mem_cons, Prod.mk.injEq]
      constructor
      · rintro ((((h | h) | h)) | h | h)
        · exact Or.inl h
        · split_ifs at h with e
          · simp only [List.mem_singleton, Edge.mk.injEq] at h
            exact Or.inr (Or.inl (Or.inl ⟨e, h.1, h.2⟩))
          · simp at h
        · split_ifs at h with e
          · simp only [List.mem_singleton, Edge.mk.injEq] at h
            exact Or.inr (Or.inr (Or.inl ⟨h.1, e, h.2⟩))
          · simp at h
        · exact Or.inr (Or.inl (Or.inr h))
        · exact Or.inr (Or.inr (Or.inr h))
      · rintro (h | (⟨e1, e2, e3⟩ | h) | (⟨e1, e2, e3⟩ | h))
        · exact Or.inl (Or.inl (Or.inl h))
        · refine Or.inl (Or.inl (Or.inr ?_))
          simp [e1, e2, e3]
        · exact Or.inr (Or.inl h)
        · refine Or.inl (Or.inr ?_)
          simp [e1, e2, e3]
        · exact Or.inr (Or.inr h)

/-- What a graph built by `NewGraph(n)` and in-range `AddEdge` calls looks like:
the entry `(v, w)` is in the slice of `u` exactly when a call joined `u` and `v`
with weight `w`. -/
theorem build_spec (n : Nat) (calls : List Call) (hr : InRange n calls) :
    ∃ g, build n calls = .ok g ∧ g.vertices = n ∧ g.adjList.length = n ∧
      ∀ u v w, (⟨v, w⟩ : Edge) ∈ g.adj u ↔ ((u, v, w) ∈ calls ∨ (v, u, w) ∈ calls) := by
  obtain ⟨g, e, v, l, a⟩ := foldlM_AddEdge n calls (NewGraph n) (by simp [NewGraph]) hr
  refine ⟨g, e, by rw [v]; rfl, l, ?_⟩
  intro u v w
  rw [a, NewGraph_adj]
  simp

/-! ## Walks, and the exchange of an edge that crosses a cut -/

theorem Joins.symm {c : Call} {x y : Nat} (h : Joins c x y) : Joins c y x := by
  rcases h with h | h
  · exact Or.inr h
  · exact Or.inl h

theorem Reach.mono {F G : List Call} {S S1 : Nat → Prop} (hF : ∀ c, c ∈ F → c ∈ G)
    (hS : ∀ x, S x → S1 x) {x : Nat} (h : Reach F S x) : Reach G S1 x := by
  induction h with
  | base hx => exact Reach.base (hS _ hx)
  | step hc hj _ ih => exact Reach.step (hF _ hc) hj ih

/-- Walks can be joined: if `x` reaches `y` and `y` reaches `S`, so does `x`. -/
theorem Reach.trans {F : List Call} {S : Nat → Prop} {x y : Nat}
    (h1 : Reach F (fun z => z = y) x) (h2 : Reach F S y) : Reach F S x := by
  induction h1 with
  | base hx => rw [hx]; exact h2
  | step hc hj _ ih => exact Reach.step hc hj ih

/-- On a walk from an outside vertex `v` to the set `S` there is a first edge that
enters `S`; up to that edge the walk stays outside. -/
theorem first_crossing {F : List Call} {S : Nat → Prop} {v : Nat}
    (h : Reach F S v) (hv : ¬ S v) :
    ∃ c a b, c ∈ F ∧ Joins c a b ∧ ¬ S a ∧ S b ∧ OutsideWalk F S v a := by
  induction h with
  | base hx => exact absurd hx hv
  | @step x y c hc hj _ ih =>
    by_cases hy : S y
    · exact ⟨c, x, y, hc, hj, hv, hy, OutsideWalk.refl x⟩
    · obtain ⟨c1, a, b, hc1, hj1, ha, hb, hw⟩ := ih hy
      exact ⟨c1, a, b, hc1, hj1, ha, hb, OutsideWalk.step hc hj hv hy hw⟩

theorem ne_of_outside {S : Nat → Prop} {c c1 : Call} {x y a b : Nat}
    (hj : Joins c x y) (hx : ¬ S x) (hy : ¬ S y) (hj1 : Joins c1 a b) (hb : S b) :
    c ≠ c1 := by
  intro e
  subst e
  rcases hj with ⟨e1, e2⟩ | ⟨e1, e2⟩ <;> rcases hj1 with ⟨e3, e4⟩ | ⟨e3, e4⟩
  · exact hy (by rw [← e2, e4]; exact hb)
  · exact hx (by rw [← e1, e3]; exact hb)
  · exact hx (by rw [← e2, e4]; exact hb)
  · exact hy (by rw [← e1, e3]; exact hb)

theorem reach_along_outside {F : List Call} {S S1 : Nat → Prop} {c1 : Call} {a b : Nat}
    (hj1 : Joins c1 a b) (hb : S b) {x z : Nat} (hw : OutsideWalk F S x z)
    (hx : Reach (F.erase c1) S1 x) : Reach (F.erase c1) S1 z := by
  induction hw with
  | refl x => exact hx
  | step hc hj hx1 hy1 _ ih =>
    apply ih
    have hne := ne_of_outside hj hx1 hy1 hj1 hb
    exact Reach.step ((List.mem_erase_of_ne hne).mpr hc) hj.symm hx

/-- The exchange step: once the vertex `v` joins the set, the crossing edge found by
`first_crossing` can be dropped and every vertex still reaches the enlarged set. -/
theorem reach_erase_crossing {F : List Call} {S S1 : Nat → Prop} {c1 : Call} {a b v : Nat}
    (hS : ∀ x, S x → S1 x) (hv : S1 v) (hj1 : Joins c1 a b) (hb : S b)
    (hw : OutsideWalk F S v a) {x : Nat} (h : Reach F S x) :
    Reach (F.erase c1) S1 x := by
  induction h with
  | base hx => exact Reach.base (hS _ hx)
  | @step x y c hc hj _ ih =>
    by_cases e : c = c1
    · subst e
      have hxa : x = a ∨ x = b := by
        rcases hj with ⟨e1, e2⟩ | ⟨e1, e2⟩ <;> rcases hj1 with ⟨e3, e4⟩ | ⟨e3, e4⟩
        · exact Or.inl (by rw [← e1, e3])
        · exact Or.inr (by rw [← e1, e3])
        · exact Or.inr (by rw [← e2, e4])
        · exact Or.inl (by rw [← e2, e4])
      rcases hxa with hxa | hxa
      · rw [hxa]
        exact reach_along_outside hj1 hb hw (Reach.base hv)
      · rw [hxa]
        exact Reach.base (hS _ hb)
    · exact Reach.step ((List.mem_erase_of_ne e).mpr hc) hj ih

theorem weightSum_cons (c : Call) (F : List Call) : weightSum (c :: F) = c.2.2 + weightSum F := by
  simp [weightSum]

theorem weightSum_erase {F : List Call} {c : Call} (hc : c ∈ F) :
    weightSum (F.erase c) = weightSum F - c.2.2 := by
  induction F with
  | nil => simp at hc
  | cons d F ih =>
    rw [List.erase_cons]
    by_cases e : d = c
    · subst e
      simp [weightSum]
    · have hc1 : c ∈ F := by
        rcases List.mem_cons.mp hc with h | h
        · exact absurd h.symm e
        · exact h
      have hbeq : (d == c) = false := by simpa using e
      rw [hbeq]
      simp only [Bool.false_eq_true, if_false]
      rw [weightSum_cons, weightSum_cons, ih hc1]
      omega

theorem weightSum_perm {F G : List Call} (h : F.Perm G) : weightSum F = weightSum G := by
  unfold weightSum
  exact (h.map _).sum_eq

theorem weightSum_nonneg {F : List Call} (h : ∀ c ∈ F, 0 ≤ c.2.2) : 0 ≤ weightSum F := by
  unfold weightSum
  apply List.sum_nonneg
  intro x hx
  obtain ⟨c, hc, e⟩ := List.mem_map.mp hx
  rw [← e]
  exact h c hc

/-! ## Arithmetic of `wrap64` and the count of pending pushes -/

theorem wrap64_of_range {x : Int} (h1 : -9223372036854775808 ≤ x)
    (h2 : x < 9223372036854775808) : wrap64 x = x := by
  unfold wrap64
  omega

theorem wrap64_range (x : Int) :
    -9223372036854775808 ≤ wrap64 x ∧ wrap64 x < 9223372036854775808 := by
  unfold wrap64
  omega

theorem wrap64_idem (x : Int) : wrap64 (wrap64 x) = wrap64 x :=
  wrap64_of_range (wrap64_range x).1 (wrap64_range x).2

theorem wrap64_add_left (a b : Int) : wrap64 (wrap64 a + b) = wrap64 (a + b) := by
  unfold wrap64
  omega

theorem pending_set : ∀ (visited : List Bool) (adj : List (List Edge)) (v : Nat) (l : List Edge),
    visited[v]? = some false → adj[v]? = some l →
    pending (visited.set v true) adj + l.length = pending visited adj := by
  intro visited
  induction visited with
  | nil => intro adj v l h; simp at h
  | cons b bs ih =>
    intro adj v l hv ha
    cases adj with
    | nil => simp at ha
    | cons l0 ls =>
      cases v with
      | zero =>
        simp only [List.getElem?_cons_zero, Option.some.injEq] at hv ha
        subst hv
        subst ha
        simp [pending]
        omega
      | succ v =>
        simp only [List.getElem?_cons_succ] at hv ha
        have := ih ls v l hv ha
        simp only [List.set_cons_succ, pending]
        omega

theorem pending_replicate : ∀ (n : Nat) (adj : List (List Edge)), adj.length = n →
    pending (List.replicate n false) adj = (adj.map List.length).sum := by
  intro n
  induction n with
  | zero =>
    intro adj h
    have : adj = [] := List.length_eq_zero.mp h
    subst this
    rfl
  | succ n ih =>
    intro adj h
    cases adj with
    | nil => simp at h
    | cons l ls =>
      simp only [List.length_cons, Nat.add_right_cancel_iff] at h
      simp [List.replicate_succ, pending, ih ls h]

/-! ## The scan of an adjacency slice (lines 101-105) -/

theorem pushNeighbours_spec (visited : List Bool) : ∀ (adj : List Edge) (pq : PriorityQueue),
    HeapInv pq → (∀ e ∈ adj, e.dest < visited.length) →
    ∃ pq1, pushNeighbours visited adj pq = .ok pq1 ∧ HeapInv pq1 ∧
      pq1.Perm (((adj.filter (fun e => visited[e.dest]? == some false)).map Edge.item) ++ pq) := by
  intro adj
  induction adj with
  | nil =>
    intro pq hv _
    exact ⟨pq, rfl, hv, by simp⟩
  | cons e rest ih =>
    intro pq hv hr
    have he : e.dest < visited.length := hr e (List.mem_cons_self _ _)
    have hrest : ∀ e ∈ rest, e.dest < visited.length :=
      fun d hd => hr d (List.mem_cons_of_mem _ hd)
    unfold pushNeighbours
    rw [idx_eq_ok he]
    simp only [bind, Except.bind]
    by_cases hs : visited[e.dest] = true
    · simp only [hs, Bool.not_true, Bool.false_eq_true, if_false]
      obtain ⟨pq1, e1, v1, p1⟩ := ih pq hv hrest
      refine ⟨pq1, e1, v1, ?_⟩
      have : (visited[e.dest]? == some false) = false := by
        rw [List.getElem?_eq_getElem he, hs]
        rfl
      rw [List.filter_cons, this]
      exact p1
    · have hs' : visited[e.dest] = false := by simpa using hs
      simp only [hs', Bool.not_false, if_true]
      obtain ⟨pq0, e0, p0, v0⟩ := heap_Push_spec pq ⟨e.dest, e.weight⟩ hv
      rw [e0]
      simp only []
      obtain ⟨pq1, e1, v1, p1⟩ := ih pq0 v0 hrest
      refine ⟨pq1, e1, v1, ?_⟩
      have : (visited[e.dest]? == some false) = true := by
        rw [List.getElem?_eq_getElem he, hs']
        rfl
      rw [List.filter_cons, this]
      simp only [if_true, List.map_cons, List.cons_append]
      refine p1.trans ?_
      refine ((List.Perm.append_left _ p0).trans ?_)
      exact List.perm_middle

/-! ## One iteration of the loop of `PrimMST` -/

theorem primLoop_empty (g : Graph) (fuel : Nat) (st : PrimState) (h : st.pq = []) :
    primLoop g (fuel + 1) st = .ok st.totalWeight := by
  unfold primLoop
  simp [PriorityQueue.Len, h]

theorem primLoop_stale (g : Graph) (fuel : Nat) (st : PrimState) {x : Item}
    {pq1 : PriorityQueue} (hne : st.pq ≠ []) (hpop : heap.Pop st.pq = .ok (x, pq1))
    (hseen : idx st.visited x.vertex = .ok true) :
    primLoop g (fuel + 1) st = primLoop g fuel { st with pq := pq1 } := by
  have hl : PriorityQueue.Len st.pq > 0 := List.length_pos.mpr hne
  rw [primLoop]
  simp only [hl, if_true, hpop, bind, Except.bind, hseen]

theorem primLoop_fresh (g : Graph) (fuel : Nat) (st : PrimState) {x : Item}
    {pq1 pq2 : PriorityQueue} {adj : List Edge} (hne : st.pq ≠ [])
    (hpop : heap.Pop st.pq = .ok (x, pq1))
    (hseen : idx st.visited x.vertex = .ok false)
    (hadj : idx g.adjList x.vertex = .ok adj)
    (hpush : pushNeighbours (st.visited.set x.vertex true) adj pq1 = .ok pq2) :
    primLoop g (fuel + 1) st = primLoop g fuel
      { totalWeight := wrap64 (st.totalWeight + x.weight),
        visited := st.visited.set x.vertex true, pq := pq2 } := by
  have hl : PriorityQueue.Len st.pq > 0 := List.length_pos.mpr hne
  rw [primLoop]
  simp only [hl, if_true, hpop, bind, Except.bind, hseen, hadj, hpush, Bool.false_eq_true,
    if_false]

theorem Marked_set (visited : List Bool) (v x : Nat) (hv : v < visited.length) :
    Marked (visited.set v true) x ↔ (Marked visited x ∨ x = v) := by
  unfold Marked
  rw [List.getElem?_set]
  by_cases e : v = x
  · subst e
    simp [hv]
  · simp [e, Ne.symm e]

theorem Marked_lt {visited : List Bool} {x : Nat} (h : Marked visited x) :
    x < visited.length := by
  unfold Marked at h
  by_contra hn
  rw [List.getElem?_eq_none (by omega)] at h
  cases h

theorem not_Marked_iff {visited : List Bool} {x : Nat} (hx : x < visited.length) :
    ¬ Marked visited x ↔ visited[x]? = some false := by
  unfold Marked
  rw [List.getElem?_eq_getElem hx]
  cases visited[x] <;> simp

theorem Built.adj_lt {n : Nat} {calls : List Call} {g : Graph} (hb : Built n calls g)
    {u v : Nat} {w : Int} (h : (⟨v, w⟩ : Edge) ∈ g.adj u) : u < n ∧ v < n := by
  rcases (hb.adj u v w).mp h with h | h
  · exact hb.range _ h
  · exact (hb.range _ h).symm

theorem Built.adj_call {n : Nat} {calls : List Call} {g : Graph} (hb : Built n calls g)
    {u v : Nat} {w : Int} (h : (⟨v, w⟩ : Edge) ∈ g.adj u) :
    ∃ c ∈ calls, Joins c u v ∧ c.2.2 = w := by
  rcases (hb.adj u v w).mp h with h | h
  · exact ⟨_, h, Or.inl ⟨rfl, rfl⟩, rfl⟩
  · exact ⟨_, h, Or.inr ⟨rfl, rfl⟩, rfl⟩

theorem Built.call_adj {n : Nat} {calls : List Call} {g : Graph} (hb : Built n calls g)
    {c : Call} (hc : c ∈ calls) {u v : Nat} (hj : Joins c u v) :
    (⟨v, c.2.2⟩ : Edge) ∈ g.adj u := by
  obtain ⟨c1, c2, c3⟩ := c
  rcases hj with ⟨e1, e2⟩ | ⟨e1, e2⟩
  · simp only at e1 e2
    subst e1
    subst e2
    exact (hb.adj _ _ _).mpr (Or.inl hc)
  · simp only at e1 e2
    subst e1
    subst e2
    exact (hb.adj _ _ _).mpr (Or.inr hc)

theorem Built.idx_adj {n : Nat} {calls : List Call} {g : Graph} (hb : Built n calls g)
    {v : Nat} (hv : v < n) : idx g.adjList v = .ok (g.adj v) := by
  have hv' : v < g.adjList.length := by rw [hb.len]; exact hv
  rw [idx_eq_ok hv']
  unfold Graph.adj
  simp [List.getD_eq_getElem?_getD, List.getElem?_eq_getElem hv']

/-- The scan of the slice of a vertex `v` that has just been marked: the queue
gains exactly the items of the entries that lead to unmarked vertices. -/
theorem scan_spec {n : Nat} {calls : List Call} {g : Graph} (hb : Built n calls g)
    (visited : List Bool) (hlen : visited.length = n) (v : Nat) (pq1 : PriorityQueue)
    (hv : HeapInv pq1) :
    ∃ pq2, pushNeighbours visited (g.adj v) pq1 = .ok pq2 ∧ HeapInv pq2 ∧
      (∀ it, it ∈ pq2 ↔ (it ∈ pq1 ∨
        ∃ e ∈ g.adj v, ¬ Marked visited e.dest ∧ it = e.item)) ∧
      pq2.length ≤ (g.adj v).length + pq1.length := by
  have hr : ∀ e ∈ g.adj v, e.dest < visited.length := by
    intro e he
    rw [hlen]
    exact (hb.adj_lt (show (⟨e.dest, e.weight⟩ : Edge) ∈ g.adj v from he)).2
  obtain ⟨pq2, e2, v2, p2⟩ := pushNeighbours_spec visited (g.adj v) pq1 hv hr
  refine ⟨pq2, e2, v2, ?_, ?_⟩
  · intro it
    rw [p2.mem_iff, List.mem_append, List.mem_map]
    constructor
    · rintro (⟨e, he, rfl⟩ | h)
      · rw [List.mem_filter] at he
        refine Or.inr ⟨e, he.1, ?_, rfl⟩
        rw [not_Marked_iff (hr e he.1)]
        simpa using he.2
      · exact Or.inl h
    · rintro (h | ⟨e, he, hm, rfl⟩)
      · exact Or.inr h
      · refine Or.inl ⟨e, ?_, rfl⟩
        rw [List.mem_filter]
        refine ⟨he, ?_⟩
        rw [not_Marked_iff (hr e he)] at hm
        simp [hm]
  · rw [p2.length_eq, List.length_append, List.length_map]
    have := List.length_filter_le (fun e => visited[e.dest]? == some false) (g.adj v)
    omega

/-! ## The loop invariant is kept, and what it gives when the queue is empty -/

theorem PrimInv.up {g : Graph} {calls : List Call} {st : PrimState} {T : List Call}
    (inv : PrimInv g calls st T) (x : Nat) (hx : Marked st.visited x) : Linked calls x :=
  Reach.mono (fun _ hc => inv.sub.subset hc) (fun _ h => h) (inv.linked x hx)

theorem PrimInv.closed {n : Nat} {g : Graph} {calls : List Call} {st : PrimState}
    {T : List Call} (hb : Built n calls g) (inv : PrimInv g calls st T) (hq : st.pq = []) :
    ∀ x, Linked calls x → Marked st.visited x := by
  intro x hx
  unfold Linked at hx
  induction hx with
  | base h0 => rw [h0]; exact inv.root
  | @step x y c hc hj _ ih =>
    by_contra hm
    have h1 := inv.complete y x c.2.2 ih (hb.call_adj hc hj.symm) hm
    rw [hq] at h1
    simp at h1

theorem PrimInv.spanning {n : Nat} {g : Graph} {calls : List Call} {st : PrimState}
    {T : List Call} (hb : Built n calls g) (inv : PrimInv g calls st T) (hq : st.pq = []) :
    IsSpanningTree calls T := by
  refine ⟨inv.sub, ?_, ?_, ?_⟩
  · intro c hc
    exact ⟨inv.up _ (inv.ends c hc).1, inv.up _ (inv.ends c hc).2⟩
  · intro x hx
    exact inv.linked x (inv.closed hb hq x hx)
  · obtain ⟨vs, nd, hm, hl⟩ := inv.card
    exact ⟨vs, nd, fun x => (hm x).trans ⟨inv.up x, inv.closed hb hq x⟩, hl⟩

theorem PrimInv.stale {g : Graph} {calls : List Call} {st : PrimState} {T : List Call}
    (inv : PrimInv g calls st T) {x : Item} {pq1 : PriorityQueue}
    (hp : st.pq.Perm (x :: pq1)) (hv : HeapInv pq1) (hm : Marked st.visited x.vertex) :
    PrimInv g calls { st with pq := pq1 } T := by
  refine ⟨inv.len, inv.root, hv, inv.total, ?_, ?_, inv.sub, inv.ends, inv.linked, inv.card⟩
  · intro it hit
    exact inv.sound it (hp.mem_iff.mpr (List.mem_cons_of_mem _ hit))
  · intro u v w hu he hnv
    have h1 := hp.mem_iff.mp (inv.complete u v w hu he hnv)
    rcases List.mem_cons.mp h1 with h | h
    · exfalso
      apply hnv
      have : v = x.vertex := by rw [← h]
      rw [this]
      exact hm
    · exact h

theorem PrimInv.fresh {n : Nat} {g : Graph} {calls : List Call} {st : PrimState}
    {T : List Call} (hb : Built n calls g) (inv : PrimInv g calls st T) {x : Item}
    {pq1 pq2 : PriorityQueue} (hp : st.pq.Perm (x :: pq1)) (hm : ¬ Marked st.visited x.vertex)
    (hv2 : HeapInv pq2)
    (hmem : ∀ it, it ∈ pq2 ↔ (it ∈ pq1 ∨
      ∃ e ∈ g.adj x.vertex, ¬ Marked (st.visited.set x.vertex true) e.dest ∧ it = e.item)) :
    ∃ c u, c ∈ calls ∧ Marked st.visited u ∧ Joins c u x.vertex ∧ c.2.2 = x.weight ∧
      PrimInv g calls
        { totalWeight := wrap64 (st.totalWeight + x.weight),
          visited := st.visited.set x.vertex true, pq := pq2 } (c :: T) := by
  have hx : x ∈ st.pq := hp.mem_iff.mpr (List.mem_cons_self _ _)
  obtain ⟨u, hu, he⟩ := inv.sound x hx
  obtain ⟨c, hc, hj, hw⟩ := hb.adj_call he
  have hxv : x.vertex < st.visited.length := by
    rw [inv.len, hb.len]
    exact (hb.adj_lt he).2
  have MS := fun y => Marked_set st.visited x.vertex y hxv
  have hcT : c ∉ T := by
    intro hcT
    obtain ⟨m1, m2⟩ := inv.ends c hcT
    rcases hj with ⟨_, e2⟩ | ⟨e1, _⟩
    · exact hm (e2 ▸ m2)
    · exact hm (e1 ▸ m1)
  have hTsub : ∀ d, d ∈ T → d ∈ c :: T := fun d hd => List.mem_cons_of_mem _ hd
  refine ⟨c, u, hc, hu, hj, hw, ?_⟩
  refine ⟨?_, ?_, hv2, wrap64_idem _, ?_, ?_, ?_, ?_, ?_, ?_⟩
  · show (st.visited.set x.vertex true).length = g.adjList.length
    rw [List.length_set]
    exact inv.len
  · exact (MS 0).mpr (Or.inl inv.root)
  · intro it hit
    rcases (hmem it).mp hit with h | ⟨e, he1, _, rfl⟩
    · obtain ⟨u1, hu1, he1⟩ := inv.sound it (hp.mem_iff.mpr (List.mem_cons_of_mem _ h))
      exact ⟨u1, (MS u1).mpr (Or.inl hu1), he1⟩
    · exact ⟨x.vertex, (MS _).mpr (Or.inr rfl), he1⟩
  · intro u1 v1 w1 hu1 he1 hnv1
    show (⟨v1, w1⟩ : Item) ∈ pq2
    rcases (MS u1).mp hu1 with h | h
    · have hnv : ¬ Marked st.visited v1 := fun hh => hnv1 ((MS v1).mpr (Or.inl hh))
      have h1 := hp.mem_iff.mp (inv.complete u1 v1 w1 h he1 hnv)
      rcases List.mem_cons.mp h1 with h2 | h2
      · exfalso
        apply hnv1
        have : v1 = x.vertex := by rw [← h2]
        exact (MS v1).mpr (Or.inr this)
      · exact (hmem _).mpr (Or.inl h2)
    · rw [h] at he1
      exact (hmem _).mpr (Or.inr ⟨⟨v1, w1⟩, he1, hnv1, rfl⟩)
  · exact List.cons_subperm_of_not_mem_of_mem hcT hc inv.sub
  · intro d hd
    show Marked (st.visited.set x.vertex true) d.1 ∧ Marked (st.visited.set x.vertex true) d.2.1
    rcases List.mem_cons.mp hd with h | h
    · subst h
      rcases hj with ⟨e1, e2⟩ | ⟨e1, e2⟩
      · exact ⟨(MS _).mpr (Or.inl (e1 ▸ hu)), (MS _).mpr (Or.inr e2)⟩
      · exact ⟨(MS _).mpr (Or.inr e1), (MS _).mpr (Or.inl (e2 ▸ hu))⟩
    · exact ⟨(MS _).mpr (Or.inl (inv.ends d h).1), (MS _).mpr (Or.inl (inv.ends d h).2)⟩
  · intro y hy
    rcases (MS y).mp hy with h | h
    · exact Reach.mono hTsub (fun _ hh => hh) (inv.linked y h)
    · rw [h]
      exact Reach.step (List.mem_cons_self _ _) hj.symm
        (Reach.mono hTsub (fun _ hh => hh) (inv.linked u hu))
  · obtain ⟨vs, nd, hvs, hl⟩ := inv.card
    refine ⟨x.vertex :: vs, List.nodup_cons.mpr ⟨fun hh => hm ((hvs _).mp hh), nd⟩, ?_, ?_⟩
    · intro y
      show y ∈ x.vertex :: vs ↔ Marked (st.visited.set x.vertex true) y
      rw [MS y, List.mem_cons, hvs y]
      exact Or.comm
    · simp only [List.length_cons]
      omega

/-! ## The loop of `PrimMST` ends with the weight of a minimum spanning tree -/

theorem primLoop_spec {n : Nat} {g : Graph} {calls : List Call} (hb : Built n calls g) :
    ∀ (fuel : Nat) (st : PrimState) (T : List Call),
    PrimInv g calls st T → pending st.visited g.adjList + st.pq.length < fuel →
    ∃ d Tf, primLoop g fuel st = .ok (wrap64 (st.totalWeight + d)) ∧
      IsSpanningTree calls Tf ∧ weightSum Tf = weightSum T + d ∧
      (NonNeg calls → ∀ F, F.Subperm calls →
        (∀ x, Linked calls x → Reach F (Marked st.visited) x) → d ≤ weightSum F) := by
  intro fuel
  induction fuel with
  | zero => intro st T _ h; omega
  | succ fuel ih =>
    intro st T inv hfuel
    by_cases hq : st.pq = []
    · refine ⟨0, T, ?_, inv.spanning hb hq, by omega, ?_⟩
      · rw [primLoop_empty g fuel st hq, Int.add_zero, inv.total]
      · intro hnn F hF _
        exact weightSum_nonneg (fun c hc => hnn c (hF.subset hc))
    · obtain ⟨x, pq1, hpop, hperm, hmin, hv1⟩ := heap_Pop_spec st.pq inv.heap hq
      have hx : x ∈ st.pq := hperm.mem_iff.mpr (List.mem_cons_self _ _)
      obtain ⟨u, hu, he⟩ := inv.sound x hx
      have hxn : x.vertex < n := (hb.adj_lt he).2
      have hxv : x.vertex < st.visited.length := by
        rw [inv.len, hb.len]
        exact hxn
      have hlen : st.pq.length = pq1.length + 1 := by
        rw [hperm.length_eq, List.length_cons]
      by_cases hm : Marked st.visited x.vertex
      · -- a stale item
        have hseen : idx st.visited x.vertex = .ok true := idx_ok_iff.mpr hm
        rw [primLoop_stale g fuel st hq hpop hseen]
        exact ih _ T (inv.stale hperm hv1 hm) (by simp only []; omega)
      · -- the item is honoured
        have hf : st.visited[x.vertex]? = some false := (not_Marked_iff hxv).mp hm
        have hseen : idx st.visited x.vertex = .ok false := idx_ok_iff.mpr hf
        have hadj := hb.idx_adj hxn
        obtain ⟨pq2, hpush, hv2, hmem, hl2⟩ := scan_spec hb (st.visited.set x.vertex true)
          (by rw [List.length_set, inv.len, hb.len]) x.vertex pq1 hv1
        rw [primLoop_fresh g fuel st hq hpop hseen hadj hpush]
        obtain ⟨c, u1, hc, hu1, hj, hw, inv1⟩ := inv.fresh hb hperm hm hv2 hmem
        have hpend := pending_set st.visited g.adjList x.vertex (g.adj x.vertex) hf
          (idx_ok_iff.mp hadj)
        obtain ⟨d, Tf, hrun, hT, hwT, hlow⟩ := ih _ (c :: T) inv1 (by simp only []; omega)
        refine ⟨x.weight + d, Tf, ?_, hT, ?_, ?_⟩
        · rw [hrun]
          simp only []
          rw [wrap64_add_left, Int.add_assoc]
        · rw [hwT, weightSum_cons, hw]
          omega
        · intro hnn F hF hreach
          have MS := fun y => Marked_set st.visited x.vertex y hxv
          have hlx : Linked calls x.vertex :=
            Reach.step hc hj.symm (inv.up u1 hu1)
          obtain ⟨c1, a, b, hc1, hj1, ha, hb1, hw1⟩ := first_crossing (hreach _ hlx) hm
          have hle : x.weight ≤ c1.2.2 :=
            hmin _ (inv.complete b a c1.2.2 hb1 (hb.call_adj (hF.subset hc1) hj1.symm) ha)
          have hlow1 := hlow hnn (F.erase c1) ((List.erase_sublist c1 F).subperm.trans hF)
            (fun y hy => reach_erase_crossing (fun z hz => (MS z).mpr (Or.inl hz))
              ((MS _).mpr (Or.inr rfl)) hj1 hb1 hw1 (hreach y hy))
          rw [weightSum_erase hc1] at hlow1
          omega

/-! ## `PrimMST` on a graph built by `NewGraph` and `AddEdge` -/

theorem not_Marked_replicate (n x : Nat) : ¬ Marked (List.replicate n false) x := by
  unfold Marked
  rw [List.getElem?_replicate]
  split_ifs <;> simp

/-- `PrimMST` returns, reduced to 64 bits, a number `m` that is the weight of a
spanning tree of the component of vertex `0` and, when no weight is negative, a
lower bound for the weight of every selection of edges that spans this component. -/
theorem PrimMST_spec {n : Nat} {g : Graph} {calls : List Call} (hb : Built n calls g)
    (hn : 0 < n) :
    ∃ m, g.PrimMST = .ok (wrap64 m) ∧
      (∃ T, IsSpanningTree calls T ∧ weightSum T = m) ∧
      (NonNeg calls → ∀ F, F.Subperm calls → Spans calls F → m ≤ weightSum F) := by
  have hseed : heap.Push [] ⟨0, 0⟩ = .ok [⟨0, 0⟩] := by rfl
  have hpop : heap.Pop [(⟨0, 0⟩ : Item)] = .ok (⟨0, 0⟩, []) := by rfl
  have hlen0 : (List.replicate g.vertices false).length = n := by
    rw [List.length_replicate, hb.vertices]
  have h0 : 0 < (List.replicate g.vertices false).length := by omega
  have hf : (List.replicate g.vertices false)[0]? = some false := by
    rw [List.getElem?_replicate]
    simp [hb.vertices, hn]
  have hseen : idx (List.replicate g.vertices false) 0 = .ok false := idx_ok_iff.mpr hf
  have hadj := hb.idx_adj hn
  obtain ⟨pq2, hpush, hv2, hmem, hl2⟩ := scan_spec hb ((List.replicate g.vertices false).set 0 true)
    (by rw [List.length_set, hlen0]) 0 [] HeapInv_nil
  have MS := fun y => Marked_set (List.replicate g.vertices false) 0 y h0
  have hM : ∀ y, Marked ((List.replicate g.vertices false).set 0 true) y ↔ y = 0 := by
    intro y
    rw [MS y]
    constructor
    · rintro (h | h)
      · exact absurd h (not_Marked_replicate _ _)
      · exact h
    · exact Or.inr
  have hrun : g.PrimMST = primLoop g (g.entries + 1)
      { totalWeight := wrap64 (0 + 0),
        visited := (List.replicate g.vertices false).set 0 true, pq := pq2 } := by
    unfold Graph.PrimMST
    rw [heap_Init_nil]
    simp only [bind, Except.bind]
    rw [hseed]
    simp only []
    have hstep := primLoop_fresh g (g.entries + 1)
      { totalWeight := 0, visited := List.replicate g.vertices false, pq := [⟨0, 0⟩] }
      (by simp) hpop hseen hadj hpush
    rw [← hstep]
  have inv : PrimInv g calls
      { totalWeight := wrap64 (0 + 0),
        visited := (List.replicate g.vertices false).set 0 true, pq := pq2 } [] := by
    refine ⟨?_, (hM 0).mpr rfl, hv2, wrap64_idem _, ?_, ?_, List.nil_subperm, ?_, ?_, ?_⟩
    · show ((List.replicate g.vertices false).set 0 true).length = g.adjList.length
      rw [List.length_set, hlen0, hb.len]
    · intro it hit
      rcases (hmem it).mp hit with h | ⟨e, he, _, rfl⟩
      · simp at h
      · exact ⟨0, (hM 0).mpr rfl, he⟩
    · intro u v w hu he hnv
      show (⟨v, w⟩ : Item) ∈ pq2
      rw [(hM u).mp hu] at he
      exact (hmem _).mpr (Or.inr ⟨⟨v, w⟩, he, hnv, rfl⟩)
    · intro c hc
      simp at hc
    · intro y hy
      exact Reach.base ((hM y).mp hy)
    · refine ⟨[0], by simp, ?_, rfl⟩
      intro y
      show y ∈ [0] ↔ Marked ((List.replicate g.vertices false).set 0 true) y
      rw [hM y]
      simp
  have hpend := pending_set (List.replicate g.vertices false) g.adjList 0 (g.adj 0) hf
    (idx_ok_iff.mp hadj)
  rw [hb.vertices, pending_replicate n g.adjList hb.len] at hpend
  obtain ⟨d, Tf, hres, hT, hwT, hlow⟩ := primLoop_spec hb (g.entries + 1) _ [] inv
    (by
      simp only [List.length_nil, Nat.add_zero] at hl2
      simp only [hb.vertices]
      unfold Graph.entries
      omega)
  refine ⟨d, ?_, ⟨Tf, hT, ?_⟩, ?_⟩
  · rw [hrun, hres]
    simp only []
    rw [wrap64_add_left]
    simp
  · rw [hwT]
    simp [weightSum]
  · intro hnn F hF hsp
    exact hlow hnn F hF (fun y hy => Reach.mono (fun _ h => h) (fun z hz => (hM z).mpr hz) (hsp y hy))

/-! ## Graph construction: `NewGraph` and `AddEdge` -/

theorem getElem?_eq_some_getD {α : Type} (l : List (List α)) (k : Nat) (hk : k < l.length) :
    l[k]? = some (l.getD k []) := by
  simp [List.getD_eq_getElem?_getD, List.getElem?_eq_getElem hk]

theorem getElem?_eq_of_adj_eq {g g1 : Graph} (hl : g1.adjList.length = g.adjList.length)
    (k : Nat) (h : g1.adj k = g.adj k) : g1.adjList[k]? = g.adjList[k]? := by
  by_cases hk : k < g.adjList.length
  · rw [getElem?_eq_some_getD _ k hk, getElem?_eq_some_getD _ k (by omega)]
    exact congrArg some h
  · rw [List.getElem?_eq_none (by omega), List.getElem?_eq_none (by omega)]

/-- C6: `NewGraph(n)` has vertex count `n` and `n` adjacency slots, all empty. -/
theorem NewGraph_isolated (n : Nat) :
    (NewGraph n).vertices = n ∧ (NewGraph n).adjList.length = n ∧
      ∀ k, k < n → (NewGraph n).adjList[k]? = some [] := by
  refine ⟨rfl, by simp [NewGraph], ?_⟩
  intro k hk
  simp [NewGraph, List.getElem?_replicate, hk]

/-- C4: for `u, v` below the vertex count, `AddEdge(u, v, w)` succeeds; the slice of
`u` is the old one with `(v, w)` appended, the slice of `v` the old one with
`(u, w)` appended (for `u = v` the slice gains `(u, w)` twice); every other slice,
the number of slots and the vertex count stay as they were. -/
theorem AddEdge_appends (g : Graph) (u v : Nat) (w : Int)
    (hlen : g.adjList.length = g.vertices) (hu : u < g.vertices) (hv : v < g.vertices) :
    ∃ g1, g.AddEdge u v w = .ok g1 ∧ g1.vertices = g.vertices ∧
      g1.adjList.length = g.adjList.length ∧
      (∀ k, k ≠ u → k ≠ v → g1.adjList[k]? = g.adjList[k]?) ∧
      (u ≠ v → g1.adjList[u]? = some (g.adj u ++ [⟨v, w⟩]) ∧
        g1.adjList[v]? = some (g.adj v ++ [⟨u, w⟩])) ∧
      (u = v → g1.adjList[u]? = some (g.adj u ++ [⟨u, w⟩, ⟨u, w⟩])) := by
  obtain ⟨g1, e1, v1, l1, a1⟩ := AddEdge_adj g u v w (by omega) (by omega)
  refine ⟨g1, e1, v1, l1, ?_, ?_, ?_⟩
  · intro k hku hkv
    apply getElem?_eq_of_adj_eq l1
    rw [a1]
    simp [hku, hkv]
  · intro huv
    constructor
    · rw [getElem?_eq_some_getD _ u (by omega)]
      change some (g1.adj u) = _
      rw [a1]
      simp [huv]
    · rw [getElem?_eq_some_getD _ v (by omega)]
      change some (g1.adj v) = _
      rw [a1]
      simp [Ne.symm huv]
  · intro huv
    subst huv
    rw [getElem?_eq_some_getD _ u (by omega)]
    change some (g1.adj u) = _
    rw [a1]
    simp

theorem AddEdge_appends_witness :
    (NewGraph 2).adjList.length = (NewGraph 2).vertices ∧ 0 < (NewGraph 2).vertices ∧
    1 < (NewGraph 2).vertices ∧
    ∃ g1, (NewGraph 2).AddEdge 0 1 7 = .ok g1 ∧ g1.vertices = (NewGraph 2).vertices ∧
      g1.adjList.length = (NewGraph 2).adjList.length ∧
      (∀ k, k ≠ 0 → k ≠ 1 → g1.adjList[k]? = (NewGraph 2).adjList[k]?) ∧
      (0 ≠ 1 → g1.adjList[0]? = some ((NewGraph 2).adj 0 ++ [⟨1, 7⟩]) ∧
        g1.adjList[1]? = some ((NewGraph 2).adj 1 ++ [⟨0, 7⟩])) ∧
      (0 = 1 → g1.adjList[0]? = some ((NewGraph 2).adj 0 ++ [⟨0, 7⟩, ⟨0, 7⟩])) :=
  ⟨by decide, by decide, by decide,
    AddEdge_appends (NewGraph 2) 0 1 7 (by decide) (by decide) (by decide)⟩

theorem Mirrored_AddEdge (g : Graph) (hm : Mirrored g) (a b : Nat) (w : Int)
    (ha : a < g.adjList.length) (hb : b < g.adjList.length) :
    ∃ g1, g.AddEdge a b w = .ok g1 ∧ g1.adjList.length = g.adjList.length ∧ Mirrored g1 := by
  obtain ⟨g1, e1, _, l1, a1⟩ := AddEdge_adj g a b w ha hb
  refine ⟨g1, e1, l1, ?_⟩
  intro u v x h
  rw [a1] at h
  rw [a1]
  simp only [List.mem_append] at h ⊢
  rcases h with (h | h) | h
  · exact Or.inl (Or.inl (hm u v x h))
  · split_ifs at h with e
    · simp only [List.mem_singleton, Edge.mk.injEq] at h
      obtain ⟨h1, h2⟩ := h
      refine Or.inr ?_
      simp [h1, h2, e]
    · simp at h
  · split_ifs at h with e
    · simp only [List.mem_singleton, Edge.mk.injEq] at h
      obtain ⟨h1, h2⟩ := h
      refine Or.inl (Or.inr ?_)
      simp [h1, h2, e]
    · simp at h

/-- C5: the graph `NewGraph(n)` is mirrored, every graph built from it by in-range
`AddEdge` calls is mirrored (`(v, w)` in the slice of `u` comes with `(u, w)` in the
slice of `v`), and an in-range `AddEdge` on any mirrored graph yields a mirrored graph. -/
theorem built_graph_mirrored (n : Nat) (calls : List Call) (hr : InRange n calls) :
    Mirrored (NewGraph n) ∧
      (∃ g, build n calls = .ok g ∧ Mirrored g) ∧
      ∀ g0 : Graph, Mirrored g0 → ∀ u v w, u < g0.adjList.length → v < g0.adjList.length →
        ∃ g1, g0.AddEdge u v w = .ok g1 ∧ Mirrored g1 := by
  refine ⟨?_, ?_, ?_⟩
  · intro u v w h
    rw [NewGraph_adj] at h
    simp at h
  · obtain ⟨g, e, _, _, a⟩ := build_spec n calls hr
    refine ⟨g, e, ?_⟩
    intro u v w h
    rw [a] at h ⊢
    exact h.symm
  · intro g0 hm u v w hu hv
    obtain ⟨g1, e1, _, m1⟩ := Mirrored_AddEdge g0 hm u v w hu hv
    exact ⟨g1, e1, m1⟩

theorem built_graph_mirrored_witness :
    InRange 2 [(0, 1, 5)] ∧ (Mirrored (NewGraph 2) ∧
      (∃ g, build 2 [(0, 1, 5)] = .ok g ∧ Mirrored g) ∧
      ∀ g0 : Graph, Mirrored g0 → ∀ u v w, u < g0.adjList.length → v < g0.adjList.length →
        ∃ g1, g0.AddEdge u v w = .ok g1 ∧ Mirrored g1) :=
  ⟨by intro c hc; simp at hc; subst hc; decide,
    built_graph_mirrored 2 [(0, 1, 5)] (by intro c hc; simp at hc; subst hc; decide)⟩

/-! ## The queue -/

/-- C7: on every queue that `heap.Push` and `heap.Pop` produce from the empty
queue, `heap.Pop` (queue not empty) returns an item no heavier than any item of the
queue and leaves the other items, as a multiset; `heap.Push` adds the pushed item
and keeps all others, whatever their vertex and weight. -/
theorem heap_Pop_min_Push_adds (h : PriorityQueue) (hr : HeapReachable h) :
    (h ≠ [] → ∃ x h1, heap.Pop h = .ok (x, h1) ∧ (∀ y ∈ h, x.weight ≤ y.weight) ∧
      h.Perm (x :: h1)) ∧
    ∀ x, ∃ h1, heap.Push h x = .ok h1 ∧ h1.Perm (x :: h) := by
  have hv := HeapInv_of_reachable hr
  constructor
  · intro hne
    obtain ⟨x, h1, e, p, m, _⟩ := heap_Pop_spec h hv hne
    exact ⟨x, h1, e, m, p⟩
  · intro x
    obtain ⟨h1, e, p, _⟩ := heap_Push_spec h x hv
    exact ⟨h1, e, p⟩

theorem heap_Pop_min_Push_adds_witness :
    HeapReachable [⟨1, 3⟩, ⟨1, 5⟩] ∧
    (([⟨1, 3⟩, ⟨1, 5⟩] : PriorityQueue) ≠ [] →
      ∃ x h1, heap.Pop [⟨1, 3⟩, ⟨1, 5⟩] = .ok (x, h1) ∧
        (∀ y ∈ ([⟨1, 3⟩, ⟨1, 5⟩] : PriorityQueue), x.weight ≤ y.weight) ∧
        List.Perm [⟨1, 3⟩, ⟨1, 5⟩] (x :: h1)) ∧
    ∀ x, ∃ h1, heap.Push [⟨1, 3⟩, ⟨1, 5⟩] x = .ok h1 ∧ h1.Perm (x :: [⟨1, 3⟩, ⟨1, 5⟩]) :=
  have hr : HeapReachable [⟨1, 3⟩, ⟨1, 5⟩] :=
    HeapReachable.push (h := [⟨1, 5⟩]) ⟨1, 3⟩
      (HeapReachable.push (h := []) ⟨1, 5⟩ HeapReachable.empty (by rfl)) (by rfl)
  ⟨hr, heap_Pop_min_Push_adds [⟨1, 3⟩, ⟨1, 5⟩] hr⟩

/-! ## The run of `main` -/

/-- C2: on the graph that `main` builds (five vertices, the seven `AddEdge` calls of
lines 116-122 in their order) `PrimMST` returns `16`. -/
theorem main_total_is_16 : mainTotal = .ok 16 := by rfl

/-! ## Spanning trees of a connected graph, and of the component of vertex `0` -/

theorem Linked_cases {calls : List Call} {x : Nat} (h : Linked calls x) :
    x = 0 ∨ ∃ c ∈ calls, c.1 = x ∨ c.2.1 = x := by
  cases h with
  | base h0 => exact Or.inl h0
  | step hc hj _ =>
    refine Or.inr ⟨_, hc, ?_⟩
    rcases hj with ⟨e, _⟩ | ⟨_, e⟩
    · exact Or.inl e
    · exact Or.inr e

theorem Linked_lt {n : Nat} {calls : List Call} (hn : 0 < n) (hr : InRange n calls) {x : Nat}
    (h : Linked calls x) : x < n := by
  rcases Linked_cases h with h0 | ⟨c, hc, e | e⟩
  · omega
  · rw [← e]; exact (hr c hc).1
  · rw [← e]; exact (hr c hc).2

theorem spanningTree_iff_of_connected {n : Nat} {calls : List Call} (hn : 0 < n)
    (hr : InRange n calls) (hc : Connected n calls) (T : List Call) :
    IsSpanningTree calls T ↔ IsSpanningTreeOfGraph n calls T := by
  constructor
  · intro h
    refine ⟨h.sub, fun x hx => h.spans x (hc x hx), ?_⟩
    obtain ⟨vs, nd, hm, hl⟩ := h.card
    have hp : vs.Perm (List.range n) := by
      rw [List.perm_ext_iff_of_nodup nd (List.nodup_range n)]
      intro x
      rw [hm, List.mem_range]
      exact ⟨Linked_lt hn hr, hc x⟩
    rw [hl, hp.length_eq, List.length_range]
  · intro h
    refine ⟨h.sub, ?_, fun x hx => h.spans x (Linked_lt hn hr hx), ?_⟩
    · intro c hcT
      have := hr c (h.sub.subset hcT)
      exact ⟨hc _ this.1, hc _ this.2⟩
    · refine ⟨List.range n, List.nodup_range n, ?_, ?_⟩
      · intro x
        rw [List.mem_range]
        exact ⟨hc x, Linked_lt hn hr⟩
      · rw [h.card, List.length_range]

theorem mstWeight_iff_of_connected {n : Nat} {calls : List Call} (hn : 0 < n)
    (hr : InRange n calls) (hc : Connected n calls) (m : Int) :
    IsMSTWeight calls m ↔ IsMSTWeightOfGraph n calls m := by
  unfold IsMSTWeight IsMSTWeightOfGraph
  simp only [spanningTree_iff_of_connected hn hr hc]

/-- A graph that is a tree is its only spanning tree. -/
theorem mstWeight_of_tree {calls : List Call} (h : IsSpanningTree calls calls) :
    IsMSTWeight calls (weightSum calls) := by
  refine ⟨⟨calls, h, rfl⟩, ?_⟩
  intro T hT
  obtain ⟨vs, nd, hm, hl⟩ := h.card
  obtain ⟨vs1, nd1, hm1, hl1⟩ := hT.card
  have hp : vs.Perm vs1 := by
    rw [List.perm_ext_iff_of_nodup nd nd1]
    intro x
    rw [hm, hm1]
  have hlen : calls.length ≤ T.length := by
    have := hp.length_eq
    omega
  rw [weightSum_perm (hT.sub.perm_of_length_le hlen)]

theorem PrimMST_nonneg_bound {calls : List Call} (hnn : NonNeg calls) {T : List Call}
    (hT : T.Subperm calls) : 0 ≤ weightSum T :=
  weightSum_nonneg (fun c hc => hnn c (hT.subset hc))

/-- The result of `PrimMST` on a built graph: a minimum spanning tree weight of the
component of vertex `0`, reduced to 64 bits. -/
theorem PrimMST_built {n : Nat} {calls : List Call} (hn : 0 < n) (hr : InRange n calls)
    (hnn : NonNeg calls) :
    ∃ g m, build n calls = .ok g ∧ Built n calls g ∧ IsMSTWeight calls m ∧ 0 ≤ m ∧
      g.PrimMST = .ok (wrap64 m) := by
  obtain ⟨g, e, v, l, a⟩ := build_spec n calls hr
  have hb : Built n calls g := ⟨v, l, a, hr⟩
  obtain ⟨m, hrun, ⟨T, hT, hw⟩, hlow⟩ := PrimMST_spec hb hn
  refine ⟨g, m, e, hb, ⟨⟨T, hT, hw⟩, fun T1 hT1 => hlow hnn T1 hT1.sub hT1.spans⟩, ?_, hrun⟩
  rw [← hw]
  exact PrimMST_nonneg_bound hnn hT.sub

/-! ### The path with two edges of weight `2^62` -/

theorem heavyPath_linked : Linked heavyPath 0 ∧ Linked heavyPath 1 ∧ Linked heavyPath 2 := by
  have h0 : Linked heavyPath 0 := Reach.base rfl
  have h1 : Linked heavyPath 1 :=
    Reach.step (c := (0, 1, 4611686018427387904)) (by simp [heavyPath])
      (Or.inr ⟨rfl, rfl⟩) h0
  have h2 : Linked heavyPath 2 :=
    Reach.step (c := (1, 2, 4611686018427387904)) (by simp [heavyPath])
      (Or.inr ⟨rfl, rfl⟩) h1
  exact ⟨h0, h1, h2⟩

theorem heavyPath_linked_iff (x : Nat) : x ∈ [0, 1, 2] ↔ Linked heavyPath x := by
  obtain ⟨h0, h1, h2⟩ := heavyPath_linked
  constructor
  · intro hx
    simp only [List.mem_cons, List.mem_singleton, List.not_mem_nil, or_false] at hx
    rcases hx with rfl | rfl | rfl
    · exact h0
    · exact h1
    · exact h2
  · intro hx
    rcases Linked_cases hx with e | ⟨c, hc, e⟩
    · simp [e]
    · simp only [heavyPath, List.mem_cons, List.mem_singleton, List.not_mem_nil, or_false] at hc
      rcases hc with rfl | rfl
      · rcases e with e | e <;> simp [← e]
      · rcases e with e | e <;> simp [← e]

theorem heavyPath_tree : IsSpanningTree heavyPath heavyPath := by
  obtain ⟨h0, h1, h2⟩ := heavyPath_linked
  refine ⟨List.Subperm.refl _, ?_, fun _ h => h, ⟨[0, 1, 2], by decide, heavyPath_linked_iff, rfl⟩⟩
  intro c hc
  simp only [heavyPath, List.mem_cons, List.mem_singleton, List.not_mem_nil, or_false] at hc
  rcases hc with rfl | rfl
  · exact ⟨h0, h1⟩
  · exact ⟨h1, h2⟩

theorem heavyPath_mst : IsMSTWeight heavyPath 9223372036854775808 := by
  have := mstWeight_of_tree heavyPath_tree
  have e : weightSum heavyPath = 9223372036854775808 := by decide
  rw [e] at this
  exact this

theorem heavyPath_inRange (n : Nat) (hn : 3 ≤ n) : InRange n heavyPath := by
  intro c hc
  simp only [heavyPath, List.mem_cons, List.mem_singleton, List.not_mem_nil, or_false] at hc
  rcases hc with rfl | rfl
  · exact ⟨by simp only []; omega, by simp only []; omega⟩
  · exact ⟨by simp only []; omega, by simp only []; omega⟩

theorem heavyPath_nonNeg : NonNeg heavyPath := by
  intro c hc
  simp only [heavyPath, List.mem_cons, List.mem_singleton, List.not_mem_nil, or_false] at hc
  rcases hc with rfl | rfl <;> decide

theorem heavyPath_connected : Connected 3 heavyPath := by
  intro x hx
  apply (heavyPath_linked_iff x).mp
  interval_cases x <;> simp

/-! ## The result of `PrimMST` -/

/-- C3, as the code has it: for `n ≥ 1`, in-range end points and non-negative
weights, connected graph or not, `PrimMST` returns the least weight `m` of a
spanning tree of the component of vertex `0` (a selection of edges inside that
component), reduced to the 64-bit range of `int`; it returns `m` itself whenever
`m < 2^63`. -/
theorem PrimMST_component (n : Nat) (calls : List Call) (hn : 0 < n) (hr : InRange n calls)
    (hnn : NonNeg calls) :
    ∃ g m, build n calls = .ok g ∧ IsMSTWeight calls m ∧ g.PrimMST = .ok (wrap64 m) ∧
      (m < 9223372036854775808 → g.PrimMST = .ok m) := by
  obtain ⟨g, m, e, _, hm, h0, hrun⟩ := PrimMST_built hn hr hnn
  refine ⟨g, m, e, hm, hrun, ?_⟩
  intro hlt
  rw [hrun, wrap64_of_range (by omega) hlt]

theorem PrimMST_component_witness :
    0 < 5 ∧ InRange 5 mainCalls ∧ NonNeg mainCalls ∧
    ∃ g m, build 5 mainCalls = .ok g ∧ IsMSTWeight mainCalls m ∧ g.PrimMST = .ok (wrap64 m) ∧
      (m < 9223372036854775808 → g.PrimMST = .ok m) :=
  have hr : InRange 5 mainCalls := by
    intro c hc
    simp only [mainCalls, List.mem_cons, List.mem_singleton, List.not_mem_nil, or_false] at hc
    rcases hc with rfl | rfl | rfl | rfl | rfl | rfl | rfl <;> decide
  have hnn : NonNeg mainCalls := by
    intro c hc
    simp only [mainCalls, List.mem_cons, List.mem_singleton, List.not_mem_nil, or_false] at hc
    rcases hc with rfl | rfl | rfl | rfl | rfl | rfl | rfl <;> decide
  ⟨by decide, hr, hnn, PrimMST_component 5 mainCalls (by decide) hr hnn⟩

/-- C3 fails as stated: with four vertices and the two edges `0 - 1` and `1 - 2` of
weight `2^62` each, the least spanning tree weight of the component of vertex `0`
is `2^63`, and `PrimMST` returns `-2^63`. -/
theorem PrimMST_component_overflow :
    0 < 4 ∧ InRange 4 heavyPath ∧ NonNeg heavyPath ∧
    ∃ g, build 4 heavyPath = .ok g ∧ IsMSTWeight heavyPath 9223372036854775808 ∧
      g.PrimMST = .ok (-9223372036854775808) ∧
      g.PrimMST ≠ .ok 9223372036854775808 := by
  refine ⟨by decide, heavyPath_inRange 4 (by decide), heavyPath_nonNeg, ?_⟩
  have e1 : build 4 heavyPath = .ok
      { vertices := 4,
        adjList := [[⟨1, 4611686018427387904⟩],
          [⟨0, 4611686018427387904⟩, ⟨2, 4611686018427387904⟩],
          [⟨1, 4611686018427387904⟩], []] } := by rfl
  refine ⟨_, e1, heavyPath_mst, by rfl, ?_⟩
  intro h
  have h2 : (Except.ok (-9223372036854775808) : Except Fault Int) =
      .ok 9223372036854775808 := by
    rw [← h]
    rfl
  cases h2

/-- C1, as the code has it: for `n ≥ 1`, in-range end points, non-negative weights
and a connected graph, `PrimMST` returns the least weight `m` over all spanning
trees of the graph, reduced to the 64-bit range of `int`; it returns `m` itself
whenever `m < 2^63`. -/
theorem PrimMST_connected (n : Nat) (calls : List Call) (hn : 0 < n) (hr : InRange n calls)
    (hnn : NonNeg calls) (hc : Connected n calls) :
    ∃ g m, build n calls = .ok g ∧ IsMSTWeightOfGraph n calls m ∧
      g.PrimMST = .ok (wrap64 m) ∧ (m < 9223372036854775808 → g.PrimMST = .ok m) := by
  obtain ⟨g, m, e, _, hm, h0, hrun⟩ := PrimMST_built hn hr hnn
  refine ⟨g, m, e, (mstWeight_iff_of_connected hn hr hc m).mp hm, hrun, ?_⟩
  intro hlt
  rw [hrun, wrap64_of_range (by omega) hlt]

theorem PrimMST_connected_witness :
    0 < 3 ∧ InRange 3 heavyPath ∧ NonNeg heavyPath ∧ Connected 3 heavyPath ∧
    ∃ g m, build 3 heavyPath = .ok g ∧ IsMSTWeightOfGraph 3 heavyPath m ∧
      g.PrimMST = .ok (wrap64 m) ∧ (m < 9223372036854775808 → g.PrimMST = .ok m) :=
  ⟨by decide, heavyPath_inRange 3 (by decide), heavyPath_nonNeg, heavyPath_connected,
    PrimMST_connected 3 heavyPath (by decide) (heavyPath_inRange 3 (by decide))
      heavyPath_nonNeg heavyPath_connected⟩

/-- C1 fails as stated: the connected graph with three vertices and the two edges
`0 - 1` and `1 - 2` of weight `2^62` each has the least spanning tree weight `2^63`,
and `PrimMST` returns `-2^63`. -/
theorem PrimMST_connected_overflow :
    0 < 3 ∧ InRange 3 heavyPath ∧ NonNeg heavyPath ∧ Connected 3 heavyPath ∧
    ∃ g, build 3 heavyPath = .ok g ∧ IsMSTWeightOfGraph 3 heavyPath 9223372036854775808 ∧
      g.PrimMST = .ok (-9223372036854775808) ∧
      g.PrimMST ≠ .ok 9223372036854775808 := by
  have hr := heavyPath_inRange 3 (by decide)
  refine ⟨by decide, hr, heavyPath_nonNeg, heavyPath_connected, ?_⟩
  have e1 : build 3 heavyPath = .ok
      { vertices := 3,
        adjList := [[⟨1, 4611686018427387904⟩],
          [⟨0, 4611686018427387904⟩, ⟨2, 4611686018427387904⟩],
          [⟨1, 4611686018427387904⟩]] } := by rfl
  refine ⟨_, e1,
    (mstWeight_iff_of_connected (by decide) hr heavyPath_connected _).mp heavyPath_mst,
    by rfl, ?_⟩
  intro h
  have h2 : (Except.ok (-9223372036854775808) : Except Fault Int) =
      .ok 9223372036854775808 := by
    rw [← h]
    rfl
  cases h2

/-! ## Graphs with the same undirected edges -/

/-- A walk along edges of `F` is a walk along edges of `G` when every edge of `F`
has an edge of `G` with the same end points. -/
theorem Reach.cover {F G : List Call} {S : Nat → Prop}
    (hFG : ∀ c ∈ F, ∀ x y, Joins c x y → ∃ d ∈ G, Joins d x y) {x : Nat}
    (h : Reach F S x) : Reach G S x := by
  induction h with
  | base hx => exact Reach.base hx
  | step hc hj _ ih =>
    obtain ⟨d, hd, hjd⟩ := hFG _ hc _ _ hj
    exact Reach.step hd hjd ih

theorem Built.AddEdge {n : Nat} {calls : List Call} {g : Graph} (hb : Built n calls g)
    (a b : Nat) (w : Int) (ha : a < n) (hb1 : b < n) :
    ∃ g1, g.AddEdge a b w = .ok g1 ∧ Built n (calls ++ [(a, b, w)]) g1 := by
  obtain ⟨g1, e1, v1, l1, a1⟩ := AddEdge_adj g a b w (by rw [hb.len]; exact ha)
    (by rw [hb.len]; exact hb1)
  refine ⟨g1, e1, ⟨by rw [v1, hb.vertices], by rw [l1, hb.len], ?_, ?_⟩⟩
  · intro u v x
    rw [a1]
    simp only [List.mem_append, List.mem_singleton, Prod.mk.injEq, hb.adj u v x]
    constructor
    · rintro ((h | h) | h)
      · rcases h with h | h
        · exact Or.inl (Or.inl h)
        · exact Or.inr (Or.inl h)
      · split_ifs at h with e
        · simp only [List.mem_singleton, Edge.mk.injEq] at h
          exact Or.inl (Or.inr ⟨e, h.1, h.2⟩)
        · simp at h
      · split_ifs at h with e
        · simp only [List.mem_singleton, Edge.mk.injEq] at h
          exact Or.inr (Or.inr ⟨h.1, e, h.2⟩)
        · simp at h
    · rintro ((h | ⟨e1, e2, e3⟩) | (h | ⟨e1, e2, e3⟩))
      · exact Or.inl (Or.inl (Or.inl h))
      · refine Or.inl (Or.inr ?_)
        simp [e1, e2, e3]
      · exact Or.inl (Or.inl (Or.inr h))
      · refine Or.inr ?_
        simp [e1, e2, e3]
  · intro c hc
    rcases List.mem_append.mp hc with h | h
    · exact hb.range c h
    · rw [List.mem_singleton] at h
      subst h
      exact ⟨ha, hb1⟩

theorem subperm_of_subperm_append_singleton {T calls : List Call} {c : Call}
    (h : T.Subperm (calls ++ [c])) (hc : c ∉ T) : T.Subperm calls := by
  obtain ⟨l, hp, hs⟩ := h
  obtain ⟨a, b, e, ha, hb⟩ := List.sublist_append_iff.mp hs
  have hb0 : b = [] := by
    cases b with
    | nil => rfl
    | cons d b1 =>
      exfalso
      have hd : d ∈ [c] := hb.subset (List.mem_cons_self _ _)
      rw [List.mem_singleton] at hd
      apply hc
      apply hp.mem_iff.mp
      rw [e, ← hd]
      simp
  rw [hb0, List.append_nil] at e
  exact ⟨l, hp, e ▸ ha⟩

/-- A selection of edges of the graph with one more parallel edge `c1`, no lighter
than the edge `c` it doubles, gives a selection of edges of the graph without it
that is no heavier and joins the same vertices. -/
theorem drop_parallel {calls T : List Call} {c c1 : Call} (hT : T.Subperm (calls ++ [c1]))
    (hc : c ∈ calls) (hj : ∀ x y, Joins c1 x y → Joins c x y) (hw : c.2.2 ≤ c1.2.2)
    (h0 : 0 ≤ c1.2.2) :
    ∃ F, F.Subperm calls ∧ weightSum F ≤ weightSum T ∧
      ∀ (S : Nat → Prop) x, Reach T S x → Reach F S x := by
  by_cases hc1 : c1 ∈ T
  · obtain ⟨T0, hp⟩ : ∃ T0, T.Perm (c1 :: T0) := ⟨_, List.perm_cons_erase hc1⟩
    have hs0 : T0.Subperm calls := by
      have h1 : (c1 :: T0).Subperm (c1 :: calls) :=
        (hp.symm.subperm.trans hT).trans (List.perm_append_singleton c1 calls).subperm
      exact (List.subperm_cons c1).mp h1
    have hwT : weightSum T = c1.2.2 + weightSum T0 := by
      rw [weightSum_perm hp, weightSum_cons]
    by_cases hcT : c ∈ T0
    · refine ⟨T0, hs0, by omega, ?_⟩
      intro S x hx
      refine Reach.cover ?_ hx
      intro d hd x y hjd
      rcases List.mem_cons.mp (hp.mem_iff.mp hd) with e | e
      · exact ⟨c, hcT, hj x y (e ▸ hjd)⟩
      · exact ⟨d, e, hjd⟩
    · refine ⟨c :: T0, List.cons_subperm_of_not_mem_of_mem hcT hc hs0, ?_, ?_⟩
      · rw [weightSum_cons]
        omega
      · intro S x hx
        refine Reach.cover ?_ hx
        intro d hd x y hjd
        rcases List.mem_cons.mp (hp.mem_iff.mp hd) with e | e
        · exact ⟨c, List.mem_cons_self _ _, hj x y (e ▸ hjd)⟩
        · exact ⟨d, List.mem_cons_of_mem _ e, hjd⟩
  · exact ⟨T, subperm_of_subperm_append_singleton hT hc1, le_refl _, fun _ _ h => h⟩

theorem SameOrFlipped.joins {c d : Call} (h : SameOrFlipped c d) (x y : Nat) :
    Joins c x y ↔ Joins d x y := by
  rcases h with rfl | rfl
  · exact Iff.rfl
  · unfold Joins
    simp only []
    constructor
    · rintro (⟨e1, e2⟩ | ⟨e1, e2⟩)
      · exact Or.inr ⟨e2, e1⟩
      · exact Or.inl ⟨e2, e1⟩
    · rintro (⟨e1, e2⟩ | ⟨e1, e2⟩)
      · exact Or.inr ⟨e2, e1⟩
      · exact Or.inl ⟨e2, e1⟩

theorem SameOrFlipped.weight {c d : Call} (h : SameOrFlipped c d) : d.2.2 = c.2.2 := by
  rcases h with rfl | rfl <;> rfl

theorem SameOrFlipped.back {c d : Call} (h : SameOrFlipped c d) : SameOrFlipped d c := by
  obtain ⟨c1, c2, c3⟩ := c
  rcases h with rfl | rfl
  · exact Or.inl rfl
  · exact Or.inr rfl

theorem forall₂_mem_right {xs ys : List Call} (h : List.Forall₂ SameOrFlipped xs ys) :
    ∀ d ∈ ys, ∃ c ∈ xs, SameOrFlipped c d := by
  induction h with
  | nil => intro d hd; simp at hd
  | cons hr _ ih =>
    intro d hd
    rcases List.mem_cons.mp hd with e | e
    · exact ⟨_, List.mem_cons_self _ _, e ▸ hr⟩
    · obtain ⟨c, hc, hcd⟩ := ih d e
      exact ⟨c, List.mem_cons_of_mem _ hc, hcd⟩

theorem forall₂_mem_left {xs ys : List Call} (h : List.Forall₂ SameOrFlipped xs ys) :
    ∀ c ∈ xs, ∃ d ∈ ys, SameOrFlipped c d := by
  induction h with
  | nil => intro d hd; simp at hd
  | cons hr _ ih =>
    intro c hc
    rcases List.mem_cons.mp hc with e | e
    · exact ⟨_, List.mem_cons_self _ _, e ▸ hr⟩
    · obtain ⟨d, hd, hcd⟩ := ih c e
      exact ⟨d, List.mem_cons_of_mem _ hd, hcd⟩

theorem forall₂_weightSum {xs ys : List Call} (h : List.Forall₂ SameOrFlipped xs ys) :
    weightSum xs = weightSum ys := by
  induction h with
  | nil => rfl
  | cons hr _ ih => rw [weightSum_cons, weightSum_cons, ih, hr.weight]

theorem forall₂_sublist {xs ys : List Call} (h : List.Forall₂ SameOrFlipped xs ys) :
    ∀ l, l.Sublist ys → ∃ k, k.Sublist xs ∧ List.Forall₂ SameOrFlipped k l := by
  induction h with
  | nil =>
    intro l hl
    rw [List.sublist_nil] at hl
    subst hl
    exact ⟨[], List.Sublist.refl _, List.Forall₂.nil⟩
  | @cons a b xs ys hr _ ih =>
    intro l hl
    cases hl with
    | cons _ h1 =>
      obtain ⟨k, hk, hf⟩ := ih l h1
      exact ⟨k, hk.cons a, hf⟩
    | cons₂ _ h1 =>
      obtain ⟨k, hk, hf⟩ := ih _ h1
      exact ⟨a :: k, hk.cons₂ a, List.Forall₂.cons hr hf⟩

theorem SameEdges.reverse {calls1 calls2 : List Call} (h : SameEdges calls1 calls2) :
    SameEdges calls2 calls1 := by
  obtain ⟨mid, hf, hp⟩ := h
  have hf1 : List.Forall₂ SameOrFlipped mid calls1 :=
    List.Forall₂.flip (hf.imp (fun _ _ hab => hab.back))
  exact List.perm_comp_forall₂ hp.symm hf1

theorem SameEdges.linked {calls1 calls2 : List Call} (h : SameEdges calls1 calls2) {x : Nat}
    (hx : Linked calls1 x) : Linked calls2 x := by
  obtain ⟨mid, hf, hp⟩ := h
  refine Reach.cover ?_ hx
  intro c hc x y hj
  obtain ⟨d, hd, hcd⟩ := forall₂_mem_left hf c hc
  exact ⟨d, hp.mem_iff.mp hd, (hcd.joins x y).mp hj⟩

/-- A selection of edges of the second graph gives a selection of edges of the
first graph with the same weight that joins the same vertices. -/
theorem SameEdges.transfer {calls1 calls2 : List Call} (h : SameEdges calls1 calls2)
    {T : List Call} (hT : T.Subperm calls2) :
    ∃ F, F.Subperm calls1 ∧ weightSum F = weightSum T ∧
      ∀ (S : Nat → Prop) x, Reach T S x → Reach F S x := by
  obtain ⟨mid, hf, hp⟩ := h
  obtain ⟨l, hlp, hls⟩ := hT.trans hp.symm.subperm
  obtain ⟨k, hk, hkf⟩ := forall₂_sublist hf l hls
  refine ⟨k, hk.subperm, ?_, ?_⟩
  · rw [forall₂_weightSum hkf, weightSum_perm hlp]
  · intro S x hx
    refine Reach.cover ?_ hx
    intro d hd x y hj
    obtain ⟨c, hc, hcd⟩ := forall₂_mem_right hkf d (hlp.mem_iff.mpr hd)
    exact ⟨c, hc, (hcd.joins x y).mpr hj⟩

theorem SameEdges.inRange {n : Nat} {calls1 calls2 : List Call} (h : SameEdges calls1 calls2)
    (hr : InRange n calls1) : InRange n calls2 := by
  obtain ⟨mid, hf, hp⟩ := h
  intro d hd
  obtain ⟨c, hc, hcd⟩ := forall₂_mem_right hf d (hp.mem_iff.mpr hd)
  have := hr c hc
  rcases hcd with rfl | rfl
  · exact this
  · exact ⟨this.2, this.1⟩

theorem SameEdges.nonNeg {calls1 calls2 : List Call} (h : SameEdges calls1 calls2)
    (hnn : NonNeg calls1) : NonNeg calls2 := by
  obtain ⟨mid, hf, hp⟩ := h
  intro d hd
  obtain ⟨c, hc, hcd⟩ := forall₂_mem_right hf d (hp.mem_iff.mpr hd)
  rw [hcd.weight]
  exact hnn c hc

/-- The least spanning weight does not grow from the first graph to the second when
every spanning selection of the second gives a spanning selection of the first
that is no heavier. -/
theorem mst_le_of_transfer {calls1 calls2 : List Call} (hnn1 : NonNeg calls1)
    (hl : ∀ x, Linked calls1 x → Linked calls2 x)
    (ht : ∀ T, T.Subperm calls2 → ∃ F, F.Subperm calls1 ∧ weightSum F ≤ weightSum T ∧
      ∀ (S : Nat → Prop) x, Reach T S x → Reach F S x)
    {m1 m2 : Int} (h1 : NonNeg calls1 → ∀ F, F.Subperm calls1 → Spans calls1 F → m1 ≤ weightSum F)
    (h2 : ∃ T, IsSpanningTree calls2 T ∧ weightSum T = m2) : m1 ≤ m2 := by
  obtain ⟨T, hT, hw⟩ := h2
  obtain ⟨F, hF, hwF, hreach⟩ := ht T hT.sub
  have := h1 hnn1 F hF (fun x hx => hreach _ x (hT.spans x (hl x hx)))
  omega

/-! ## Changes of the graph that leave the result of `PrimMST` as it is -/

/-- C8: for `n ≥ 1`, in-range end points and non-negative weights, a graph that has
an edge between `u` and `v` of weight `w` and the graph that `AddEdge(u, v, w1)` with
`w1 ≥ w` makes of it have the same `PrimMST` result. -/
theorem PrimMST_heavier_parallel_edge (n : Nat) (calls : List Call) (u v : Nat) (w w1 : Int)
    (hn : 0 < n) (hr : InRange n calls) (hnn : NonNeg calls)
    (hpar : (u, v, w) ∈ calls ∨ (v, u, w) ∈ calls) (hw : w ≤ w1) :
    ∃ g g1 t, build n calls = .ok g ∧ g.AddEdge u v w1 = .ok g1 ∧
      g.PrimMST = .ok t ∧ g1.PrimMST = .ok t := by
  obtain ⟨g, e, vx, l, a⟩ := build_spec n calls hr
  have hb : Built n calls g := ⟨vx, l, a, hr⟩
  obtain ⟨c, hc, hj, hcw⟩ : ∃ c ∈ calls, (∀ x y, Joins (u, v, w1) x y → Joins c x y) ∧
      c.2.2 = w := by
    rcases hpar with h | h
    · exact ⟨_, h, fun x y hxy => hxy, rfl⟩
    · exact ⟨_, h, fun x y hxy => Or.elim hxy (fun p => Or.inr ⟨p.2, p.1⟩)
        (fun p => Or.inl ⟨p.2, p.1⟩), rfl⟩
  have huv : u < n ∧ v < n := by
    rcases hpar with h | h
    · exact hr _ h
    · exact (hr _ h).symm
  have hw0 : 0 ≤ w := hcw ▸ hnn c hc
  obtain ⟨g1, e1, hb1⟩ := hb.AddEdge u v w1 huv.1 huv.2
  have hnn1 : NonNeg (calls ++ [(u, v, w1)]) := by
    intro d hd
    rcases List.mem_append.mp hd with h | h
    · exact hnn d h
    · rw [List.mem_singleton] at h
      subst h
      exact le_trans hw0 hw
  obtain ⟨m, hrun, hex, hlow⟩ := PrimMST_spec hb hn
  obtain ⟨m1, hrun1, hex1, hlow1⟩ := PrimMST_spec hb1 hn
  have h1 : m ≤ m1 := by
    refine mst_le_of_transfer hnn ?_ ?_ hlow hex1
    · intro x hx
      exact Reach.mono (fun d hd => List.mem_append_left _ hd) (fun _ h => h) hx
    · intro T hT
      exact drop_parallel hT hc hj (by rw [hcw]; exact hw) (le_trans hw0 hw)
  have h2 : m1 ≤ m := by
    refine mst_le_of_transfer hnn1 ?_ ?_ hlow1 hex
    · intro x hx
      refine Reach.cover ?_ hx
      intro d hd x y hjd
      rcases List.mem_append.mp hd with h | h
      · exact ⟨d, h, hjd⟩
      · rw [List.mem_singleton] at h
        exact ⟨c, hc, hj x y (h ▸ hjd)⟩
    · intro T hT
      exact ⟨T, hT.trans (List.sublist_append_left calls _).subperm, le_refl _,
        fun _ _ h => h⟩
  have hm : m1 = m := le_antisymm h2 h1
  exact ⟨g, g1, wrap64 m, e, e1, hrun, hm ▸ hrun1⟩

theorem PrimMST_heavier_parallel_edge_witness :
    0 < 5 ∧ InRange 5 mainCalls ∧ NonNeg mainCalls ∧
    ((1, 3, 8) ∈ mainCalls ∨ (3, 1, 8) ∈ mainCalls) ∧ (8 : Int) ≤ 11 ∧
    ∃ g g1 t, build 5 mainCalls = .ok g ∧ g.AddEdge 1 3 11 = .ok g1 ∧
      g.PrimMST = .ok t ∧ g1.PrimMST = .ok t :=
  have hr : InRange 5 mainCalls := by
    intro c hc
    simp only [mainCalls, List.mem_cons, List.mem_singleton, List.not_mem_nil, or_false] at hc
    rcases hc with rfl | rfl | rfl | rfl | rfl | rfl | rfl <;> decide
  have hnn : NonNeg mainCalls := by
    intro c hc
    simp only [mainCalls, List.mem_cons, List.mem_singleton, List.not_mem_nil, or_false] at hc
    rcases hc with rfl | rfl | rfl | rfl | rfl | rfl | rfl <;> decide
  have hp : (1, 3, 8) ∈ mainCalls ∨ (3, 1, 8) ∈ mainCalls := Or.inl (by decide)
  ⟨by decide, hr, hnn, hp, by decide,
    PrimMST_heavier_parallel_edge 5 mainCalls 1 3 8 11 (by decide) hr hnn hp (by decide)⟩

/-- C10: for `n ≥ 1`, in-range end points and non-negative weights, two graphs with
the same vertex count whose `AddEdge` call sequences are permutations of each
other, up to the order of the two end points in each call, have the same `PrimMST`
result. -/
theorem PrimMST_same_edges (n : Nat) (calls1 calls2 : List Call) (hn : 0 < n)
    (hr : InRange n calls1) (hnn : NonNeg calls1) (hs : SameEdges calls1 calls2) :
    ∃ g1 g2 t, build n calls1 = .ok g1 ∧ build n calls2 = .ok g2 ∧
      g1.PrimMST = .ok t ∧ g2.PrimMST = .ok t := by
  have hr2 := hs.inRange hr
  have hnn2 := hs.nonNeg hnn
  obtain ⟨g1, e1, v1, l1, a1⟩ := build_spec n calls1 hr
  obtain ⟨g2, e2, v2, l2, a2⟩ := build_spec n calls2 hr2
  obtain ⟨m1, hrun1, hex1, hlow1⟩ := PrimMST_spec (⟨v1, l1, a1, hr⟩ : Built n calls1 g1) hn
  obtain ⟨m2, hrun2, hex2, hlow2⟩ := PrimMST_spec (⟨v2, l2, a2, hr2⟩ : Built n calls2 g2) hn
  have h1 : m1 ≤ m2 := by
    refine mst_le_of_transfer hnn (fun x hx => hs.linked hx) ?_ hlow1 hex2
    intro T hT
    obtain ⟨F, hF, hwF, hreach⟩ := hs.transfer hT
    exact ⟨F, hF, le_of_eq hwF, hreach⟩
  have h2 : m2 ≤ m1 := by
    refine mst_le_of_transfer hnn2 (fun x hx => hs.reverse.linked hx) ?_ hlow2 hex1
    intro T hT
    obtain ⟨F, hF, hwF, hreach⟩ := hs.reverse.transfer hT
    exact ⟨F, hF, le_of_eq hwF, hreach⟩
  have hm : m2 = m1 := le_antisymm h2 h1
  exact ⟨g1, g2, wrap64 m1, e1, e2, hrun1, hm ▸ hrun2⟩

theorem PrimMST_same_edges_witness :
    0 < 3 ∧ InRange 3 [(0, 1, 4), (1, 2, 4), (0, 2, 4)] ∧
    NonNeg [(0, 1, 4), (1, 2, 4), (0, 2, 4)] ∧
    SameEdges [(0, 1, 4), (1, 2, 4), (0, 2, 4)] [(2, 0, 4), (1, 0, 4), (1, 2, 4)] ∧
    ∃ g1 g2 t, build 3 [(0, 1, 4), (1, 2, 4), (0, 2, 4)] = .ok g1 ∧
      build 3 [(2, 0, 4), (1, 0, 4), (1, 2, 4)] = .ok g2 ∧
      g1.PrimMST = .ok t ∧ g2.PrimMST = .ok t :=
  have hr : InRange 3 [(0, 1, 4), (1, 2, 4), (0, 2, 4)] := by
    intro c hc
    simp only [List.mem_cons, List.mem_singleton, List.not_mem_nil, or_false] at hc
    rcases hc with rfl | rfl | rfl <;> decide
  have hnn : NonNeg [(0, 1, 4), (1, 2, 4), (0, 2, 4)] := by
    intro c hc
    simp only [List.mem_cons, List.mem_singleton, List.not_mem_nil, or_false] at hc
    rcases hc with rfl | rfl | rfl <;> decide
  have hs : SameEdges [(0, 1, 4), (1, 2, 4), (0, 2, 4)] [(2, 0, 4), (1, 0, 4), (1, 2, 4)] :=
    ⟨[(1, 0, 4), (1, 2, 4), (2, 0, 4)],
      List.Forall₂.cons (Or.inr rfl) (List.Forall₂.cons (Or.inl rfl)
        (List.Forall₂.cons (Or.inr rfl) List.Forall₂.nil)),
      by decide⟩
  ⟨by decide, hr, hnn, hs,
    PrimMST_same_edges 3 [(0, 1, 4), (1, 2, 4), (0, 2, 4)] [(2, 0, 4), (1, 0, 4), (1, 2, 4)]
      (by decide) hr hnn hs⟩

/-! ## The loop as a sequence of iterations -/

theorem pushNeighboursCount_fst (visited : List Bool) : ∀ (adj : List Edge) (pq : PriorityQueue),
    (pushNeighboursCount visited adj pq).map (fun r => r.1) = pushNeighbours visited adj pq := by
  intro adj
  induction adj with
  | nil => intro pq; rfl
  | cons e rest ih =>
    intro pq
    unfold pushNeighboursCount pushNeighbours
    cases h1 : idx visited e.dest with
    | error err => rfl
    | ok seen =>
      simp only [bind, Except.bind]
      cases seen with
      | true => simpa using ih pq
      | false =>
        simp only [Bool.not_false, if_true]
        cases h2 : heap.Push pq ⟨e.dest, e.weight⟩ with
        | error err => rfl
        | ok pq1 =>
          simp only []
          rw [← ih pq1]
          cases pushNeighboursCount visited rest pq1 with
          | error err => rfl
          | ok r => rfl

theorem pushNeighboursCount_ok {visited : List Bool} {adj : List Edge} {pq pq2 : PriorityQueue}
    (h : pushNeighbours visited adj pq = .ok pq2) :
    ∃ k, pushNeighboursCount visited adj pq = .ok (pq2, k) := by
  have e := pushNeighboursCount_fst visited adj pq
  rw [h] at e
  cases h1 : pushNeighboursCount visited adj pq with
  | error err => rw [h1] at e; cases e
  | ok r =>
    rw [h1] at e
    obtain ⟨q, k⟩ := r
    simp only [Except.map] at e
    cases e
    exact ⟨k, rfl⟩

/-- The loop is the iteration of `primStepLog` while line 83 finds the queue not empty. -/
theorem primLoop_succ (g : Graph) (fuel : Nat) (st : PrimState) :
    primLoop g (fuel + 1) st =
      if PriorityQueue.Len st.pq > 0 then
        (primStepLog g st).bind (fun r => primLoop g fuel r.1)
      else .ok st.totalWeight := by
  rw [primLoop]
  by_cases hl : PriorityQueue.Len st.pq > 0
  · simp only [hl, if_true]
    unfold primStepLog
    cases h1 : heap.Pop st.pq with
    | error err => rfl
    | ok r =>
      obtain ⟨x, pq1⟩ := r
      simp only [bind, Except.bind]
      cases h2 : idx st.visited x.vertex with
      | error err => rfl
      | ok seen =>
        simp only []
        cases seen with
        | true => rfl
        | false =>
          simp only [Bool.false_eq_true, if_false]
          cases h3 : idx g.adjList x.vertex with
          | error err => rfl
          | ok adj =>
            simp only []
            rw [← pushNeighboursCount_fst]
            cases pushNeighboursCount (st.visited.set x.vertex true) adj pq1 with
            | error err => rfl
            | ok r => rfl
  · simp only [hl, if_false]

/-- `PrimMST` is `primInit` followed by the loop. -/
theorem PrimMST_eq (g : Graph) :
    g.PrimMST = (primInit g).bind (fun st => primLoop g (g.entries + 2) st) := by
  unfold Graph.PrimMST primInit
  cases heap.Init [] with
  | error err => rfl
  | ok pq0 =>
    simp only [bind, Except.bind]
    cases heap.Push pq0 ⟨0, 0⟩ with
    | error err => rfl
    | ok pq => rfl

theorem primInit_ok (g : Graph) : primInit g =
    .ok { totalWeight := 0, visited := List.replicate g.vertices false, pq := [⟨0, 0⟩] } := by
  rfl

/-! ## What one iteration does -/

theorem primStepLog_stale (g : Graph) (st : PrimState) {x : Item} {pq1 : PriorityQueue}
    (hpop : heap.Pop st.pq = .ok (x, pq1)) (hseen : idx st.visited x.vertex = .ok true) :
    primStepLog g st =
      .ok ({ st with pq := pq1 }, { item := x, honoured := false, pushes := 0 }) := by
  unfold primStepLog
  simp only [hpop, bind, Except.bind, hseen, if_true]
  rfl

theorem primStepLog_fresh (g : Graph) (st : PrimState) {x : Item} {pq1 pq2 : PriorityQueue}
    {adj : List Edge} {k : Nat} (hpop : heap.Pop st.pq = .ok (x, pq1))
    (hseen : idx st.visited x.vertex = .ok false)
    (hadj : idx g.adjList x.vertex = .ok adj)
    (hpush : pushNeighboursCount (st.visited.set x.vertex true) adj pq1 = .ok (pq2, k)) :
    primStepLog g st =
      .ok ({ totalWeight := wrap64 (st.totalWeight + x.weight),
             visited := st.visited.set x.vertex true, pq := pq2 },
           { item := x, honoured := true, pushes := k }) := by
  unfold primStepLog
  simp only [hpop, bind, Except.bind, hseen, hadj, hpush, Bool.false_eq_true, if_false]
  rfl

/-- An iteration that ends well popped its item and then took one of the two
branches of line 90. -/
theorem primStepLog_cases {g : Graph} {st st1 : PrimState} {log : StepLog}
    (h : primStepLog g st = .ok (st1, log)) :
    ∃ pq1, heap.Pop st.pq = .ok (log.item, pq1) ∧
      ((idx st.visited log.item.vertex = .ok true ∧ log.honoured = false ∧ log.pushes = 0 ∧
          st1 = { st with pq := pq1 }) ∨
       (idx st.visited log.item.vertex = .ok false ∧ log.honoured = true ∧
          ∃ adj pq2, idx g.adjList log.item.vertex = .ok adj ∧
            pushNeighboursCount (st.visited.set log.item.vertex true) adj pq1 =
              .ok (pq2, log.pushes) ∧
            st1 = { totalWeight := wrap64 (st.totalWeight + log.item.weight),
                    visited := st.visited.set log.item.vertex true, pq := pq2 })) := by
  cases h1 : heap.Pop st.pq with
  | error err =>
    unfold primStepLog at h
    rw [h1] at h
    cases h
  | ok r =>
    obtain ⟨x, pq1⟩ := r
    cases h2 : idx st.visited x.vertex with
    | error err =>
      unfold primStepLog at h
      simp only [h1, bind, Except.bind, h2] at h
      cases h
    | ok seen =>
      cases seen with
      | true =>
        rw [primStepLog_stale g st h1 h2] at h
        cases h
        exact ⟨pq1, rfl, Or.inl ⟨h2, rfl, rfl, rfl⟩⟩
      | false =>
        cases h3 : idx g.adjList x.vertex with
        | error err =>
          unfold primStepLog at h
          simp only [h1, bind, Except.bind, h2, h3, Bool.false_eq_true, if_false] at h
          cases h
        | ok adj =>
          cases h4 : pushNeighboursCount (st.visited.set x.vertex true) adj pq1 with
          | error err =>
            unfold primStepLog at h
            simp only [h1, bind, Except.bind, h2, h3, h4, Bool.false_eq_true, if_false] at h
            cases h
          | ok r =>
            obtain ⟨pq2, k⟩ := r
            rw [primStepLog_fresh g st h1 h2 h3 h4] at h
            cases h
            exact ⟨pq1, rfl, Or.inr ⟨h2, rfl, adj, pq2, h3, h4, rfl⟩⟩

/-- The counter of the scan is the growth of the queue, and at most the length of
the slice scanned. -/
theorem pushNeighboursCount_length (visited : List Bool) :
    ∀ (adj : List Edge) (pq pq2 : PriorityQueue) (k : Nat), HeapInv pq →
    pushNeighboursCount visited adj pq = .ok (pq2, k) →
    pq2.length = pq.length + k ∧ k ≤ adj.length := by
  intro adj
  induction adj with
  | nil =>
    intro pq pq2 k _ h
    unfold pushNeighboursCount at h
    cases h
    exact ⟨rfl, Nat.le_refl _⟩
  | cons e rest ih =>
    intro pq pq2 k hv h
    unfold pushNeighboursCount at h
    cases h1 : idx visited e.dest with
    | error err => rw [h1] at h; cases h
    | ok seen =>
      rw [h1] at h
      simp only [bind, Except.bind] at h
      cases seen with
      | true =>
        simp only [Bool.not_true, Bool.false_eq_true, if_false] at h
        obtain ⟨a, b⟩ := ih pq pq2 k hv h
        exact ⟨a, by simp only [List.length_cons]; omega⟩
      | false =>
        simp only [Bool.not_false, if_true] at h
        obtain ⟨pq0, e0, p0, v0⟩ := heap_Push_spec pq ⟨e.dest, e.weight⟩ hv
        rw [e0] at h
        simp only [] at h
        cases h2 : pushNeighboursCount visited rest pq0 with
        | error err => rw [h2] at h; cases h
        | ok r =>
          obtain ⟨q, j⟩ := r
          rw [h2] at h
          simp only [pure, Except.pure] at h
          cases h
          obtain ⟨a, b⟩ := ih pq0 pq2 j v0 h2
          have := p0.length_eq
          simp only [List.length_cons] at this ⊢
          omega

/-- Marks are kept by every iteration, and the slice `visited` keeps its length. -/
theorem primStepLog_marks {g : Graph} {st st1 : PrimState} {log : StepLog}
    (h : primStepLog g st = .ok (st1, log)) :
    st1.visited.length = st.visited.length ∧
      (∀ x, Marked st.visited x → Marked st1.visited x) ∧
      (log.honoured = true → ¬ Marked st.visited log.item.vertex ∧
        Marked st1.visited log.item.vertex) := by
  obtain ⟨pq1, _, hc⟩ := primStepLog_cases h
  rcases hc with ⟨_, hh, _, e⟩ | ⟨hs, _, adj, pq2, _, _, e⟩
  · subst e
    refine ⟨rfl, fun x hx => hx, ?_⟩
    intro hh2
    rw [hh] at hh2
    cases hh2
  · subst e
    have hf : st.visited[log.item.vertex]? = some false := idx_ok_iff.mp hs
    have hlt : log.item.vertex < st.visited.length := by
      by_contra hn
      rw [List.getElem?_eq_none (by omega)] at hf
      cases hf
    have MS := fun y => Marked_set st.visited log.item.vertex y hlt
    refine ⟨List.length_set _ _ _, fun x hx => (MS x).mpr (Or.inl hx), fun _ => ⟨?_, ?_⟩⟩
    · exact (not_Marked_iff hlt).mpr hf
    · exact (MS _).mpr (Or.inr rfl)

/-! ## The invariant along the iterations -/

/-- From a state of the invariant with a queue that is not empty, the iteration
ends well in a state of the invariant; it pops a lightest item of the queue. -/
theorem PrimInv.step {n : Nat} {g : Graph} {calls : List Call} {st : PrimState}
    {T : List Call} (hb : Built n calls g) (inv : PrimInv g calls st T) (hne : st.pq ≠ []) :
    ∃ st1 log T1, primStepLog g st = .ok (st1, log) ∧ PrimInv g calls st1 T1 ∧
      log.item ∈ st.pq ∧ (∀ y ∈ st.pq, log.item.weight ≤ y.weight) ∧
      pending st1.visited g.adjList + log.pushes ≤ pending st.visited g.adjList ∧
      st1.pq.length + 1 = st.pq.length + log.pushes ∧
      st1.totalWeight = wrap64 (st.totalWeight + (weightSum T1 - weightSum T)) ∧
      (log.honoured = true → ∃ c u, c ∈ calls ∧ Marked st.visited u ∧
        Joins c u log.item.vertex ∧ c.2.2 = log.item.weight) := by
  obtain ⟨x, pq1, hpop, hperm, hmin, hv1⟩ := heap_Pop_spec st.pq inv.heap hne
  have hx : x ∈ st.pq := hperm.mem_iff.mpr (List.mem_cons_self _ _)
  obtain ⟨u, hu, he⟩ := inv.sound x hx
  have hxn : x.vertex < n := (hb.adj_lt he).2
  have hxv : x.vertex < st.visited.length := by
    rw [inv.len, hb.len]
    exact hxn
  have hlen : st.pq.length = pq1.length + 1 := by
    rw [hperm.length_eq, List.length_cons]
  by_cases hm : Marked st.visited x.vertex
  · have hseen : idx st.visited x.vertex = .ok true := idx_ok_iff.mpr hm
    refine ⟨_, _, T, primStepLog_stale g st hpop hseen, inv.stale hperm hv1 hm, hx, hmin,
      Nat.le_refl _, ?_, ?_, ?_⟩
    · simp only []
      omega
    · show st.totalWeight = wrap64 (st.totalWeight + (weightSum T - weightSum T))
      rw [Int.sub_self, Int.add_zero, inv.total]
    · intro hh
      cases hh
  · have hf : st.visited[x.vertex]? = some false := (not_Marked_iff hxv).mp hm
    have hseen : idx st.visited x.vertex = .ok false := idx_ok_iff.mpr hf
    have hadj := hb.idx_adj hxn
    obtain ⟨pq2, hpush, hv2, hmem, _⟩ := scan_spec hb (st.visited.set x.vertex true)
      (by rw [List.length_set, inv.len, hb.len]) x.vertex pq1 hv1
    obtain ⟨k, hk⟩ := pushNeighboursCount_ok hpush
    obtain ⟨hl2, hk2⟩ := pushNeighboursCount_length _ _ _ _ _ hv1 hk
    obtain ⟨c, u1, hc, hu1, hj, hw, inv1⟩ := inv.fresh hb hperm hm hv2 hmem
    have hpend := pending_set st.visited g.adjList x.vertex (g.adj x.vertex) hf
      (idx_ok_iff.mp hadj)
    refine ⟨_, _, c :: T, primStepLog_fresh g st hpop hseen hadj hk, inv1, hx, hmin, ?_, ?_, ?_,
      ?_⟩
    · simp only []
      omega
    · simp only []
      omega
    · show wrap64 (st.totalWeight + x.weight) =
        wrap64 (st.totalWeight + (weightSum (c :: T) - weightSum T))
      rw [weightSum_cons, hw]
      have : x.weight + weightSum T - weightSum T = x.weight := by omega
      rw [this]
    · intro _
      exact ⟨c, u1, hc, hu1, hj, hw⟩

/-- The first iteration: it pops the seed item, marks vertex `0`, scans its slice
and so reaches the invariant. -/
theorem init_step {n : Nat} {g : Graph} {calls : List Call} (hb : Built n calls g)
    (hn : 0 < n) :
    ∃ st0 st1 k, primInit g = .ok st0 ∧ st0.pq = [⟨0, 0⟩] ∧
      st0.visited = List.replicate g.vertices false ∧ st0.totalWeight = 0 ∧
      primStepLog g st0 = .ok (st1, { item := ⟨0, 0⟩, honoured := true, pushes := k }) ∧
      PrimInv g calls st1 [] ∧
      pending st1.visited g.adjList + k ≤ g.entries ∧ st1.pq.length = k ∧
      st1.totalWeight = 0 := by
  have hpop : heap.Pop [(⟨0, 0⟩ : Item)] = .ok (⟨0, 0⟩, []) := by rfl
  have hlen0 : (List.replicate g.vertices false).length = n := by
    rw [List.length_replicate, hb.vertices]
  have h0 : 0 < (List.replicate g.vertices false).length := by omega
  have hf : (List.replicate g.vertices false)[0]? = some false := by
    rw [List.getElem?_replicate]
    simp [hb.vertices, hn]
  have hseen : idx (List.replicate g.vertices false) 0 = .ok false := idx_ok_iff.mpr hf
  have hadj := hb.idx_adj hn
  obtain ⟨pq2, hpush, hv2, hmem, _⟩ := scan_spec hb ((List.replicate g.vertices false).set 0 true)
    (by rw [List.length_set, hlen0]) 0 [] HeapInv_nil
  obtain ⟨k, hk⟩ := pushNeighboursCount_ok hpush
  obtain ⟨hl2, hk2⟩ := pushNeighboursCount_length _ _ _ _ _ HeapInv_nil hk
  have MS := fun y => Marked_set (List.replicate g.vertices false) 0 y h0
  have hM : ∀ y, Marked ((List.replicate g.vertices false).set 0 true) y ↔ y = 0 := by
    intro y
    rw [MS y]
    constructor
    · rintro (h | h)
      · exact absurd h (not_Marked_replicate _ _)
      · exact h
    · exact Or.inr
  have inv : PrimInv g calls
      { totalWeight := wrap64 (0 + 0),
        visited := (List.replicate g.vertices false).set 0 true, pq := pq2 } [] := by
    refine ⟨?_, (hM 0).mpr rfl, hv2, wrap64_idem _, ?_, ?_, List.nil_subperm, ?_, ?_, ?_⟩
    · show ((List.replicate g.vertices false).set 0 true).length = g.adjList.length
      rw [List.length_set, hlen0, hb.len]
    · intro it hit
      rcases (hmem it).mp hit with h | ⟨e, he, _, rfl⟩
      · simp at h
      · exact ⟨0, (hM 0).mpr rfl, he⟩
    · intro u v w hu he hnv
      show (⟨v, w⟩ : Item) ∈ pq2
      rw [(hM u).mp hu] at he
      exact (hmem _).mpr (Or.inr ⟨⟨v, w⟩, he, hnv, rfl⟩)
    · intro c hc
      simp at hc
    · intro y hy
      exact Reach.base ((hM y).mp hy)
    · refine ⟨[0], by simp, ?_, rfl⟩
      intro y
      show y ∈ [0] ↔ Marked ((List.replicate g.vertices false).set 0 true) y
      rw [hM y]
      simp
  have hpend := pending_set (List.replicate g.vertices false) g.adjList 0 (g.adj 0) hf
    (idx_ok_iff.mp hadj)
  rw [hb.vertices, pending_replicate n g.adjList hb.len] at hpend
  refine ⟨_, _, k, primInit_ok g, rfl, rfl, rfl,
    primStepLog_fresh g _ hpop hseen hadj hk, inv, ?_, ?_, ?_⟩
  · simp only [hb.vertices]
    unfold Graph.entries
    omega
  · simp only [List.length_nil, Nat.zero_add] at hl2
    exact hl2
  · show wrap64 (0 + 0) = 0
    decide

/-- Along a run from a state of the invariant: the invariant is kept, the pushes
are paid for by pending adjacency entries, and every item pushed or found in the
queue is popped or still in the queue. -/
theorem PrimInv.run {n : Nat} {g : Graph} {calls : List Call} (hb : Built n calls g)
    {st st2 : PrimState} {logs : List StepLog} (h : Steps g st logs st2) :
    ∀ T, PrimInv g calls st T → ∃ T2, PrimInv g calls st2 T2 ∧
      pending st2.visited g.adjList + pushed logs ≤ pending st.visited g.adjList ∧
      logs.length + st2.pq.length = st.pq.length + pushed logs ∧
      st2.totalWeight = wrap64 (st.totalWeight + (weightSum T2 - weightSum T)) := by
  induction h with
  | done st =>
    intro T inv
    refine ⟨T, inv, by simp [pushed], by simp [pushed], ?_⟩
    rw [Int.sub_self, Int.add_zero, inv.total]
  | @next st st1 st2 log logs hl hs _ ih =>
    intro T inv
    have hne : st.pq ≠ [] := List.length_pos.mp hl
    obtain ⟨st1a, loga, T1, e, inv1, _, _, hp, hq, ht, _⟩ := inv.step hb hne
    rw [hs] at e
    cases e
    obtain ⟨T2, inv2, hp2, hq2, ht2⟩ := ih T1 inv1
    refine ⟨T2, inv2, ?_, ?_, ?_⟩
    · simp only [pushed, List.map_cons, List.sum_cons] at hp2 ⊢
      omega
    · simp only [pushed, List.map_cons, List.sum_cons, List.length_cons] at hq2 ⊢
      omega
    · rw [ht2, ht, wrap64_add_left]
      congr 1
      omega

/-- From a state of the invariant the loop comes to an end: some run leads to a
state with an empty queue, and `primLoop` returns the total of that state. -/
theorem PrimInv.finish {n : Nat} {g : Graph} {calls : List Call} (hb : Built n calls g) :
    ∀ (fuel : Nat) (st : PrimState) (T : List Call), PrimInv g calls st T →
    pending st.visited g.adjList + st.pq.length < fuel →
    ∃ logs fin, Steps g st logs fin ∧ fin.pq = [] ∧
      primLoop g fuel st = .ok fin.totalWeight := by
  intro fuel
  induction fuel with
  | zero => intro st T _ h; omega
  | succ fuel ih =>
    intro st T inv hfuel
    by_cases hq : st.pq = []
    · exact ⟨[], st, Steps.done st, hq, primLoop_empty g fuel st hq⟩
    · obtain ⟨st1, log, T1, e, inv1, _, _, hp, hl, _, _⟩ := inv.step hb hq
      have hpos : PriorityQueue.Len st.pq > 0 := List.length_pos.mpr hq
      obtain ⟨logs, fin, hrun, hfin, hres⟩ := ih st1 T1 inv1 (by omega)
      refine ⟨log :: logs, fin, Steps.next hpos e hrun, hfin, ?_⟩
      rw [primLoop_succ]
      simp only [hpos, if_true, e, Except.bind]
      exact hres

/-- A run from the state in which the loop is entered is empty, or starts with
the iteration of the seed item and goes on from a state of the invariant. -/
theorem Steps_init_cases {n : Nat} {g : Graph} {calls : List Call} (hb : Built n calls g)
    (hn : 0 < n) {st0 : PrimState} (h0 : primInit g = .ok st0) {logs : List StepLog}
    {st : PrimState} (h : Steps g st0 logs st) :
    (logs = [] ∧ st = st0) ∨
    ∃ st1 k logs1, logs = { item := ⟨0, 0⟩, honoured := true, pushes := k } :: logs1 ∧
      primStepLog g st0 = .ok (st1, { item := ⟨0, 0⟩, honoured := true, pushes := k }) ∧
      PrimInv g calls st1 [] ∧ pending st1.visited g.adjList + k ≤ g.entries ∧
      st1.pq.length = k ∧ st1.totalWeight = 0 ∧ Steps g st1 logs1 st := by
  cases h with
  | done => exact Or.inl ⟨rfl, rfl⟩
  | @next _ st1 _ log logs1 hl hs hrest =>
    obtain ⟨st0a, st1a, k, e0, _, _, _, e, inv, hp, hq, ht⟩ := init_step hb hn
    rw [h0] at e0
    cases e0
    rw [hs] at e
    cases e
    exact Or.inr ⟨st1, k, logs1, rfl, hs, inv, hp, hq, ht, hrest⟩

/-- More fuel does not change a result. -/
theorem primLoop_fuel (g : Graph) : ∀ (fuel : Nat) (st : PrimState) (r : Int),
    primLoop g fuel st = .ok r → ∀ k, primLoop g (fuel + k) st = .ok r := by
  intro fuel
  induction fuel with
  | zero =>
    intro st r h
    unfold primLoop at h
    cases h
  | succ fuel ih =>
    intro st r h k
    have e : fuel + 1 + k = (fuel + k) + 1 := by omega
    rw [e, primLoop_succ]
    rw [primLoop_succ] at h
    by_cases hl : PriorityQueue.Len st.pq > 0
    · simp only [hl, if_true] at h ⊢
      cases h1 : primStepLog g st with
      | error err => rw [h1] at h; cases h
      | ok p =>
        rw [h1] at h
        simp only [Except.bind] at h ⊢
        exact ih _ _ h k
    · simp only [hl, if_false] at h ⊢
      exact h

/-! ## The number of adjacency entries -/

theorem sum_length_set {α : Type} : ∀ (l : List (List α)) (i : Nat) (a : List α) (x : α),
    l[i]? = some a →
    ((l.set i (a ++ [x])).map List.length).sum = (l.map List.length).sum + 1 := by
  intro l
  induction l with
  | nil => intro i a x h; simp at h
  | cons b bs ih =>
    intro i a x h
    cases i with
    | zero =>
      simp only [List.getElem?_cons_zero, Option.some.injEq] at h
      subst h
      simp
      omega
    | succ i =>
      simp only [List.getElem?_cons_succ] at h
      have := ih i a x h
      simp only [List.set_cons_succ, List.map_cons, List.sum_cons]
      omega

/-- Each call of `AddEdge` that ends well adds two adjacency entries. -/
theorem AddEdge_entries {g g1 : Graph} {u v : Nat} {w : Int}
    (h : g.AddEdge u v w = .ok g1) : g1.entries = g.entries + 2 := by
  unfold Graph.AddEdge at h
  cases h1 : idx g.adjList u with
  | error err => rw [h1] at h; cases h
  | ok l1 =>
    rw [h1] at h
    simp only [bind, Except.bind] at h
    cases h2 : idx (g.adjList.set u (l1 ++ [⟨v, w⟩])) v with
    | error err => rw [h2] at h; cases h
    | ok l2 =>
      rw [h2] at h
      simp only [pure, Except.pure] at h
      cases h
      unfold Graph.entries
      simp only []
      rw [sum_length_set _ _ _ _ (idx_ok_iff.mp h2), sum_length_set _ _ _ _ (idx_ok_iff.mp h1)]

theorem foldlM_entries : ∀ (calls : List Call) (g0 g : Graph),
    calls.foldlM (fun g c => Graph.AddEdge g c.1 c.2.1 c.2.2) g0 = .ok g →
    g.entries = g0.entries + 2 * calls.length := by
  intro calls
  induction calls with
  | nil =>
    intro g0 g h
    simp only [List.foldlM, pure, Except.pure] at h
    cases h
    simp
  | cons c rest ih =>
    intro g0 g h
    rw [List.foldlM_cons] at h
    cases h1 : Graph.AddEdge g0 c.1 c.2.1 c.2.2 with
    | error err =>
      rw [h1] at h
      cases h
    | ok g1 =>
      rw [h1] at h
      have := ih g1 g h
      rw [this, AddEdge_entries h1, List.length_cons]
      omega

theorem NewGraph_entries (n : Nat) : (NewGraph n).entries = 0 := by
  unfold Graph.entries NewGraph
  induction n with
  | zero => rfl
  | succ n ih =>
    simp only [List.replicate_succ, List.map_cons, List.sum_cons, List.length_nil, Nat.zero_add]
    exact ih

/-- A graph built by `E` calls of `AddEdge` has `2 * E` adjacency entries. -/
theorem build_entries {n : Nat} {calls : List Call} {g : Graph}
    (h : build n calls = .ok g) : g.entries = 2 * calls.length := by
  have := foldlM_entries calls (NewGraph n) g h
  rw [this, NewGraph_entries]
  omega

theorem Built_of_build (n : Nat) (calls : List Call) (hr : InRange n calls) :
    ∃ g, build n calls = .ok g ∧ Built n calls g := by
  obtain ⟨g, e, v, l, a⟩ := build_spec n calls hr
  exact ⟨g, e, ⟨v, l, a, hr⟩⟩

/-! ## Runs of the whole loop -/

/-- On a built graph with at least one vertex the loop runs to an empty queue,
and `PrimMST` returns the total of the last state. -/
theorem PrimMST_run {n : Nat} {g : Graph} {calls : List Call} (hb : Built n calls g)
    (hn : 0 < n) :
    ∃ st0 logs fin, primInit g = .ok st0 ∧ Steps g st0 logs fin ∧ fin.pq = [] ∧
      g.PrimMST = .ok fin.totalWeight := by
  obtain ⟨st0, st1, k, e0, hq0, _, _, hs, inv, hp, hq, _⟩ := init_step hb hn
  obtain ⟨logs, fin, hrun, hfin, hres⟩ := PrimInv.finish hb (g.entries + 1) st1 [] inv (by omega)
  have hpos : PriorityQueue.Len st0.pq > 0 := by
    rw [hq0]
    exact Nat.zero_lt_one
  refine ⟨st0, _ :: logs, fin, e0, Steps.next hpos hs hrun, hfin, ?_⟩
  rw [PrimMST_eq, e0]
  simp only [Except.bind]
  rw [primLoop_succ]
  simp only [hpos, if_true, hs, Except.bind]
  exact hres

/-- Along any run marks are kept, and the vertices scanned are pairwise distinct:
each was unmarked when the run began and is marked when it ends. -/
theorem Steps_marks {g : Graph} {st st2 : PrimState} {logs : List StepLog}
    (h : Steps g st logs st2) :
    st2.visited.length = st.visited.length ∧
      (∀ x, Marked st.visited x → Marked st2.visited x) ∧
      (scanned logs).Nodup ∧
      (∀ v ∈ scanned logs, ¬ Marked st.visited v ∧ Marked st2.visited v) := by
  induction h with
  | done st => exact ⟨rfl, fun _ hx => hx, List.nodup_nil, fun v hv => by simp [scanned] at hv⟩
  | @next st st1 st2 log logs hl hs _ ih =>
    obtain ⟨l1, m1, f1⟩ := primStepLog_marks hs
    obtain ⟨l2, m2, nd, f2⟩ := ih
    refine ⟨l2.trans l1, fun x hx => m2 x (m1 x hx), ?_, ?_⟩
    · cases hh : log.honoured with
      | false =>
        have : scanned (log :: logs) = scanned logs := by
          simp [scanned, List.filter_cons, hh]
        rw [this]
        exact nd
      | true =>
        have : scanned (log :: logs) = log.item.vertex :: scanned logs := by
          simp [scanned, List.filter_cons, hh]
        rw [this]
        refine List.nodup_cons.mpr ⟨?_, nd⟩
        intro hmem
        exact (f2 _ hmem).1 (f1 hh).2
    · intro v hv
      cases hh : log.honoured with
      | false =>
        have : scanned (log :: logs) = scanned logs := by
          simp [scanned, List.filter_cons, hh]
        rw [this] at hv
        exact ⟨fun hm => (f2 v hv).1 (m1 v hm), (f2 v hv).2⟩
      | true =>
        have : scanned (log :: logs) = log.item.vertex :: scanned logs := by
          simp [scanned, List.filter_cons, hh]
        rw [this] at hv
        rcases List.mem_cons.mp hv with e | hv1
        · rw [e]
          exact ⟨(f1 hh).1, m2 _ (f1 hh).2⟩
        · exact ⟨fun hm => (f2 v hv1).1 (m1 v hm), (f2 v hv1).2⟩

theorem nodup_length_le {l : List Nat} {n : Nat} (nd : l.Nodup) (h : ∀ v ∈ l, v < n) :
    l.length ≤ n := by
  have hs : l ⊆ List.range n := fun v hv => List.mem_range.mpr (h v hv)
  have := (List.subperm_of_subset nd hs).length_le
  rwa [List.length_range] at this


/-! ## The running total -/

theorem weightSum_le_of_sublist {l calls : List Call} (hnn : NonNeg calls)
    (h : l.Sublist calls) : weightSum l ≤ weightSum calls := by
  induction h with
  | slnil => exact Int.le_refl _
  | @cons l1 l2 a _ ih =>
    have h1 := ih (fun c hc => hnn c (List.mem_cons_of_mem _ hc))
    have h2 := hnn a (List.mem_cons_self _ _)
    rw [weightSum_cons]
    omega
  | @cons₂ l1 l2 a _ ih =>
    have h1 := ih (fun c hc => hnn c (List.mem_cons_of_mem _ hc))
    rw [weightSum_cons, weightSum_cons]
    omega

theorem weightSum_le_of_subperm {T calls : List Call} (hnn : NonNeg calls)
    (h : T.Subperm calls) : weightSum T ≤ weightSum calls := by
  obtain ⟨l, hp, hs⟩ := h
  rw [← weightSum_perm hp]
  exact weightSum_le_of_sublist hnn hs

/-- At every loop head the total is, reduced to 64 bits, the weight of a
selection of pairwise distinct calls. -/
theorem run_total {n : Nat} {g : Graph} {calls : List Call} (hb : Built n calls g)
    (hn : 0 < n) {st0 : PrimState} (h0 : primInit g = .ok st0) {logs : List StepLog}
    {st : PrimState} (h : Steps g st0 logs st) :
    ∃ T, T.Subperm calls ∧ st.totalWeight = wrap64 (weightSum T) := by
  rcases Steps_init_cases hb hn h0 h with ⟨_, e⟩ | ⟨st1, k, logs1, _, _, inv, _, _, ht, hrest⟩
  · refine ⟨[], List.nil_subperm, ?_⟩
    rw [e]
    rw [primInit_ok] at h0
    cases h0
    show (0 : Int) = wrap64 (weightSum [])
    decide
  · obtain ⟨T2, inv2, _, _, ht2⟩ := PrimInv.run hb hrest [] inv
    refine ⟨T2, inv2.sub, ?_⟩
    rw [ht2, ht]
    congr 1
    simp [weightSum]

/-! ## Entries that the guard of line 102 skips -/

theorem pushNeighbours_append (visited : List Bool) : ∀ (a b : List Edge) (pq : PriorityQueue),
    pushNeighbours visited (a ++ b) pq =
      (pushNeighbours visited a pq).bind (fun pq1 => pushNeighbours visited b pq1) := by
  intro a
  induction a with
  | nil => intro b pq; rfl
  | cons e rest ih =>
    intro b pq
    have e1 : ∀ (l : List Edge), pushNeighbours visited (e :: l) pq =
        (idx visited e.dest).bind (fun seen =>
          if !seen then (heap.Push pq ⟨e.dest, e.weight⟩).bind
            (fun pq1 => pushNeighbours visited l pq1)
          else pushNeighbours visited l pq) := fun _ => rfl
    rw [List.cons_append, e1, e1]
    cases h1 : idx visited e.dest with
    | error err => rfl
    | ok seen =>
      simp only [Except.bind]
      cases seen with
      | true =>
        simp only [Bool.not_true, Bool.false_eq_true, if_false]
        exact ih b pq
      | false =>
        simp only [Bool.not_false, if_true]
        cases h2 : heap.Push pq ⟨e.dest, e.weight⟩ with
        | error err => rfl
        | ok pq1 =>
          simp only [Except.bind]
          exact ih b pq1

/-- Entries that lead to a marked vertex push nothing. -/
theorem pushNeighbours_marked (visited : List Bool) : ∀ (b : List Edge) (pq : PriorityQueue),
    (∀ e ∈ b, Marked visited e.dest) → pushNeighbours visited b pq = .ok pq := by
  intro b
  induction b with
  | nil => intro pq _; rfl
  | cons e rest ih =>
    intro pq h
    unfold pushNeighbours
    rw [idx_ok_iff.mpr (h e (List.mem_cons_self _ _))]
    simp only [bind, Except.bind, Bool.not_true, Bool.false_eq_true, if_false]
    exact ih pq (fun d hd => h d (List.mem_cons_of_mem _ hd))

theorem idx_adjList (g : Graph) {v : Nat} (hv : v < g.adjList.length) :
    idx g.adjList v = .ok (g.adj v) := by
  rw [idx_eq_ok hv]
  unfold Graph.adj
  simp [List.getD_eq_getElem?_getD, List.getElem?_eq_getElem hv]

/-- The loop takes the same course on a graph and on the graph with the two
entries of a self-loop at `u` added: when the slice of `u` is scanned, `u` is
marked already. -/
theorem primLoop_self_loop {g g1 : Graph} {u : Nat} {w : Int}
    (hl : g1.adjList.length = g.adjList.length)
    (ha : ∀ k, g1.adj k = g.adj k ++ (if k = u then [⟨u, w⟩] else []) ++
      (if k = u then [⟨u, w⟩] else [])) :
    ∀ (fuel : Nat) (st : PrimState), u < st.visited.length →
      primLoop g1 fuel st = primLoop g fuel st := by
  intro fuel
  induction fuel with
  | zero => intro st _; rfl
  | succ fuel ih =>
    intro st hu
    by_cases hq : st.pq = []
    · rw [primLoop_empty g1 fuel st hq, primLoop_empty g fuel st hq]
    · have hpos : PriorityQueue.Len st.pq > 0 := List.length_pos.mpr hq
      cases hpop : heap.Pop st.pq with
      | error err =>
        rw [primLoop, primLoop]
        simp only [hpos, if_true, hpop, bind, Except.bind]
      | ok r =>
        obtain ⟨x, pq1⟩ := r
        cases hseen : idx st.visited x.vertex with
        | error err =>
          rw [primLoop, primLoop]
          simp only [hpos, if_true, hpop, bind, Except.bind, hseen]
        | ok seen =>
          cases seen with
          | true =>
            rw [primLoop_stale g1 fuel st hq hpop hseen, primLoop_stale g fuel st hq hpop hseen]
            exact ih _ hu
          | false =>
            have hu1 : u < (st.visited.set x.vertex true).length := by
              rw [List.length_set]
              exact hu
            by_cases hx : x.vertex < g.adjList.length
            · have hadj := idx_adjList g hx
              have hadj1 := idx_adjList g1 (hl ▸ hx)
              have hsame : pushNeighbours (st.visited.set x.vertex true) (g1.adj x.vertex) pq1 =
                  pushNeighbours (st.visited.set x.vertex true) (g.adj x.vertex) pq1 := by
                rw [ha x.vertex]
                by_cases e : x.vertex = u
                · simp only [e, if_true]
                  rw [List.append_assoc, pushNeighbours_append]
                  have hm : ∀ d ∈ [(⟨u, w⟩ : Edge)] ++ [⟨u, w⟩],
                      Marked (st.visited.set u true) d.dest := by
                    intro d hd
                    have : d = ⟨u, w⟩ := by simpa using hd
                    rw [this]
                    exact (Marked_set st.visited u u hu).mpr (Or.inr rfl)
                  cases h5 : pushNeighbours (st.visited.set u true) (g.adj u) pq1 with
                  | error err => rfl
                  | ok pq2 =>
                    simp only [Except.bind]
                    exact pushNeighbours_marked _ _ pq2 hm
                · simp [e]
              cases hpush : pushNeighbours (st.visited.set x.vertex true) (g.adj x.vertex) pq1 with
              | error err =>
                rw [primLoop, primLoop]
                simp only [hpos, if_true, hpop, bind, Except.bind, hseen, hadj, hadj1, hsame,
                  hpush, Bool.false_eq_true, if_false]
              | ok pq2 =>
                rw [primLoop_fresh g1 fuel st hq hpop hseen hadj1 (hsame.trans hpush),
                  primLoop_fresh g fuel st hq hpop hseen hadj hpush]
                exact ih _ hu1
            · have e0 : idx g.adjList x.vertex = .error .index :=
                idx_eq_error (by omega)
              have e1 : idx g1.adjList x.vertex = .error .index :=
                idx_eq_error (by omega)
              rw [primLoop, primLoop]
              simp only [hpos, if_true, hpop, bind, Except.bind, hseen, e0, e1,
                Bool.false_eq_true, if_false]

/-! ## Small graphs, the empty graph, the method `Pop`, and the size of the total -/

/-- C11: on the graph `NewGraph(1)` with no edge added, `PrimMST` returns `0`. -/
theorem PrimMST_single_vertex :
    build 1 [] = .ok (NewGraph 1) ∧ (NewGraph 1).PrimMST = .ok 0 := by
  constructor <;> rfl

theorem heap_Push_nil (x : Item) : heap.Push [] x = .ok [x] := by
  obtain ⟨h1, e, p, _⟩ := heap_Push_spec [] x HeapInv_nil
  rw [e, List.perm_singleton.mp p]

/-- The run of `PrimMST` on the graph of two vertices joined by one edge. -/
theorem PrimMST_two_vertices (w : Int) :
    Graph.PrimMST ⟨2, [[⟨1, w⟩], [⟨0, w⟩]]⟩ = .ok (wrap64 (wrap64 (0 + 0) + w)) := by
  have hpush : pushNeighbours ([false, false].set 0 true) [⟨1, w⟩] [] = .ok [⟨1, w⟩] := by
    have e : pushNeighbours ([false, false].set 0 true) [⟨1, w⟩] [] =
        (heap.Push [] ⟨1, w⟩).bind (fun pq1 => pushNeighbours [true, false] [] pq1) := rfl
    rw [e, heap_Push_nil]
    rfl
  have hstep := @primLoop_fresh ⟨2, [[⟨1, w⟩], [⟨0, w⟩]]⟩ 3
    { totalWeight := 0, visited := [false, false], pq := [⟨0, 0⟩] }
    ⟨0, 0⟩ [] [⟨1, w⟩] [⟨1, w⟩] (by simp) (by rfl) (by rfl) (by rfl) hpush
  rw [PrimMST_eq, primInit_ok]
  exact hstep.trans (by rfl)

/-- C12: for every weight `w` with `0 ≤ w` (and `w < 2^63`, as every Go `int`), the
graph built by `NewGraph(2)` and the single call `AddEdge(0, 1, w)`, and likewise the
one built with `AddEdge(1, 0, w)`, has the `PrimMST` result `w`. -/
theorem PrimMST_single_edge (w : Int) (h0 : 0 ≤ w) (h1 : w < 9223372036854775808) :
    (∃ g, build 2 [(0, 1, w)] = .ok g ∧ g.PrimMST = .ok w) ∧
    (∃ g, build 2 [(1, 0, w)] = .ok g ∧ g.PrimMST = .ok w) := by
  have hw : wrap64 (wrap64 (0 + 0) + w) = w := by
    have : wrap64 (0 + 0) = 0 := by decide
    rw [this, Int.zero_add]
    exact wrap64_of_range (by omega) h1
  constructor
  · refine ⟨⟨2, [[⟨1, w⟩], [⟨0, w⟩]]⟩, rfl, ?_⟩
    rw [PrimMST_two_vertices, hw]
  · refine ⟨⟨2, [[⟨1, w⟩], [⟨0, w⟩]]⟩, rfl, ?_⟩
    rw [PrimMST_two_vertices, hw]

theorem PrimMST_single_edge_witness :
    (0 : Int) ≤ 7 ∧ (7 : Int) < 9223372036854775808 ∧
    (∃ g, build 2 [(0, 1, 7)] = .ok g ∧ g.PrimMST = .ok 7) ∧
    (∃ g, build 2 [(1, 0, 7)] = .ok g ∧ g.PrimMST = .ok 7) :=
  ⟨by decide, by decide, PrimMST_single_edge 7 (by decide) (by decide)⟩

/-- C14: for `n ≥ 0` and calls of `AddEdge` with end points in `[0, n)` the graph is
built, and `PrimMST` returns a total (no index out of range, no pop from an empty
queue) exactly when `n ≥ 1`; for `n = 0` the first iteration pops the seed item and
fails when it reads `visited[0]`, and so does `PrimMST`. -/
theorem PrimMST_completes_iff (n : Nat) (calls : List Call) (hr : InRange n calls) :
    ∃ g, build n calls = .ok g ∧ ((∃ t, g.PrimMST = .ok t) ↔ 1 ≤ n) ∧
      (n = 0 → ∃ st0, primInit g = .ok st0 ∧
        heap.Pop st0.pq = .ok (⟨0, 0⟩, []) ∧ idx st0.visited 0 = .error .index ∧
        primStepLog g st0 = .error .index ∧ g.PrimMST = .error .index) := by
  obtain ⟨g, e, hb⟩ := Built_of_build n calls hr
  have hzero : n = 0 → g = NewGraph 0 := by
    intro hn
    obtain ⟨vertices, adjList⟩ := g
    have h1 : vertices = 0 := by rw [← hn]; exact hb.vertices
    have h2 : adjList = [] := List.length_eq_zero.mp (by rw [← hn]; exact hb.len)
    subst h1
    subst h2
    rfl
  refine ⟨g, e, ⟨?_, ?_⟩, ?_⟩
  · rintro ⟨t, ht⟩
    by_contra hn
    have hg := hzero (by omega)
    subst hg
    have : (NewGraph 0).PrimMST = .error .index := by rfl
    rw [this] at ht
    cases ht
  · intro hn
    obtain ⟨m, hm, _⟩ := PrimMST_spec hb hn
    exact ⟨_, hm⟩
  · intro hn
    have hg := hzero hn
    subst hg
    exact ⟨_, rfl, by rfl, by rfl, by rfl, by rfl⟩

theorem PrimMST_completes_iff_witness :
    InRange 0 [] ∧
    ∃ g, build 0 [] = .ok g ∧ ((∃ t, g.PrimMST = .ok t) ↔ 1 ≤ 0) ∧
      (0 = 0 → ∃ st0, primInit g = .ok st0 ∧
        heap.Pop st0.pq = .ok (⟨0, 0⟩, []) ∧ idx st0.visited 0 = .error .index ∧
        primStepLog g st0 = .error .index ∧ g.PrimMST = .error .index) :=
  have hr : InRange 0 [] := by
    intro c hc
    cases hc
  ⟨hr, PrimMST_completes_iff 0 [] hr⟩

/-- C19: the method `Pop` of lines 60-66 removes and returns the last item of the
slice, whatever its weight.  On the queue that `heap.Push` builds from the items
`(0, 1)` and `(1, 5)` it returns `(1, 5)`, although `(0, 1)` is lighter. -/
theorem method_Pop_returns_last :
    (∀ (pq : PriorityQueue) (hne : pq ≠ []),
      PriorityQueue.Pop pq = .ok (pq.getLast hne, pq.dropLast)) ∧
    ∃ pq x rest y, HeapReachable pq ∧ PriorityQueue.Pop pq = .ok (x, rest) ∧
      y ∈ pq ∧ y.weight < x.weight := by
  refine ⟨fun pq hne => PriorityQueue_Pop_ok hne, ?_⟩
  refine ⟨[⟨0, 1⟩, ⟨1, 5⟩], ⟨1, 5⟩, [⟨0, 1⟩], ⟨0, 1⟩, ?_, by rfl, by simp, by decide⟩
  have h1 : HeapReachable [(⟨0, 1⟩ : Item)] :=
    HeapReachable.push ⟨0, 1⟩ HeapReachable.empty (by rfl)
  exact HeapReachable.push ⟨1, 5⟩ h1 (by rfl)

/-- C20, as stated, fails: on the path `0 - 1 - 2` with two edges of weight `2^62`
the weights sum to `2^63` and `PrimMST` returns `-2^63`, which is negative. -/
theorem PrimMST_total_negative :
    InRange 3 heavyPath ∧ NonNeg heavyPath ∧
    ∃ g t, build 3 heavyPath = .ok g ∧ g.PrimMST = .ok t ∧
      ¬ (0 ≤ t ∧ t ≤ weightSum heavyPath) := by
  refine ⟨heavyPath_inRange 3 (Nat.le_refl _), heavyPath_nonNeg, ?_⟩
  refine ⟨⟨3, [[⟨1, 4611686018427387904⟩],
    [⟨0, 4611686018427387904⟩, ⟨2, 4611686018427387904⟩],
    [⟨1, 4611686018427387904⟩]]⟩, -9223372036854775808, by rfl, by rfl, ?_⟩
  intro h
  exact absurd h.1 (by decide)

/-- C20, amended: for `n ≥ 1`, in-range end points, weights that are not negative
and a sum of all weights below `2^63`, the result of `PrimMST` is the exact sum of
the weights of pairwise distinct calls and lies between `0` and the sum of all
weights; so does the running total at every loop head. -/
theorem PrimMST_total_bounds (n : Nat) (calls : List Call) (hn : 0 < n)
    (hr : InRange n calls) (hnn : NonNeg calls)
    (hs : weightSum calls < 9223372036854775808) :
    ∃ g st0 t, build n calls = .ok g ∧ primInit g = .ok st0 ∧ g.PrimMST = .ok t ∧
      0 ≤ t ∧ t ≤ weightSum calls ∧ (∃ T, T.Subperm calls ∧ t = weightSum T) ∧
      ∀ logs st, Steps g st0 logs st →
        0 ≤ st.totalWeight ∧ st.totalWeight ≤ weightSum calls ∧
        ∃ T, T.Subperm calls ∧ st.totalWeight = weightSum T := by
  obtain ⟨g, e, hb⟩ := Built_of_build n calls hr
  obtain ⟨st0, logs, fin, h0, hrun, _, hres⟩ := PrimMST_run hb hn
  have key : ∀ logs st, Steps g st0 logs st →
      0 ≤ st.totalWeight ∧ st.totalWeight ≤ weightSum calls ∧
      ∃ T, T.Subperm calls ∧ st.totalWeight = weightSum T := by
    intro logs st h
    obtain ⟨T, hT, ht⟩ := run_total hb hn h0 h
    have h1 : 0 ≤ weightSum T := weightSum_nonneg (fun c hc => hnn c (hT.subset hc))
    have h2 : weightSum T ≤ weightSum calls := weightSum_le_of_subperm hnn hT
    rw [wrap64_of_range (by omega) (by omega)] at ht
    rw [ht]
    exact ⟨h1, h2, T, hT, rfl⟩
  obtain ⟨a, b, c⟩ := key logs fin hrun
  exact ⟨g, st0, fin.totalWeight, e, h0, hres, a, b, c, key⟩

theorem PrimMST_total_bounds_witness :
    0 < 3 ∧ InRange 3 [(0, 1, 4), (1, 2, 3), (0, 2, 9)] ∧
    NonNeg [(0, 1, 4), (1, 2, 3), (0, 2, 9)] ∧
    weightSum [(0, 1, 4), (1, 2, 3), (0, 2, 9)] < 9223372036854775808 ∧
    ∃ g st0 t, build 3 [(0, 1, 4), (1, 2, 3), (0, 2, 9)] = .ok g ∧ primInit g = .ok st0 ∧
      g.PrimMST = .ok t ∧
      0 ≤ t ∧ t ≤ weightSum [(0, 1, 4), (1, 2, 3), (0, 2, 9)] ∧
      (∃ T, T.Subperm [(0, 1, 4), (1, 2, 3), (0, 2, 9)] ∧ t = weightSum T) ∧
      ∀ logs st, Steps g st0 logs st →
        0 ≤ st.totalWeight ∧ st.totalWeight ≤ weightSum [(0, 1, 4), (1, 2, 3), (0, 2, 9)] ∧
        ∃ T, T.Subperm [(0, 1, 4), (1, 2, 3), (0, 2, 9)] ∧ st.totalWeight = weightSum T :=
  have hr : InRange 3 [(0, 1, 4), (1, 2, 3), (0, 2, 9)] := by
    intro c hc
    simp only [List.mem_cons, List.mem_singleton, List.not_mem_nil, or_false] at hc
    rcases hc with rfl | rfl | rfl <;> decide
  have hnn : NonNeg [(0, 1, 4), (1, 2, 3), (0, 2, 9)] := by
    intro c hc
    simp only [List.mem_cons, List.mem_singleton, List.not_mem_nil, or_false] at hc
    rcases hc with rfl | rfl | rfl <;> decide
  ⟨by decide, hr, hnn, by decide,
    PrimMST_total_bounds 3 [(0, 1, 4), (1, 2, 3), (0, 2, 9)] (by decide) hr hnn (by decide)⟩

/-! ## The loop, iteration by iteration: bounds, the greedy choice, the visited set -/

/-- C13: for `n ≥ 1` and `E` in-range calls the loop of `PrimMST` comes to an end
with an empty queue, and in every run from the state in which the loop is entered
(the seed item pushed) no slice is scanned twice, the seed push and the pushes of
the scans are at most `1 + 2 * E`, the iterations are at most `1 + 2 * E`, and the
queue holds at most `1 + 2 * E` items at every loop head (within an iteration it
never holds more than at one of the two loop heads); the items popped and the items
in the queue are exactly the items pushed. -/
theorem PrimMST_terminates_within_bounds (n : Nat) (calls : List Call) (hn : 0 < n)
    (hr : InRange n calls) :
    ∃ g st0, build n calls = .ok g ∧ primInit g = .ok st0 ∧ st0.pq.length = 1 ∧
      (∃ logs fin, Steps g st0 logs fin ∧ fin.pq = [] ∧ g.PrimMST = .ok fin.totalWeight) ∧
      ∀ logs st, Steps g st0 logs st →
        (scanned logs).Nodup ∧
        1 + pushed logs ≤ 1 + 2 * calls.length ∧
        logs.length ≤ 1 + 2 * calls.length ∧
        st.pq.length ≤ 1 + 2 * calls.length ∧
        logs.length + st.pq.length = 1 + pushed logs := by
  obtain ⟨g, e, hb⟩ := Built_of_build n calls hr
  have hE := build_entries e
  obtain ⟨st0, logs, fin, h0, hrun, hfin, hres⟩ := PrimMST_run hb hn
  have hq0 : st0.pq.length = 1 := by
    have := primInit_ok g
    rw [h0] at this
    cases this
    rfl
  refine ⟨g, st0, e, h0, hq0, ⟨logs, fin, hrun, hfin, hres⟩, ?_⟩
  intro logs st h
  refine ⟨(Steps_marks h).2.2.1, ?_⟩
  rcases Steps_init_cases hb hn h0 h with ⟨e1, e2⟩ | ⟨st1, k, logs1, e1, _, inv, hp, hq, _, hrest⟩
  · subst e1
    subst e2
    simp only [pushed, List.map_nil, List.sum_nil, List.length_nil]
    omega
  · obtain ⟨T2, _, hp2, hq2, _⟩ := PrimInv.run hb hrest [] inv
    subst e1
    simp only [pushed, List.map_cons, List.sum_cons, List.length_cons] at hp2 hq2 ⊢
    omega

theorem PrimMST_terminates_within_bounds_witness :
    0 < 3 ∧ InRange 3 [(0, 1, 4), (1, 2, 3), (0, 2, 9)] ∧
    ∃ g st0, build 3 [(0, 1, 4), (1, 2, 3), (0, 2, 9)] = .ok g ∧ primInit g = .ok st0 ∧
      st0.pq.length = 1 ∧
      (∃ logs fin, Steps g st0 logs fin ∧ fin.pq = [] ∧ g.PrimMST = .ok fin.totalWeight) ∧
      ∀ logs st, Steps g st0 logs st →
        (scanned logs).Nodup ∧
        1 + pushed logs ≤ 1 + 2 * [((0 : Nat), (1 : Nat), (4 : Int)), (1, 2, 3), (0, 2, 9)].length ∧
        logs.length ≤ 1 + 2 * [((0 : Nat), (1 : Nat), (4 : Int)), (1, 2, 3), (0, 2, 9)].length ∧
        st.pq.length ≤ 1 + 2 * [((0 : Nat), (1 : Nat), (4 : Int)), (1, 2, 3), (0, 2, 9)].length ∧
        logs.length + st.pq.length = 1 + pushed logs :=
  have hr : InRange 3 [(0, 1, 4), (1, 2, 3), (0, 2, 9)] := by
    intro c hc
    simp only [List.mem_cons, List.mem_singleton, List.not_mem_nil, or_false] at hc
    rcases hc with rfl | rfl | rfl <;> decide
  ⟨by decide, hr,
    PrimMST_terminates_within_bounds 3 [(0, 1, 4), (1, 2, 3), (0, 2, 9)] (by decide) hr⟩

/-- C15, as stated, fails at the first pop: on the graph of two vertices joined by
an edge of weight `5`, the first iteration pops the seed item `(0, 0)` and honours
it, while no vertex is marked yet, so no edge has a marked and an unmarked end point
whose weight the item could equal. -/
theorem seed_pop_without_crossing_edge :
    0 < 2 ∧ InRange 2 [(0, 1, 5)] ∧ NonNeg [(0, 1, 5)] ∧
    ∃ g st0 st1 log, build 2 [(0, 1, 5)] = .ok g ∧ primInit g = .ok st0 ∧
      Steps g st0 [] st0 ∧ primStepLog g st0 = .ok (st1, log) ∧
      log.honoured = true ∧ log.item = ⟨0, 0⟩ ∧
      ¬ ∃ c ∈ [((0 : Nat), (1 : Nat), (5 : Int))], ∃ a b, Joins c a b ∧
        Marked st0.visited a ∧ ¬ Marked st0.visited b ∧ c.2.2 = log.item.weight := by
  refine ⟨by decide, ?_, ?_, ?_⟩
  · intro c hc
    simp only [List.mem_singleton] at hc
    subst hc
    decide
  · intro c hc
    simp only [List.mem_singleton] at hc
    subst hc
    decide
  · refine ⟨⟨2, [[⟨1, 5⟩], [⟨0, 5⟩]]⟩, ⟨0, [false, false], [⟨0, 0⟩]⟩,
      ⟨0, [true, false], [⟨1, 5⟩]⟩, ⟨⟨0, 0⟩, true, 1⟩, by rfl, by rfl, Steps.done _, by rfl,
      rfl, rfl, ?_⟩
    rintro ⟨c, _, a, b, _, hm, _⟩
    exact not_Marked_replicate 2 a hm

/-- C15, amended: for `n ≥ 1` and in-range end points (weights of either sign), in
every run of the loop, at every pop after the first iteration of an item that is
honoured, the weight of the item is the weight of an edge from a marked vertex to
the unmarked vertex of the item, and no edge with one marked and one unmarked end
point is lighter. -/
theorem honoured_item_is_lightest_crossing (n : Nat) (calls : List Call) (hn : 0 < n)
    (hr : InRange n calls) :
    ∃ g st0, build n calls = .ok g ∧ primInit g = .ok st0 ∧
      ∀ logs st st1 log, Steps g st0 logs st → logs ≠ [] →
        primStepLog g st = .ok (st1, log) → log.honoured = true →
        (∃ c ∈ calls, ∃ u, Joins c u log.item.vertex ∧ Marked st.visited u ∧
          ¬ Marked st.visited log.item.vertex ∧ c.2.2 = log.item.weight) ∧
        ∀ c ∈ calls, ∀ a b, Joins c a b → Marked st.visited a → ¬ Marked st.visited b →
          log.item.weight ≤ c.2.2 := by
  obtain ⟨g, e, hb⟩ := Built_of_build n calls hr
  obtain ⟨st0, _, _, h0, _, _, _⟩ := PrimMST_run hb hn
  refine ⟨g, st0, e, h0, ?_⟩
  intro logs st st1 log h hne hs hh
  rcases Steps_init_cases hb hn h0 h with ⟨e1, _⟩ | ⟨st1a, k, logs1, _, _, inv1, _, _, _, hrest⟩
  · exact absurd e1 hne
  · obtain ⟨T, inv, _, _, _⟩ := PrimInv.run hb hrest [] inv1
    have hq : st.pq ≠ [] := by
      intro hq
      obtain ⟨pq1, hpop, _⟩ := primStepLog_cases hs
      rw [hq] at hpop
      have : heap.Pop [] = .error .index := rfl
      rw [this] at hpop
      cases hpop
    obtain ⟨st1b, logb, T1, e2, _, _, hmin, _, _, _, hcross⟩ := inv.step hb hq
    rw [hs] at e2
    cases e2
    obtain ⟨c, u, hc, hu, hj, hw⟩ := hcross hh
    refine ⟨⟨c, hc, u, hj, hu, ((primStepLog_marks hs).2.2 hh).1, hw⟩, ?_⟩
    intro c1 hc1 a b hj1 ha hnb
    exact hmin _ (inv.complete a b c1.2.2 ha (hb.call_adj hc1 hj1) hnb)

theorem honoured_item_is_lightest_crossing_witness :
    0 < 3 ∧ InRange 3 [(0, 1, 4), (1, 2, 3), (0, 2, 9)] ∧
    ∃ g st0, build 3 [(0, 1, 4), (1, 2, 3), (0, 2, 9)] = .ok g ∧ primInit g = .ok st0 ∧
      ∀ logs st st1 log, Steps g st0 logs st → logs ≠ [] →
        primStepLog g st = .ok (st1, log) → log.honoured = true →
        (∃ c ∈ [((0 : Nat), (1 : Nat), (4 : Int)), (1, 2, 3), (0, 2, 9)], ∃ u,
          Joins c u log.item.vertex ∧ Marked st.visited u ∧
          ¬ Marked st.visited log.item.vertex ∧ c.2.2 = log.item.weight) ∧
        ∀ c ∈ [((0 : Nat), (1 : Nat), (4 : Int)), (1, 2, 3), (0, 2, 9)], ∀ a b,
          Joins c a b → Marked st.visited a → ¬ Marked st.visited b →
          log.item.weight ≤ c.2.2 :=
  have hr : InRange 3 [(0, 1, 4), (1, 2, 3), (0, 2, 9)] := by
    intro c hc
    simp only [List.mem_cons, List.mem_singleton, List.not_mem_nil, or_false] at hc
    rcases hc with rfl | rfl | rfl <;> decide
  ⟨by decide, hr,
    honoured_item_is_lightest_crossing 3 [(0, 1, 4), (1, 2, 3), (0, 2, 9)] (by decide) hr⟩

/-- C16: for `n ≥ 1` and in-range end points, at every loop head of every run only
vertices linked to vertex `0` are marked and only such vertices have an item in the
queue; the loop reaches an empty queue, and whenever the queue is empty the marked
vertices are exactly the vertices linked to vertex `0`. -/
theorem visited_is_component_of_zero (n : Nat) (calls : List Call) (hn : 0 < n)
    (hr : InRange n calls) :
    ∃ g st0, build n calls = .ok g ∧ primInit g = .ok st0 ∧
      (∃ logs fin, Steps g st0 logs fin ∧ fin.pq = [] ∧ g.PrimMST = .ok fin.totalWeight) ∧
      ∀ logs st, Steps g st0 logs st →
        (∀ x, Marked st.visited x → Linked calls x) ∧
        (∀ it ∈ st.pq, Linked calls it.vertex) ∧
        (st.pq = [] → ∀ x, Marked st.visited x ↔ Linked calls x) := by
  obtain ⟨g, e, hb⟩ := Built_of_build n calls hr
  obtain ⟨st0, logs, fin, h0, hrun, hfin, hres⟩ := PrimMST_run hb hn
  refine ⟨g, st0, e, h0, ⟨logs, fin, hrun, hfin, hres⟩, ?_⟩
  intro logs st h
  rcases Steps_init_cases hb hn h0 h with ⟨_, e2⟩ | ⟨st1, k, logs1, _, _, inv1, _, _, _, hrest⟩
  · have hi := primInit_ok g
    rw [h0] at hi
    cases hi
    subst e2
    refine ⟨?_, ?_, ?_⟩
    · intro x hx
      exact absurd hx (not_Marked_replicate _ _)
    · intro it hit
      have : it = ⟨0, 0⟩ := by simpa using hit
      rw [this]
      exact Reach.base rfl
    · intro hq
      simp at hq
  · obtain ⟨T, inv, _, _, _⟩ := PrimInv.run hb hrest [] inv1
    refine ⟨inv.up, ?_, ?_⟩
    · intro it hit
      obtain ⟨u, hu, he⟩ := inv.sound it hit
      obtain ⟨c, hc, hj, _⟩ := hb.adj_call he
      exact Reach.step hc hj.symm (inv.up u hu)
    · intro hq x
      exact ⟨inv.up x, inv.closed hb hq x⟩

theorem visited_is_component_of_zero_witness :
    0 < 3 ∧ InRange 3 [(0, 1, 4)] ∧
    ∃ g st0, build 3 [(0, 1, 4)] = .ok g ∧ primInit g = .ok st0 ∧
      (∃ logs fin, Steps g st0 logs fin ∧ fin.pq = [] ∧ g.PrimMST = .ok fin.totalWeight) ∧
      ∀ logs st, Steps g st0 logs st →
        (∀ x, Marked st.visited x → Linked [(0, 1, 4)] x) ∧
        (∀ it ∈ st.pq, Linked [(0, 1, 4)] it.vertex) ∧
        (st.pq = [] → ∀ x, Marked st.visited x ↔ Linked [(0, 1, 4)] x) :=
  have hr : InRange 3 [(0, 1, 4)] := by
    intro c hc
    simp only [List.mem_singleton] at hc
    subst hc
    decide
  ⟨by decide, hr, visited_is_component_of_zero 3 [(0, 1, 4)] (by decide) hr⟩

/-- C17: in every run of the loop of `PrimMST`, on any graph, the vertices honoured
are pairwise distinct, are marked at the end of the run and are at most `n`; and
for the iteration that follows: every mark is kept; an item whose vertex is marked
is not honoured and leaves `visited` and the total as they are; an item whose vertex
is not marked is honoured, its vertex is marked and its weight is added to the
total (in 64-bit arithmetic). -/
theorem visited_monotone_honoured_once (g : Graph) (st0 st : PrimState)
    (logs : List StepLog) (h0 : primInit g = .ok st0) (h : Steps g st0 logs st) :
    (scanned logs).Nodup ∧ (scanned logs).length ≤ g.vertices ∧
      (∀ v ∈ scanned logs, Marked st.visited v) ∧
      (∀ x, Marked st0.visited x → Marked st.visited x) ∧
      ∀ st1 log, primStepLog g st = .ok (st1, log) →
        (∀ x, Marked st.visited x → Marked st1.visited x) ∧
        (Marked st.visited log.item.vertex →
          log.honoured = false ∧ st1.visited = st.visited ∧
          st1.totalWeight = st.totalWeight) ∧
        (¬ Marked st.visited log.item.vertex →
          log.honoured = true ∧ Marked st1.visited log.item.vertex ∧
          st1.totalWeight = wrap64 (st.totalWeight + log.item.weight)) := by
  obtain ⟨hlen, hmono, nd, hsc⟩ := Steps_marks h
  have hl0 : st0.visited.length = g.vertices := by
    have hi := primInit_ok g
    rw [h0] at hi
    cases hi
    exact List.length_replicate _ _
  refine ⟨nd, ?_, fun v hv => (hsc v hv).2, hmono, ?_⟩
  · apply nodup_length_le nd
    intro v hv
    have := Marked_lt (hsc v hv).2
    omega
  · intro st1 log hs
    obtain ⟨_, hm, hf⟩ := primStepLog_marks hs
    obtain ⟨pq1, _, hc⟩ := primStepLog_cases hs
    refine ⟨hm, ?_, ?_⟩
    · intro hmk
      rcases hc with ⟨_, hh, _, e⟩ | ⟨hseen, _, _⟩
      · subst e
        exact ⟨hh, rfl, rfl⟩
      · have := idx_ok_iff.mp hseen
        unfold Marked at hmk
        rw [hmk] at this
        cases this
    · intro hmk
      rcases hc with ⟨hseen, _, _, _⟩ | ⟨_, hh, adj, pq2, _, _, e⟩
      · exact absurd (idx_ok_iff.mp hseen) hmk
      · refine ⟨hh, (hf hh).2, ?_⟩
        subst e
        rfl

theorem visited_monotone_honoured_once_witness :
    primInit ⟨2, [[⟨1, 5⟩], [⟨0, 5⟩]]⟩ = .ok ⟨0, [false, false], [⟨0, 0⟩]⟩ ∧
    Steps ⟨2, [[⟨1, 5⟩], [⟨0, 5⟩]]⟩ ⟨0, [false, false], [⟨0, 0⟩]⟩ [⟨⟨0, 0⟩, true, 1⟩]
      ⟨0, [true, false], [⟨1, 5⟩]⟩ ∧
    ((scanned [(⟨⟨0, 0⟩, true, 1⟩ : StepLog)]).Nodup ∧
      (scanned [(⟨⟨0, 0⟩, true, 1⟩ : StepLog)]).length ≤ 2 ∧
      (∀ v ∈ scanned [(⟨⟨0, 0⟩, true, 1⟩ : StepLog)], Marked [true, false] v) ∧
      (∀ x, Marked [false, false] x → Marked [true, false] x) ∧
      ∀ st1 log, primStepLog ⟨2, [[⟨1, 5⟩], [⟨0, 5⟩]]⟩ ⟨0, [true, false], [⟨1, 5⟩]⟩ =
          .ok (st1, log) →
        (∀ x, Marked [true, false] x → Marked st1.visited x) ∧
        (Marked [true, false] log.item.vertex →
          log.honoured = false ∧ st1.visited = [true, false] ∧ st1.totalWeight = 0) ∧
        (¬ Marked [true, false] log.item.vertex →
          log.honoured = true ∧ Marked st1.visited log.item.vertex ∧
          st1.totalWeight = wrap64 (0 + log.item.weight))) :=
  have h0 : primInit ⟨2, [[⟨1, 5⟩], [⟨0, 5⟩]]⟩ = .ok ⟨0, [false, false], [⟨0, 0⟩]⟩ := by rfl
  have h : Steps ⟨2, [[⟨1, 5⟩], [⟨0, 5⟩]]⟩ ⟨0, [false, false], [⟨0, 0⟩]⟩ [⟨⟨0, 0⟩, true, 1⟩]
      ⟨0, [true, false], [⟨1, 5⟩]⟩ :=
    Steps.next (by decide) (by rfl) (Steps.done _)
  ⟨h0, h, visited_monotone_honoured_once _ _ _ _ h0 h⟩

/-- C18: for `n ≥ 1`, in-range end points, a vertex `u < n` and any weight `w`, the
call `AddEdge(u, u, w)` ends well and the graph it gives has the same result of
`PrimMST` as the graph before the call. -/
theorem PrimMST_self_loop (n : Nat) (calls : List Call) (hn : 0 < n)
    (hr : InRange n calls) (u : Nat) (hu : u < n) (w : Int) :
    ∃ g g1 t, build n calls = .ok g ∧ g.AddEdge u u w = .ok g1 ∧
      g.PrimMST = .ok t ∧ g1.PrimMST = .ok t := by
  obtain ⟨g, e, hb⟩ := Built_of_build n calls hr
  have hul : u < g.adjList.length := by rw [hb.len]; exact hu
  obtain ⟨g1, e1, hv, hl, ha⟩ := AddEdge_adj g u u w hul hul
  obtain ⟨g1a, e1a, hb1⟩ := hb.AddEdge u u w hu hu
  rw [e1] at e1a
  cases e1a
  obtain ⟨m, hm, _⟩ := PrimMST_spec hb hn
  obtain ⟨m1, hm1, _⟩ := PrimMST_spec hb1 hn
  refine ⟨g, g1, wrap64 m, e, e1, hm, ?_⟩
  rw [hm1]
  rw [PrimMST_eq, primInit_ok] at hm hm1
  simp only [Except.bind] at hm hm1
  rw [hv] at hm1
  have hA := primLoop_fuel g _ _ _ hm (g1.entries + 2)
  have hB := primLoop_fuel g1 _ _ _ hm1 (g.entries + 2)
  rw [Nat.add_comm (g1.entries + 2)] at hB
  have hsim := primLoop_self_loop hl ha (g.entries + 2 + (g1.entries + 2))
    { totalWeight := 0, visited := List.replicate g.vertices false, pq := [⟨0, 0⟩] }
    (by
      show u < (List.replicate g.vertices false).length
      rw [List.length_replicate, hb.vertices]
      exact hu)
  rw [hsim, hA] at hB
  exact hB.symm

theorem PrimMST_self_loop_witness :
    0 < 3 ∧ InRange 3 [(0, 1, -4), (1, 2, 3)] ∧ 1 < 3 ∧
    ∃ g g1 t, build 3 [(0, 1, -4), (1, 2, 3)] = .ok g ∧ g.AddEdge 1 1 (-7) = .ok g1 ∧
      g.PrimMST = .ok t ∧ g1.PrimMST = .ok t :=
  have hr : InRange 3 [(0, 1, -4), (1, 2, 3)] := by
    intro c hc
    simp only [List.mem_cons, List.mem_singleton, List.not_mem_nil, or_false] at hc
    rcases hc with rfl | rfl <;> decide
  ⟨by decide, hr, by decide,
    PrimMST_self_loop 3 [(0, 1, -4), (1, 2, 3)] (by decide) hr 1 (by decide) (-7)⟩

/-! ## The graph object across a call of `PrimMST` -/

/-- The scan on the memory assigns to `pq` what `pushNeighbours` computes and to
nothing else. -/
theorem memScan_eq : ∀ (adj : List Edge) (m : Memory),
    memScan adj m =
      (pushNeighbours m.visited adj m.pq).map (fun pq => { m with pq := pq }) := by
  intro adj
  induction adj with
  | nil => intro m; rfl
  | cons e rest ih =>
    intro m
    unfold memScan pushNeighbours
    cases h1 : idx m.visited e.dest with
    | error err => rfl
    | ok seen =>
      simp only [bind, Except.bind]
      cases seen with
      | true =>
        simp only [Bool.not_true, Bool.false_eq_true, if_false]
        exact ih m
      | false =>
        simp only [Bool.not_false, if_true]
        cases h2 : heap.Push m.pq ⟨e.dest, e.weight⟩ with
        | error err => rfl
        | ok pq1 =>
          simp only []
          exact ih { m with pq := pq1 }

/-- The loop on the memory ends with the graph object it began with, and its last
`totalWeight` is the result of `primLoop` on the locals. -/
theorem memLoop_spec : ∀ (fuel : Nat) (m : Memory),
    (∀ m1, memLoop fuel m = .ok m1 → m1.graph = m.graph) ∧
    (memLoop fuel m).map (fun m1 => m1.totalWeight) =
      primLoop m.graph fuel
        { totalWeight := m.totalWeight, visited := m.visited, pq := m.pq } := by
  intro fuel
  induction fuel with
  | zero =>
    intro m
    refine ⟨?_, rfl⟩
    intro m1 h
    unfold memLoop at h
    cases h
  | succ fuel ih =>
    intro m
    rw [memLoop, primLoop]
    by_cases hl : PriorityQueue.Len m.pq > 0
    · simp only [hl, if_true]
      cases h1 : heap.Pop m.pq with
      | error err =>
        refine ⟨?_, rfl⟩
        intro m1 h
        cases h
      | ok r =>
        obtain ⟨x, pq1⟩ := r
        simp only [bind, Except.bind]
        cases h2 : idx m.visited x.vertex with
        | error err =>
          refine ⟨?_, rfl⟩
          intro m1 h
          cases h
        | ok seen =>
          simp only []
          cases seen with
          | true =>
            simp only [if_true]
            exact ih { m with pq := pq1 }
          | false =>
            simp only [Bool.false_eq_true, if_false]
            cases h3 : idx m.graph.adjList x.vertex with
            | error err =>
              refine ⟨?_, rfl⟩
              intro m1 h
              cases h
            | ok adj =>
              simp only []
              rw [memScan_eq]
              cases h4 : pushNeighbours (m.visited.set x.vertex true) adj pq1 with
              | error err =>
                refine ⟨?_, rfl⟩
                intro m1 h
                cases h
              | ok pq2 =>
                simp only [Except.map]
                exact ih { graph := m.graph,
                           totalWeight := wrap64 (m.totalWeight + x.weight),
                           visited := m.visited.set x.vertex true, pq := pq2 }
    · simp only [hl, if_false]
      refine ⟨?_, rfl⟩
      intro m1 h
      cases h
      rfl

/-- A call that returns: the graph object it leaves is the one it found, and the
total it returns is the result of `PrimMST`. -/
theorem callPrimMST_of_PrimMST {g : Graph} {t : Int} (h : g.PrimMST = .ok t) :
    g.callPrimMST = .ok (g, t) := by
  rw [PrimMST_eq, primInit_ok] at h
  simp only [Except.bind] at h
  obtain ⟨hframe, htotal⟩ := memLoop_spec (g.entries + 2)
    { graph := g, totalWeight := 0, visited := List.replicate g.vertices false,
      pq := [⟨0, 0⟩] }
  simp only [] at htotal hframe
  rw [h] at htotal
  have hseed : heap.Push [] ⟨0, 0⟩ = .ok [⟨0, 0⟩] := by rfl
  unfold Graph.callPrimMST
  rw [heap_Init_nil]
  simp only [bind, Except.bind]
  rw [hseed]
  simp only []
  cases h1 : memLoop (g.entries + 2)
      { graph := g, totalWeight := 0, visited := List.replicate g.vertices false,
        pq := [⟨0, 0⟩] } with
  | error err =>
    rw [h1] at htotal
    cases htotal
  | ok m1 =>
    rw [h1] at htotal
    simp only [Except.map] at htotal
    cases htotal
    have := hframe m1 h1
    simp only [pure, Except.pure]
    rw [this]

/-- C9: for `n ≥ 1` and in-range end points, a call of `PrimMST`, run statement by
statement on the memory that holds the graph object, returns the total of
`PrimMST` and leaves the graph object as it was (vertex count and adjacency
slices); a second call, run on the graph object that the first call left, leaves
it unchanged again and returns the same total. -/
theorem PrimMST_leaves_graph (n : Nat) (calls : List Call) (hn : 0 < n)
    (hr : InRange n calls) :
    ∃ g t, build n calls = .ok g ∧ g.PrimMST = .ok t ∧
      (∃ m, memLoop (g.entries + 2)
          { graph := g, totalWeight := 0, visited := List.replicate g.vertices false,
            pq := [⟨0, 0⟩] } = .ok m ∧
        m.graph.vertices = g.vertices ∧ m.graph.adjList = g.adjList ∧
        m.totalWeight = t) ∧
      g.callPrimMST = .ok (g, t) ∧ g.callPrimMSTTwice = .ok (g, t, t) := by
  obtain ⟨g, e, hb⟩ := Built_of_build n calls hr
  obtain ⟨m, hrun, _⟩ := PrimMST_spec hb hn
  have h1 := callPrimMST_of_PrimMST hrun
  refine ⟨g, wrap64 m, e, hrun, ?_, h1, ?_⟩
  · obtain ⟨hframe, htotal⟩ := memLoop_spec (g.entries + 2)
      { graph := g, totalWeight := 0, visited := List.replicate g.vertices false,
        pq := [⟨0, 0⟩] }
    simp only [] at htotal hframe
    have h2 := hrun
    rw [PrimMST_eq, primInit_ok] at h2
    simp only [Except.bind] at h2
    rw [h2] at htotal
    cases h3 : memLoop (g.entries + 2)
        { graph := g, totalWeight := 0, visited := List.replicate g.vertices false,
          pq := [⟨0, 0⟩] } with
    | error err =>
      rw [h3] at htotal
      cases htotal
    | ok m1 =>
      rw [h3] at htotal
      simp only [Except.map] at htotal
      have ht := Except.ok.inj htotal
      have hg := hframe m1 h3
      exact ⟨m1, rfl, by rw [hg], by rw [hg], ht⟩
  · unfold Graph.callPrimMSTTwice
    rw [h1]
    simp only [bind, Except.bind]
    rw [h1]
    rfl

theorem PrimMST_leaves_graph_witness :
    0 < 3 ∧ InRange 3 [(0, 1, -4), (1, 2, 3)] ∧
    ∃ g t, build 3 [(0, 1, -4), (1, 2, 3)] = .ok g ∧ g.PrimMST = .ok t ∧
      (∃ m, memLoop (g.entries + 2)
          { graph := g, totalWeight := 0, visited := List.replicate g.vertices false,
            pq := [⟨0, 0⟩] } = .ok m ∧
        m.graph.vertices = g.vertices ∧ m.graph.adjList = g.adjList ∧
        m.totalWeight = t) ∧
      g.callPrimMST = .ok (g, t) ∧ g.callPrimMSTTwice = .ok (g, t, t) :=
  have hr : InRange 3 [(0, 1, -4), (1, 2, 3)] := by
    intro c hc
    simp only [List.mem_cons, List.mem_singleton, List.not_mem_nil, or_false] at hc
    rcases hc with rfl | rfl <;> decide
  ⟨by decide, hr, PrimMST_leaves_graph 3 [(0, 1, -4), (1, 2, 3)] (by decide) hr⟩

end Prime
